import Mathlib

/-!
Verification of the `algo-pde` spectral Poisson/Helmholtz solver core.

This file is a shallow embedding, in Lean 4, of the Go sources of the
`algo-pde` repository (packages `poisson`, `r2r`, `grid`).  Go `float64`
values are modelled as real numbers, `complex128` as Lean's `ℂ`, slices of
reals as functions `ℕ → ℝ` together with an explicit length, and fallible
functions as `Except`-valued functions.  Each definition mirrors one Go
function and keeps its name where Lean allows it.

The backing complex FFT (`algo-fft`) is an external dependency of the
repository; it is modelled by the standard unnormalized discrete Fourier
transform, per the interface contract stated in the specification
(forward DFT, inverse normalized so that `inverse (forward x) = x`).
-/

noncomputable section

open Real Finset

namespace AlgoPde

/-! ## Boundary-condition kinds (`poisson/bc.go`)

Go's `BCType` is an `int` enum with named constants `Periodic = 0`,
`Dirichlet = 1`, `Neumann = 2`; other integer values are possible and are
rejected by plan validation.  We model validated kinds by an inductive type
and raw caller input by `ℤ`. -/

inductive BCType
  | periodic
  | dirichlet
  | neumann
  deriving DecidableEq, Repr

/-- `BCType.HasNullspace` from `poisson/bc.go`: Periodic and Neumann have a
nullspace; Dirichlet does not. -/
def BCType.HasNullspace : BCType → Bool
  | .periodic => true
  | .dirichlet => false
  | .neumann => true

/-- Decoding of a raw Go `BCType` integer, mirroring the
`switch bc[axis] { case Periodic, Dirichlet, Neumann: ... default: error }`
recognition in `newPlanWithAlpha`. -/
def decodeBC : ℤ → Option BCType
  | 0 => some .periodic
  | 1 => some .dirichlet
  | 2 => some .neumann
  | _ => none

/-! ## Errors (`poisson/errors.go`, wrapping sites in `plan.go`) -/

inductive PoissonErr
  /-- `ErrInvalidSize` -/
  | invalidSize
  /-- `ErrInvalidSpacing` -/
  | invalidSpacing
  /-- `ErrSizeMismatch` -/
  | sizeMismatch
  /-- `ErrNullspace` -/
  | nullspace
  /-- `ErrNonZeroMean` -/
  | nonZeroMean
  /-- `ErrNilBuffer` -/
  | nilBuffer
  /-- `ErrResonant` -/
  | resonant
  /-- `&ValidationError{Field, Message}` (messages elided; the field string
  identifies the error site) -/
  | validation (field : String)
  /-- `&SizeError{Expected, Got, Context}` -/
  | sizeErr (expected got : ℕ) (context : String)
  /-- `fmt.Errorf("forward axis %d: %w", axis, err)` in `Solve` -/
  | forwardAxis (axis : ℕ) (e : PoissonErr)
  /-- `fmt.Errorf("inverse axis %d: %w", axis, err)` in `Solve` -/
  | inverseAxis (axis : ℕ) (e : PoissonErr)
  deriving DecidableEq, Repr

/-! ## Eigenvalue tables (`poisson/eigenvalues_bc.go`, `eigenvaluesPeriodic`) -/

/-- `eigenvaluesDirichlet(n, h)`: the Go loop runs `m = 1..n` storing
`eig[m-1] = (2 - 2 cos(π m/(n+1)))/h²`, so entry `i` holds the value at
`m = i + 1`. -/
def eigenvaluesDirichlet (n : ℕ) (h : ℝ) : List ℝ :=
  (List.range n).map fun i =>
    (2 - 2 * Real.cos (Real.pi * (i + 1 : ℕ) / ((n : ℝ) + 1))) / (h * h)

/-- `eigenvaluesNeumann(n, h)`: `eig[m] = (2 - 2 cos(π m/n))/h²`. -/
def eigenvaluesNeumann (n : ℕ) (h : ℝ) : List ℝ :=
  (List.range n).map fun (m : ℕ) =>
    (2 - 2 * Real.cos (Real.pi * (m : ℝ) / (n : ℝ))) / (h * h)

/-- `eigenvaluesPeriodic(n, h)` (in `poisson`): `eig[m] = (2 - 2 cos(2π m/n))/h²`. -/
def eigenvaluesPeriodic (n : ℕ) (h : ℝ) : List ℝ :=
  (List.range n).map fun (m : ℕ) =>
    (2 - 2 * Real.cos (2 * Real.pi * (m : ℝ) / (n : ℝ))) / (h * h)

/-! ## Options and worker resolution (`options.go`, concurrency utility) -/

inductive NullspaceHandling
  /-- `NullspaceZeroMode` (default) -/
  | zeroMode
  /-- `NullspaceSubtractMean` -/
  | subtractMean
  /-- `NullspaceError` -/
  | nullspaceError
  deriving DecidableEq, Repr

/-- `Options` from `options.go`.  `Workers` is a Go `int` (may be
nonpositive before resolution), modelled as `ℤ`. -/
structure Options where
  nullspace : NullspaceHandling
  solutionMean : Option ℝ
  useRealFFT : Bool
  workers : ℤ
  inPlace : Bool

/-- `DefaultOptions()` -/
def DefaultOptions : Options :=
  { nullspace := .zeroMode, solutionMean := none, useRealFFT := false,
    workers := 0, inPlace := false }

/-- `effectiveWorkers` from the concurrency utility: a nonpositive request is
replaced by `runtime.GOMAXPROCS(0)` (passed here as the explicit parameter
`gomaxprocs`), and the result is clamped to at least 1. -/
def effectiveWorkers (gomaxprocs : ℤ) (workers : ℤ) : ℤ :=
  let w := if workers ≤ 0 then gomaxprocs else workers
  if w < 1 then 1 else w

/-- `clampWorkers(workers, tasks)`: 1 when there is no work, otherwise the
request clamped into `[1, tasks]`. -/
def clampWorkers (workers : ℤ) (tasks : ℕ) : ℕ :=
  if tasks < 1 then 1
  else if (if workers < 1 then 1 else workers) > (tasks : ℤ) then tasks
  else (if workers < 1 then 1 else workers).toNat

/-! ## Grid geometry (`grid/` package) -/

/-- `grid.Shape`: a fixed triple of sizes, unused axes padded to 1. -/
abbrev Shape := Fin 3 → ℕ

/-- `Shape.Size()` -/
def Shape.size (s : Shape) : ℕ := s 0 * s 1 * s 2

/-- `grid.RowMajorStride`: strides `[ny*nz, nz, 1]`. -/
def rowMajorStride (s : Shape) : Fin 3 → ℕ :=
  fun a => if a = 0 then s 1 * s 2 else if a = 1 then s 2 else 1

/-- `otherAxes` from the concurrency utility. -/
def otherAxes : Fin 3 → Fin 3 × Fin 3
  | 0 => (1, 2)
  | 1 => (0, 2)
  | 2 => (0, 1)

/-- `lineCount(shape, axis)`: the number of lines parallel to `axis`. -/
def lineCount (s : Shape) (axis : Fin 3) : ℕ :=
  s (otherAxes axis).1 * s (otherAxes axis).2

/-- `lineStartIndex(shape, axis, line)`. -/
def lineStartIndex (s : Shape) (axis : Fin 3) (line : ℕ) : ℕ :=
  let other0 := (otherAxes axis).1
  let other1 := (otherAxes axis).2
  let max0 := s other0
  if max0 ≤ 0 then 0
  else
    let pos0 := line % max0
    let pos1 := line / max0
    pos0 * rowMajorStride s other0 + pos1 * rowMajorStride s other1

/-! ## Axis transforms and workspace (`transform.go`, `axis_transform.go`)

A Go `AxisTransform` interface value is one of the three implementations,
each of which stores the 1D plan it was built with; the plan is fully
determined by its length (all other fields are scratch buffers or clones for
parallel workers, which do not affect the computed values).  `Length()`
returns that stored length. -/

inductive AxisTransformM
  /-- `fftAxisTransform` wrapping `FFTPlan` of length `len` -/
  | fft (len : ℕ)
  /-- `dstAxisTransform` wrapping `r2r.DSTPlan` of length `len` -/
  | dst (len : ℕ)
  /-- `dctAxisTransform` wrapping `r2r.DCT2Plan` of length `len` -/
  | dct (len : ℕ)
  deriving DecidableEq, Repr

/-- `AxisTransform.Length()` -/
def AxisTransformM.Length : AxisTransformM → ℕ
  | .fft len => len
  | .dst len => len
  | .dct len => len

/-- `Workspace` (`transform.go`): pre-allocated buffers; only the lengths are
plan state, the contents are scratch threaded explicitly through the solver
model. -/
structure Workspace where
  realLen : ℕ
  complexLen : ℕ
  deriving DecidableEq, Repr

/-- `NewWorkspace(realSize, complexSize)` -/
def NewWorkspace (realSize complexSize : ℕ) : Workspace :=
  { realLen := realSize, complexLen := complexSize }

/-! ## Plan (`plan.go`) -/

/-- `Plan`: grid shape, spacings, boundary conditions, eigenvalue tables,
axis transforms, workspace, options, `α`.  Axes `≥ dim` keep the Go
zero/default values (`n = 1`, `h = 1`, `bc = Periodic`, `eig = nil`,
`tr = nil`). -/
structure Plan where
  dim : ℕ
  n : Fin 3 → ℕ
  h : Fin 3 → ℝ
  bc : Fin 3 → BCType
  eig : Fin 3 → List ℝ
  tr : Fin 3 → Option AxisTransformM
  work : Workspace
  opts : Options
  alpha : ℝ

/-- `(p *Plan) size()` -/
def Plan.size (p : Plan) : ℕ :=
  p.n 0 * p.n 1 * p.n 2

/-- `(p *Plan) shape()` -/
def Plan.shape (p : Plan) : Shape := p.n

/-- `(p *Plan) hasNullspace()`: `α = 0` and every used axis BC has a
nullspace. -/
def Plan.hasNullspace (p : Plan) : Prop :=
  p.alpha = 0 ∧ ∀ a : Fin 3, (a : ℕ) < p.dim → (p.bc a).HasNullspace = true

/-- The per-axis validation checks of `newPlanWithAlpha`, in source order:
size, then spacing, then BC recognition, for one axis. -/
def axisCheck (n : List ℕ) (h : List ℝ) (bc : List ℤ) (axis : ℕ) :
    Option PoissonErr :=
  if n.getD axis 0 < 1 then some .invalidSize
  else if h.getD axis 0 ≤ 0 then some .invalidSpacing
  else if decodeBC (bc.getD axis 0) = none then
    some (.validation ("bc[" ++ toString axis ++ "]"))
  else none

/-- The validation loop of `newPlanWithAlpha`: the first failing axis check
for `axis = 0..dim-1`, if any. -/
def validateAxes (dim : ℕ) (n : List ℕ) (h : List ℝ) (bc : List ℤ) :
    Option PoissonErr :=
  (List.range dim).findSome? (axisCheck n h bc)

/-- The boundary condition stored for a used axis (validation guarantees the
decode succeeds; the default is never reached for a validated axis). -/
def planBC (bc : List ℤ) (axis : ℕ) : BCType :=
  (decodeBC (bc.getD axis 0)).getD .periodic

/-- The eigenvalue table built for one used axis (second construction loop of
`newPlanWithAlpha`). -/
def planEig (n : List ℕ) (h : List ℝ) (bc : List ℤ) (axis : ℕ) : List ℝ :=
  match planBC bc axis with
  | .periodic => eigenvaluesPeriodic (n.getD axis 0) (h.getD axis 0)
  | .dirichlet => eigenvaluesDirichlet (n.getD axis 0) (h.getD axis 0)
  | .neumann => eigenvaluesNeumann (n.getD axis 0) (h.getD axis 0)

/-- The axis transform built for one used axis.  `newFFTAxisTransform`,
`newDSTAxisTransform` and `newDCTAxisTransform` can only fail when the
backing 1D plan constructors fail; those require `n ≥ 1`, which validation
has established, and the external `algo-fft` plan constructor succeeds for
every `N ≥ 1` per its interface contract, so construction is total here. -/
def planTr (n : List ℕ) (bc : List ℤ) (axis : ℕ) : AxisTransformM :=
  match planBC bc axis with
  | .periodic => .fft (n.getD axis 0)
  | .dirichlet => .dst (n.getD axis 0)
  | .neumann => .dct (n.getD axis 0)

/-- `newPlanWithAlpha(dim, n, h, bc, alpha, opts...)` from `plan.go`.
`gomaxprocs` stands for the runtime value `runtime.GOMAXPROCS(0)` consumed
by `effectiveWorkers`.  Checks appear in source order: `dim` range, the three
array-length checks, then the per-axis loop (size, spacing, BC kind per
axis). -/
def newPlanWithAlpha (gomaxprocs : ℤ) (dim : ℕ) (n : List ℕ) (h : List ℝ)
    (bc : List ℤ) (alpha : ℝ) (opts : Options) : Except PoissonErr Plan :=
  if dim < 1 ∨ 3 < dim then .error (.validation "dim")
  else if n.length ≠ dim then .error (.validation "n")
  else if h.length ≠ dim then .error (.validation "h")
  else if bc.length ≠ dim then .error (.validation "bc")
  else
    match validateAxes dim n h bc with
    | some e => .error e
    | none =>
      let options : Options :=
        { opts with workers := effectiveWorkers gomaxprocs opts.workers }
      let sz := (List.range dim).foldl (fun acc axis => acc * n.getD axis 0) 1
      .ok
        { dim := dim
          n := fun a => if (a : ℕ) < dim then n.getD (a : ℕ) 0 else 1
          h := fun a => if (a : ℕ) < dim then h.getD (a : ℕ) 0 else 1
          bc := fun a => if (a : ℕ) < dim then planBC bc (a : ℕ) else .periodic
          eig := fun a => if (a : ℕ) < dim then planEig n h bc (a : ℕ) else []
          tr := fun a => if (a : ℕ) < dim then some (planTr n bc (a : ℕ)) else none
          work := NewWorkspace (if options.inPlace then 0 else sz) sz
          opts := options
          alpha := alpha }

/-! ## Validation-order results (C6) -/

/-- All validation conditions of `newPlanWithAlpha` hold. -/
def ValidInputs (dim : ℕ) (n : List ℕ) (h : List ℝ) (bc : List ℤ) : Prop :=
  (1 ≤ dim ∧ dim ≤ 3) ∧ n.length = dim ∧ h.length = dim ∧ bc.length = dim ∧
    ∀ axis, axis < dim →
      1 ≤ n.getD axis 0 ∧ 0 < h.getD axis 0 ∧ (decodeBC (bc.getD axis 0)).isSome

/-! ## Boundary faces and data (`bc.go`) -/

inductive BoundaryFace
  | xLow | xHigh | yLow | yHigh | zLow | zHigh
  deriving DecidableEq, Repr

/-- `faceAxis` from `plan_bc.go` (every face of the model type is valid, so
only the axis is returned). -/
def faceAxis : BoundaryFace → Fin 3
  | .xLow | .xHigh => 0
  | .yLow | .yHigh => 1
  | .zLow | .zHigh => 2

def faceIsHigh : BoundaryFace → Bool
  | .xHigh | .yHigh | .zHigh => true
  | _ => false

/-- `BoundaryData`: face, BC kind and the face value array (length kept
explicit). -/
structure BoundaryDataM where
  face : BoundaryFace
  type : BCType
  valuesLen : ℕ
  values : ℕ → ℝ

/-- A Go real slice: explicit length plus contents. -/
structure RSlice where
  len : ℕ
  data : ℕ → ℝ

/-- `Shape.Dim()` from `grid`: 3 if `nz > 1`, else 2 if `ny > 1`, else 1. -/
def Shape.dim (s : Shape) : ℕ :=
  if 1 < s 2 then 3 else if 1 < s 1 then 2 else 1

/-! ## In-place patch loops

`addAt f idx δ` is the in-place statement `f[idx] += δ`; `loop1` and
`faceLoop2` are the single and double `for` loops of the boundary patches,
where the added amount `δ` does not depend on the buffer state (it is read
from the face value array and the spacing). -/

def addAt (f : ℕ → ℝ) (idx : ℕ) (δ : ℝ) : ℕ → ℝ :=
  fun t => if t = idx then f t + δ else f t

/-- `for b := 0; b < cnt; b++ { f[pos b] += δ b }` -/
def loop1 (cnt : ℕ) (pos : ℕ → ℕ) (δ : ℕ → ℝ) (f : ℕ → ℝ) : ℕ → ℝ :=
  match cnt with
  | 0 => f
  | b + 1 => addAt (loop1 b pos δ f) (pos b) (δ b)

/-- `for a < c1 { for b < c2 { f[pos a b] += δ a b } }` -/
def faceLoop2 (c1 c2 : ℕ) (pos : ℕ → ℕ → ℕ) (δ : ℕ → ℕ → ℝ) (f : ℕ → ℝ) :
    ℕ → ℝ :=
  match c1 with
  | 0 => f
  | a + 1 => loop1 c2 (pos a) (δ a) (faceLoop2 a c2 pos δ f)

/-! ## Inhomogeneous boundary patches
(`boundary_dirichlet.go`, `boundary_neumann.go`) -/

/-- One iteration of the `for _, data := range bc` loop of
`ApplyDirichletRHS`: validates the datum, then folds the face values into
the adjacent layer of `r` (subtracting `g·(1/h²)`). -/
def applyDirichletData (s : Shape) (h : Fin 3 → ℝ) (r : ℕ → ℝ)
    (data : BoundaryDataM) : Except PoissonErr (ℕ → ℝ) :=
  if data.type ≠ .dirichlet then .error (.validation "Type")
  else
    match data.face with
    | .xLow | .xHigh =>
      if s.dim < 1 then .error (.validation "Face")
      else if data.valuesLen ≠ s 1 * s 2 then
        .error (.sizeErr (s 1 * s 2) data.valuesLen "X face values")
      else
        let invHx2 := 1 / (h 0 * h 0)
        let base := if data.face = .xHigh then (s 0 - 1) * (s 1 * s 2) else 0
        .ok (faceLoop2 (s 1) (s 2) (fun j k => base + j * s 2 + k)
          (fun j k => -(data.values (j * s 2 + k) * invHx2)) r)
    | .yLow | .yHigh =>
      if s.dim < 2 then .error (.validation "Face")
      else if data.valuesLen ≠ s 0 * s 2 then
        .error (.sizeErr (s 0 * s 2) data.valuesLen "Y face values")
      else
        let invHy2 := 1 / (h 1 * h 1)
        let j0 := if data.face = .yHigh then s 1 - 1 else 0
        .ok (faceLoop2 (s 0) (s 2) (fun i k => i * (s 1 * s 2) + j0 * s 2 + k)
          (fun i k => -(data.values (i * s 2 + k) * invHy2)) r)
    | .zLow | .zHigh =>
      if s.dim < 3 then .error (.validation "Face")
      else if data.valuesLen ≠ s 0 * s 1 then
        .error (.sizeErr (s 0 * s 1) data.valuesLen "Z face values")
      else
        let invHz2 := 1 / (h 2 * h 2)
        let k0 := if data.face = .zHigh then s 2 - 1 else 0
        .ok (faceLoop2 (s 0) (s 1) (fun i j => i * (s 1 * s 2) + j * s 2 + k0)
          (fun i j => -(data.values (i * s 1 + j) * invHz2)) r)

/-- `ApplyDirichletRHS(rhs, shape, h, bc)`: nil and length checks, then the
per-datum folds.  (On an error at a later datum the Go version leaves the
partial in-place mutation behind; the `Except` model drops it.  No claim
depends on a failing multi-datum call.) -/
def ApplyDirichletRHS (rhs : Option RSlice) (s : Shape) (h : Fin 3 → ℝ)
    (bc : List BoundaryDataM) : Except PoissonErr (ℕ → ℝ) :=
  match rhs with
  | none => .error .nilBuffer
  | some r =>
    if r.len ≠ s.size then .error (.sizeErr s.size r.len "ApplyDirichletRHS")
    else bc.foldlM (applyDirichletData s h) r.data

/-- One iteration of the datum loop of `ApplyNeumannRHS`: adds `g·scale`
with `scale = -1/h` for Low faces and `+1/h` for High faces. -/
def applyNeumannData (s : Shape) (h : Fin 3 → ℝ) (r : ℕ → ℝ)
    (data : BoundaryDataM) : Except PoissonErr (ℕ → ℝ) :=
  if data.type ≠ .neumann then .error (.validation "Type")
  else
    match data.face with
    | .xLow | .xHigh =>
      if s.dim < 1 then .error (.validation "Face")
      else if data.valuesLen ≠ s 1 * s 2 then
        .error (.sizeErr (s 1 * s 2) data.valuesLen "X face values")
      else
        let scale := if data.face = .xHigh then 1 / h 0 else -(1 / h 0)
        let base := if data.face = .xHigh then (s 0 - 1) * (s 1 * s 2) else 0
        .ok (faceLoop2 (s 1) (s 2) (fun j k => base + j * s 2 + k)
          (fun j k => data.values (j * s 2 + k) * scale) r)
    | .yLow | .yHigh =>
      if s.dim < 2 then .error (.validation "Face")
      else if data.valuesLen ≠ s 0 * s 2 then
        .error (.sizeErr (s 0 * s 2) data.valuesLen "Y face values")
      else
        let scale := if data.face = .yHigh then 1 / h 1 else -(1 / h 1)
        let j0 := if data.face = .yHigh then s 1 - 1 else 0
        .ok (faceLoop2 (s 0) (s 2) (fun i k => i * (s 1 * s 2) + j0 * s 2 + k)
          (fun i k => data.values (i * s 2 + k) * scale) r)
    | .zLow | .zHigh =>
      if s.dim < 3 then .error (.validation "Face")
      else if data.valuesLen ≠ s 0 * s 1 then
        .error (.sizeErr (s 0 * s 1) data.valuesLen "Z face values")
      else
        let scale := if data.face = .zHigh then 1 / h 2 else -(1 / h 2)
        let k0 := if data.face = .zHigh then s 2 - 1 else 0
        .ok (faceLoop2 (s 0) (s 1) (fun i j => i * (s 1 * s 2) + j * s 2 + k0)
          (fun i j => data.values (i * s 1 + j) * scale) r)

/-- `ApplyNeumannRHS(rhs, shape, h, bc)`. -/
def ApplyNeumannRHS (rhs : Option RSlice) (s : Shape) (h : Fin 3 → ℝ)
    (bc : List BoundaryDataM) : Except PoissonErr (ℕ → ℝ) :=
  match rhs with
  | none => .error .nilBuffer
  | some r =>
    if r.len ≠ s.size then .error (.sizeErr s.size r.len "ApplyNeumannRHS")
    else bc.foldlM (applyNeumannData s h) r.data

/-- The coordinate of `(i,j,k)` along a face's axis. -/
def faceCoord (face : BoundaryFace) (i j k : ℕ) : ℕ :=
  match faceAxis face with
  | 0 => i
  | 1 => j
  | 2 => k

/-- The boundary-layer coordinate a face is adjacent to: 0 for Low faces,
`N-1` for High faces. -/
def faceLayer (s : Shape) (face : BoundaryFace) : ℕ :=
  if faceIsHigh face then s (faceAxis face) - 1 else 0

/-- The row-major index into the face value array for grid point `(i,j,k)`:
the two coordinates orthogonal to the face's axis in their original order. -/
def faceOrthIndex (s : Shape) (face : BoundaryFace) (i j k : ℕ) : ℕ :=
  match faceAxis face with
  | 0 => j * s 2 + k
  | 1 => i * s 2 + k
  | 2 => i * s 1 + j

/-- The face-area (length the values array must have). -/
def faceArea (s : Shape) (face : BoundaryFace) : ℕ :=
  s (otherAxes (faceAxis face)).1 * s (otherAxes (faceAxis face)).2

/-- The dimension requirement the patch functions enforce for a face. -/
def faceDimOK (s : Shape) (face : BoundaryFace) : Prop :=
  match faceAxis face with
  | 0 => ¬ s.dim < 1
  | 1 => ¬ s.dim < 2
  | 2 => ¬ s.dim < 3

/-! ## The backing FFT and the DST-I plan (`r2r/dst.go`)

The complex FFT is the external `algo-fft` dependency (not part of this
repository).  Modelled from the spec: its `Forward` is the standard
unnormalized discrete Fourier transform
`X[k] = Σ_j x[j]·exp(-2πi·jk/M)`, and its `Inverse` is the normalized
inverse DFT, so that `inverse (forward x) = x` as the §6 interface contract
requires. -/

def fftForwardDFT (M : ℕ) (e : ℕ → ℂ) : ℕ → ℂ :=
  fun k => ∑ j ∈ Finset.range M,
    e j * Complex.exp (((-(2 * Real.pi * j * k / M) : ℝ) : ℂ) * Complex.I)

/-- The odd-symmetric extension built by `DSTPlan.Forward`:
position 0 is 0, positions `1..n` hold `x[0..n-1]`, position `n+1` is 0,
and positions `n+2..2n+1` hold `-x[n-1..0]`. -/
def dstExtend (n : ℕ) (x : ℕ → ℝ) : ℕ → ℂ :=
  fun j =>
    if 1 ≤ j ∧ j ≤ n then ((x (j - 1) : ℝ) : ℂ)
    else if n + 2 ≤ j ∧ j ≤ 2 * n + 1 then ((-x (2 * n + 1 - j) : ℝ) : ℂ)
    else 0

/-- `r2r.DSTPlan`: the precomputed DST-I plan.  Only the length and the
normalization option determine the computed values (the remaining Go fields
are the backing FFT plan of length `2(n+1)` and pre-allocated buffers). -/
structure DSTPlan where
  n : ℕ
  ortho : Bool

/-- `DSTPlan.Forward`: build the odd extension, run the FFT forward, output
`dst[k] = (-imag(fftOut[k+1]) / 2) * scale`. -/
def DSTPlan.Forward (p : DSTPlan) (x : ℕ → ℝ) : ℕ → ℝ :=
  fun k => (-(fftForwardDFT (2 * (p.n + 1)) (dstExtend p.n x) (k + 1)).im / 2) *
    (if p.ortho then Real.sqrt (2 / ((p.n : ℝ) + 1)) else 1)

/-- `DSTPlan.Inverse`: DST-I is self-inverse up to scaling; compute
`Forward`, then multiply each output by `2/(n+1)` (by 1 under orthonormal
scaling). -/
def DSTPlan.Inverse (p : DSTPlan) (x : ℕ → ℝ) : ℕ → ℝ :=
  fun i => p.Forward x i * (if p.ortho then 1 else 2 / ((p.n : ℝ) + 1))

/-- `DSTPlan.NormalizationFactor`: `(n+1)/2`, or 1 under orthonormal
scaling. -/
def DSTPlan.NormalizationFactor (p : DSTPlan) : ℝ :=
  if p.ortho then 1 else ((p.n : ℝ) + 1) / 2

/-! ## Mean and tolerance helpers (`meanAndMaxAbs`, `meanWithinTolerance`) -/

/-- `meanTol = 1e-12` -/
def meanTol : ℝ := 1e-12

/-- `meanAndMaxAbs(values)`: mean and maximum absolute value of a slice of
length `len` (`(0, 0)` for an empty slice). -/
def meanAndMaxAbs (len : ℕ) (v : ℕ → ℝ) : ℝ × ℝ :=
  if len = 0 then (0, 0)
  else ((∑ i ∈ Finset.range len, v i) / len,
    (List.range len).foldl (fun m i => max m |v i|) 0)

/-- `meanWithinTolerance(mean, maxAbs)`: `|mean| ≤ meanTol·(1 + maxAbs)`. -/
def meanWithinTolerance (mean maxAbs : ℝ) : Prop :=
  |mean| ≤ meanTol * (1 + maxAbs)

/-! ## `parallelFor` (concurrency utility, `part_007`)

Go runs the chunk bodies on goroutines over shared state; each spawned chunk
is a consecutive index range, the ranges are pairwise disjoint and every
chunk body reads and writes only its own range, so the concurrent execution
is modelled by folding the chunk bodies over the state in spawn order,
retaining the first error (`errOnce`). -/

/-- The chunk size `(tasks + workers - 1) / workers`. -/
def chunkSize (workers tasks : ℕ) : ℕ := (tasks + workers - 1) / workers

/-- The `(worker, start, end)` triples spawned by `parallelFor`'s loop
(the loop breaks at the first `start ≥ tasks`). -/
def parallelChunks (workers tasks : ℕ) : List (ℕ × ℕ × ℕ) :=
  ((List.range workers).takeWhile
      (fun w => decide (w * chunkSize workers tasks < tasks))).map
    (fun w => (w, w * chunkSize workers tasks,
      min (w * chunkSize workers tasks + chunkSize workers tasks) tasks))

/-- `parallelFor(workers, tasks, fn)` over an explicit state type `σ`. -/
def parallelForM {σ : Type} (workers tasks : ℕ)
    (fn : ℕ → ℕ → ℕ → σ → σ × Option PoissonErr) (st : σ) :
    σ × Option PoissonErr :=
  if tasks = 0 then (st, none)
  else if workers ≤ 1 ∨ tasks = 1 then fn 0 0 tasks st
  else
    (parallelChunks workers tasks).foldl
      (fun acc c =>
        let r := fn c.1 c.2.1 c.2.2 acc.1
        (r.1, acc.2.orElse fun _ => r.2))
      (st, none)

/-- Sequential processing of tasks `start .. start+cnt-1` by a per-task
state update: the body of one worker's chunk when the per-task step cannot
fail. -/
def runRange {σ : Type} (step : ℕ → σ → σ) (start : ℕ) : ℕ → σ → σ
  | 0, st => st
  | cnt + 1, st => runRange step (start + 1) cnt (step start st)

/-- The spawned chunks of `parallelFor` are consecutive: each chunk starts
where the previous one ended, the first starts at `a` and the last ends at
`b`. -/
def Chained : ℕ → ℕ → List (ℕ × ℕ × ℕ) → Prop
  | a, b, [] => a = b
  | a, b, c :: rest => c.2.1 = a ∧ a ≤ c.2.2 ∧ Chained c.2.2 b rest

/-! ## Per-line 1D transforms

Only the backing complex FFT is external to the repository: it is provided
by the `algo-fft` dependency, so `fftForwardDFT` and `fftInverseDFT` are
modelled from the spec's §6 interface contract (unnormalized forward DFT,
`1/M`-normalized inverse).  The DCT-II plan below is translated from the
`r2r/dct.go` implementation present in the source tree. -/

/-- Modelled from the spec: the external FFT's inverse is the
conjugate-kernel sum normalized by `1/M`, so that `inverse (forward x) = x`
per the §6 interface contract. -/
def fftInverseDFT (M : ℕ) (e : ℕ → ℂ) : ℕ → ℂ :=
  fun j => (∑ k ∈ Finset.range M,
    e k * Complex.exp (((2 * Real.pi * j * k / M : ℝ) : ℂ) * Complex.I)) / (M : ℂ)

/-- `r2r.DCT2Plan` from `r2r/dct.go`.  Only the logical length `n`
determines the computed values: the Go struct's remaining fields are the
backing FFT plan of length `extendedN = 2*n`, the precomputed phase factors
`exp(-iπk/(2n))`, scratch buffers, and the plan options.  The poisson solver
builds its plans through `newDCTAxisTransform`, which calls `NewDCT2Plan(n)`
without `WithNormalization(NormOrtho)`, so only the default unnormalized
plan is modelled. -/
structure DCT2Plan where
  n : ℕ

/-- The even extension without endpoint duplication that
`DCT2Plan.Forward` writes into its FFT input buffer: the loop sets
`fftIn[i] = src[i]` and `fftIn[extendedN-1-i] = src[i]` for `i < n`, so
position `j` holds `x[j]` for `j < n` and `x[2n-1-j]` for `n ≤ j < 2n`. -/
def dctEvenExtend (n : ℕ) (x : ℕ → ℝ) : ℕ → ℂ :=
  fun j =>
    if j < n then ((x j : ℝ) : ℂ)
    else if j < 2 * n then ((x (2 * n - 1 - j) : ℝ) : ℂ)
    else 0

/-- `DCT2Plan.Forward` from `r2r/dct.go`: build the even extension, run
the backing FFT forward on it, and extract
`dst[k] = real(fftOut[k] * phase[k]) / 2.0` with the precomputed
`phase[k] = exp(-iπk/(2n))`.  The `NormOrtho` rescaling branch is never
taken on the poisson path. -/
def DCT2Plan.Forward (p : DCT2Plan) (x : ℕ → ℝ) : ℕ → ℝ :=
  fun k => (fftForwardDFT (2 * p.n) (dctEvenExtend p.n x) k *
    Complex.exp (((-(Real.pi * k / (2 * p.n)) : ℝ) : ℂ) * Complex.I)).re / 2

/-- `DCT2Plan.Inverse` from `r2r/dct.go`: the weighted transpose
`dst[j] = Σ_k src[k] * weight_k * DCT2Coefficient(j, k, n)` with
`weight_0 = 1/n` and `weight_k = 2/n` for `k ≥ 1`, where
`DCT2Coefficient(j, k, size) = cos(π*(j+0.5)*k/size)`; the `k = 0` term is
split off here (its coefficient is `cos 0 = 1`) and the common `1/n` factor
pulled out, using `cos(π*(j+0.5)*k/n) = cos(π*k*(2j+1)/(2n))`. -/
def DCT2Plan.Inverse (p : DCT2Plan) (X : ℕ → ℝ) : ℕ → ℝ :=
  fun j => (X 0 + 2 * ∑ k ∈ Finset.Ico 1 p.n,
    X k * Real.cos (Real.pi * k * (2 * j + 1) / (2 * p.n))) / (p.n : ℝ)

/-! ## Line-wise application (`transformLines` / `transformLine`) -/

/-- The copy-gather loop of `transformLine`: element `i` of the strided
line starting at `start`. -/
def gatherLine (data : ℕ → ℂ) (start stride : ℕ) : ℕ → ℂ :=
  fun i => data (start + i * stride)

/-- Membership of a flat index on the strided line
`{start + i·stride | i < len}` (all call sites have `stride ≥ 1`). -/
abbrev OnLine (start stride len idx : ℕ) : Prop :=
  start ≤ idx ∧ (idx - start) % stride = 0 ∧ (idx - start) / stride < len

/-- The write-back loop of `transformLine`: the line positions take the
transformed values, all other indices keep their previous values. -/
def scatterLine (data : ℕ → ℂ) (start stride len : ℕ) (f : ℕ → ℂ) : ℕ → ℂ :=
  fun idx =>
    if OnLine start stride len idx then f ((idx - start) / stride) else data idx

/-- The 1D transform one gathered line undergoes: the complex FFT for
`fftAxisTransform`, or the DST-I / DCT-II applied to the real and imaginary
parts independently (`transformLine` in `axis_transform.go`). -/
def lineTransform1D (t : AxisTransformM) (inverse : Bool) (line : ℕ → ℂ) :
    ℕ → ℂ :=
  match t with
  | .fft len => if inverse then fftInverseDFT len line else fftForwardDFT len line
  | .dst len => fun i =>
      ⟨(if inverse then (DSTPlan.mk len false).Inverse
        else (DSTPlan.mk len false).Forward) (fun j => (line j).re) i,
       (if inverse then (DSTPlan.mk len false).Inverse
        else (DSTPlan.mk len false).Forward) (fun j => (line j).im) i⟩
  | .dct len => fun i =>
      ⟨(if inverse then (DCT2Plan.mk len).Inverse
        else (DCT2Plan.mk len).Forward) (fun j => (line j).re) i,
       (if inverse then (DCT2Plan.mk len).Inverse
        else (DCT2Plan.mk len).Forward) (fun j => (line j).im) i⟩

/-- One line's gather-transform-scatter (`transformLine`). -/
def applyLine (t : AxisTransformM) (inverse : Bool) (s : Shape) (axis : Fin 3)
    (line : ℕ) (data : ℕ → ℂ) : ℕ → ℂ :=
  scatterLine data (lineStartIndex s axis line) (rowMajorStride s axis) (s axis)
    (lineTransform1D t inverse
      (gatherLine data (lineStartIndex s axis line) (rowMajorStride s axis)))

/-- `transformLines` shared by the three axis transforms: the length checks,
then `parallelFor` over the lines, each worker transforming its chunk of
lines in order.  The per-instance worker count stored in each transform
equals the plan's resolved `options.workers` (`effectiveWorkers` is the
identity on the already-resolved value), so it is passed in from the plan
options.  A Go `nil` data slice has no counterpart for `ℕ → ℂ` states, so
the `ErrNilBuffer` check is dropped here; the solver-level nil checks are
modelled in `SolveM`. -/
def transformLinesM (t : AxisTransformM) (workers : ℤ) (dataLen : ℕ)
    (s : Shape) (axis : Fin 3) (inverse : Bool) (data : ℕ → ℂ) :
    (ℕ → ℂ) × Option PoissonErr :=
  if dataLen ≠ s.size then (data, some .sizeMismatch)
  else if s axis ≠ t.Length then (data, some .sizeMismatch)
  else
    parallelForM (clampWorkers workers (lineCount s axis)) (lineCount s axis)
      (fun _ startLine endLine d =>
        (runRange (applyLine t inverse s axis) startLine
          (endLine - startLine) d, none))
      data

/-! ## The spectral divide (`applyEigenvalues`) -/

/-- The `(i, j, k)` decomposition of a flat index used by
`applyEigenvalues`: `i = idx / (ny·nz)`, `j = (idx % (ny·nz)) / nz`,
`k = (idx % (ny·nz)) % nz`. -/
def idxTriple (p : Plan) (idx : ℕ) : ℕ × ℕ × ℕ :=
  (idx / (p.n 1 * p.n 2), idx % (p.n 1 * p.n 2) / p.n 2,
    idx % (p.n 1 * p.n 2) % p.n 2)

/-- The denominator `α + eig₀[i] (+ eig₁[j] if D>1) (+ eig₂[k] if D>2)`. -/
def denomAt (p : Plan) (idx : ℕ) : ℝ :=
  p.alpha + (p.eig 0).getD (idxTriple p idx).1 0 +
    (if 1 < p.dim then (p.eig 1).getD (idxTriple p idx).2.1 0 else 0) +
    (if 2 < p.dim then (p.eig 2).getD (idxTriple p idx).2.2 0 else 0)

/-- The all-zero-mode test of `applyEigenvalues`:
`i == 0 && (dim < 2 || j == 0) && (dim < 3 || k == 0)`. -/
def allowZeroAt (p : Plan) (idx : ℕ) : Prop :=
  (idxTriple p idx).1 = 0 ∧ (p.dim < 2 ∨ (idxTriple p idx).2.1 = 0) ∧
    (p.dim < 3 ∨ (idxTriple p idx).2.2 = 0)

/-- An index at which `applyEigenvalues` fails: zero denominator and not an
allowed zero mode. -/
def divideBad (p : Plan) (idx : ℕ) : Prop :=
  denomAt p idx = 0 ∧ ¬ (p.hasNullspace ∧ allowZeroAt p idx)

open Classical in
/-- The error-free per-index update of the spectral divide: pin an allowed
zero mode to 0, otherwise divide by the denominator. -/
def divideStep (p : Plan) (idx : ℕ) (w : ℕ → ℂ) : ℕ → ℂ :=
  Function.update w idx
    (if denomAt p idx = 0 then 0 else w idx / ((denomAt p idx : ℝ) : ℂ))

open Classical in
/-- The `for idx := start; idx < end; idx++` body of one
`applyEigenvalues` worker, with its early `ErrResonant` return. -/
def divideLoop (p : Plan) : ℕ → ℕ → (ℕ → ℂ) → (ℕ → ℂ) × Option PoissonErr
  | _, 0, w => (w, none)
  | start, cnt + 1, w =>
    if denomAt p start = 0 then
      if p.hasNullspace ∧ allowZeroAt p start then
        divideLoop p (start + 1) cnt (Function.update w start 0)
      else (w, some .resonant)
    else
      divideLoop p (start + 1) cnt
        (Function.update w start (w start / ((denomAt p start : ℝ) : ℂ)))

/-- `(p *Plan) applyEigenvalues()` over an explicit workspace state. -/
def applyEigenvaluesM (p : Plan) (w : ℕ → ℂ) : (ℕ → ℂ) × Option PoissonErr :=
  parallelForM (clampWorkers p.opts.workers p.size) p.size
    (fun _ s e d => divideLoop p s (e - s) d) w

/-! ## `Solve` (`plan.go`)

Go slices are pointers into float64 buffers; `GoSlice` records the buffer id
and the slice length, and `SolveMem` holds every float64 buffer plus the
plan's complex workspace (allocated privately by `NewWorkspace`, hence a
separate component).  Aliased slices (as created by `SolveInPlace`) share a
buffer id. -/

/-- A non-nil Go `[]float64`: a buffer id and a length. -/
structure GoSlice where
  id : ℕ
  len : ℕ
  deriving DecidableEq, Repr

/-- The mutable memory `Solve` works on. -/
structure SolveMem where
  bufs : ℕ → ℕ → ℝ
  work : ℕ → ℂ

/-- The `p.work.Complex[i] = complex(v - offset, 0)` loop of `Solve`. -/
def initWork (p : Plan) (r : GoSlice) (offset : ℝ) (m : SolveMem) : SolveMem :=
  { m with
    work := fun i =>
      if i < p.size then ((m.bufs r.id i - offset : ℝ) : ℂ) else m.work i }

/-- `p.tr[axis].Forward(p.work.Complex, shape, axis)` with `Solve`'s
`forward axis %d` error wrapping.  A `nil` transform entry (never present on
axes `< dim` of a constructed plan) would be a Go nil dereference; the model
surfaces it as `ErrNilBuffer`. -/
def planForward (p : Plan) (axis : Fin 3) (w : ℕ → ℂ) :
    (ℕ → ℂ) × Option PoissonErr :=
  match p.tr axis with
  | none => (w, some .nilBuffer)
  | some t =>
    let r := transformLinesM t p.opts.workers p.work.complexLen p.shape axis false w
    (r.1, r.2.map fun e => .forwardAxis (axis : ℕ) e)

/-- `p.tr[axis].Inverse(...)` with `Solve`'s `inverse axis %d` wrapping. -/
def planInverse (p : Plan) (axis : Fin 3) (w : ℕ → ℂ) :
    (ℕ → ℂ) × Option PoissonErr :=
  match p.tr axis with
  | none => (w, some .nilBuffer)
  | some t =>
    let r := transformLinesM t p.opts.workers p.work.complexLen p.shape axis true w
    (r.1, r.2.map fun e => .inverseAxis (axis : ℕ) e)

/-- The used axes `0 .. dim-1` as `Fin 3` values (`dim ≤ 3` always). -/
def axisList (dim : ℕ) : List (Fin 3) :=
  (List.range dim).filterMap fun a => if h : a < 3 then some ⟨a, h⟩ else none

/-- The forward-transform loop of `Solve` (`axis = 0 .. dim-1`, stopping at
the first error). -/
def forwardPasses (p : Plan) : List (Fin 3) → (ℕ → ℂ) → (ℕ → ℂ) × Option PoissonErr
  | [], w => (w, none)
  | a :: rest, w =>
    match planForward p a w with
    | (w2, none) => forwardPasses p rest w2
    | (w2, some e) => (w2, some e)

/-- The inverse-transform loop of `Solve` (`axis = dim-1 .. 0`). -/
def inversePasses (p : Plan) : List (Fin 3) → (ℕ → ℂ) → (ℕ → ℂ) × Option PoissonErr
  | [], w => (w, none)
  | a :: rest, w =>
    match planInverse p a w with
    | (w2, none) => inversePasses p rest w2
    | (w2, some e) => (w2, some e)

open Classical in
/-- The tail of `Solve` after the nullspace-policy decisions: fill the
workspace with `rhs - offset`, forward transforms, spectral divide, inverse
transforms, then the single write-out into `dst` (adding the requested
solution mean for nullspace problems). -/
def solveFrom (p : Plan) (d r : GoSlice) (offset : ℝ) (m : SolveMem) :
    SolveMem × Option PoissonErr :=
  let m1 := initWork p r offset m
  match forwardPasses p (axisList p.dim) m1.work with
  | (w1, some e) => ({ m1 with work := w1 }, some e)
  | (w1, none) =>
    match applyEigenvaluesM p w1 with
    | (w2, some e) => ({ m1 with work := w2 }, some e)
    | (w2, none) =>
      match inversePasses p (axisList p.dim).reverse w2 with
      | (w3, some e) => ({ m1 with work := w3 }, some e)
      | (w3, none) =>
        let addMean :=
          if p.hasNullspace ∧ p.opts.solutionMean.isSome
          then p.opts.solutionMean.getD 0 else 0
        ({ bufs := Function.update m.bufs d.id
              (fun i => if i < p.work.complexLen
                then (w3 i).re + addMean else m.bufs d.id i),
           work := w3 }, none)

open Classical in
/-- `(p *Plan) Solve(dst, rhs)`. -/
def SolveM (p : Plan) (dst rhs : Option GoSlice) (m : SolveMem) :
    SolveMem × Option PoissonErr :=
  match dst, rhs with
  | none, _ => (m, some .nilBuffer)
  | some _, none => (m, some .nilBuffer)
  | some d, some r =>
    if d.len ≠ p.size ∨ r.len ≠ p.size then (m, some .sizeMismatch)
    else if p.hasNullspace ∧ p.opts.nullspace = .nullspaceError then
      (m, some .nullspace)
    else
      let mm := meanAndMaxAbs r.len (m.bufs r.id)
      if p.hasNullspace ∧ p.opts.nullspace = .zeroMode ∧
          ¬ meanWithinTolerance mm.1 mm.2 then
        (m, some .nonZeroMean)
      else
        solveFrom p d r
          (if p.hasNullspace ∧ p.opts.nullspace = .subtractMean then mm.1 else 0)
          m

/-- `(p *Plan) SolveInPlace(buf)`: `Solve(buf, buf)`. -/
def SolveInPlaceM (p : Plan) (buf : Option GoSlice) (m : SolveMem) :
    SolveMem × Option PoissonErr :=
  SolveM p buf buf m

/-- The structural invariants of a constructed plan that `Solve` relies on
(established by `newPlanWithAlpha`). -/
def PlanWF (p : Plan) : Prop :=
  (1 ≤ p.dim ∧ p.dim ≤ 3) ∧ (∀ a : Fin 3, 1 ≤ p.n a) ∧
    (∀ a : Fin 3, (a : ℕ) < p.dim →
      ∃ t, p.tr a = some t ∧ t.Length = p.n a) ∧
    p.work.complexLen = p.size

/-- A concrete 1D Dirichlet-type plan record used to exercise the solver
theorems (`α = -2` cancels the single eigenvalue 2). -/
def examplePlan : Plan :=
  { dim := 1, n := fun _ => 1, h := fun _ => 1, bc := fun _ => .dirichlet,
    eig := fun a => if a = 0 then [2] else [],
    tr := fun a => if a = 0 then some (.dst 1) else none,
    work := NewWorkspace 1 1, opts := DefaultOptions, alpha := -2 }

/-- A concrete memory state: all buffers zero. -/
def exampleMem : SolveMem :=
  { bufs := fun _ _ => 0, work := fun _ => 0 }

/-- A concrete 1D periodic plan record with a nullspace (`α = 0`,
periodic BC). -/
def examplePlanNull : Plan :=
  { dim := 1, n := fun _ => 1, h := fun _ => 1, bc := fun _ => .periodic,
    eig := fun a => if a = 0 then [0] else [],
    tr := fun a => if a = 0 then some (.fft 1) else none,
    work := NewWorkspace 1 1, opts := DefaultOptions, alpha := 0 }

/-- The plan produced by `newPlanWithAlpha 4 1 [1] [1] [1] 0` with the given
worker request (`effectiveWorkers` resolves positive requests to
themselves). -/
def examplePlanWorkers (wk : ℤ) : Plan :=
  { dim := 1,
    n := fun a => if (a : ℕ) < 1 then ([1] : List ℕ).getD (a : ℕ) 0 else 1,
    h := fun a => if (a : ℕ) < 1 then ([1] : List ℝ).getD (a : ℕ) 0 else 1,
    bc := fun a => if (a : ℕ) < 1 then planBC [1] (a : ℕ) else .periodic,
    eig := fun a => if (a : ℕ) < 1 then planEig [1] [1] [1] (a : ℕ) else [],
    tr := fun a => if (a : ℕ) < 1 then some (planTr [1] [1] (a : ℕ)) else none,
    work := NewWorkspace
      (if DefaultOptions.inPlace then 0
       else (List.range 1).foldl (fun acc axis => acc * ([1] : List ℕ).getD axis 0) 1)
      ((List.range 1).foldl (fun acc axis => acc * ([1] : List ℕ).getD axis 0) 1),
    opts := { DefaultOptions with workers := wk },
    alpha := 0 }

/-- `NewPlan` -/
def NewPlan (gomaxprocs : ℤ) (dim : ℕ) (n : List ℕ) (h : List ℝ) (bc : List ℤ)
    (opts : Options) : Except PoissonErr Plan :=
  newPlanWithAlpha gomaxprocs dim n h bc 0 opts

/-- `NewHelmholtzPlan` -/
def NewHelmholtzPlan (gomaxprocs : ℤ) (dim : ℕ) (n : List ℕ) (h : List ℝ)
    (bc : List ℤ) (alpha : ℝ) (opts : Options) : Except PoissonErr Plan :=
  newPlanWithAlpha gomaxprocs dim n h bc alpha opts

@[simp] theorem eigenvaluesDirichlet_length (n : ℕ) (h : ℝ) :
    (eigenvaluesDirichlet n h).length = n := by
  rw [eigenvaluesDirichlet, List.length_map, List.length_range]

@[simp] theorem eigenvaluesNeumann_length (n : ℕ) (h : ℝ) :
    (eigenvaluesNeumann n h).length = n := by
  rw [eigenvaluesNeumann, List.length_map, List.length_range]

@[simp] theorem eigenvaluesPeriodic_length (n : ℕ) (h : ℝ) :
    (eigenvaluesPeriodic n h).length = n := by
  rw [eigenvaluesPeriodic, List.length_map, List.length_range]

theorem eigenvaluesDirichlet_getD (n : ℕ) (h : ℝ) (m : ℕ) (hm : m < n) :
    (eigenvaluesDirichlet n h).getD m 0 =
      (2 - 2 * Real.cos (Real.pi * (m + 1 : ℕ) / ((n : ℝ) + 1))) / (h * h) := by
  rw [List.getD_eq_getElem _ _ (by simpa using hm)]
  simp only [eigenvaluesDirichlet, List.getElem_map, List.getElem_range]

theorem eigenvaluesNeumann_getD (n : ℕ) (h : ℝ) (m : ℕ) (hm : m < n) :
    (eigenvaluesNeumann n h).getD m 0 =
      (2 - 2 * Real.cos (Real.pi * (m : ℝ) / (n : ℝ))) / (h * h) := by
  rw [List.getD_eq_getElem _ _ (by simpa using hm)]
  simp only [eigenvaluesNeumann, List.getElem_map, List.getElem_range]

theorem eigenvaluesPeriodic_getD (n : ℕ) (h : ℝ) (m : ℕ) (hm : m < n) :
    (eigenvaluesPeriodic n h).getD m 0 =
      (2 - 2 * Real.cos (2 * Real.pi * (m : ℝ) / (n : ℝ))) / (h * h) := by
  rw [List.getD_eq_getElem _ _ (by simpa using hm)]
  simp only [eigenvaluesPeriodic, List.getElem_map, List.getElem_range]

/-- `2 - 2 cos θ` is nonnegative, and zero exactly when `cos θ = 1`. -/
theorem two_sub_two_cos_pos {θ : ℝ} (h1 : -(2 * Real.pi) < θ) (h2 : θ < 2 * Real.pi)
    (h0 : θ ≠ 0) : 0 < 2 - 2 * Real.cos θ := by
  have hlt : Real.cos θ < 1 := by
    rcases lt_or_eq_of_le (Real.cos_le_one θ) with h | h
    · exact h
    · exact absurd ((Real.cos_eq_one_iff_of_lt_of_lt h1 h2).mp h) h0
  linarith

theorem eigenvaluesPeriodic_pos_of_ne_zero {n m : ℕ} {h : ℝ} (hh : 0 < h)
    (hm : m < n) (hm0 : m ≠ 0) : 0 < (eigenvaluesPeriodic n h).getD m 0 := by
  rw [eigenvaluesPeriodic_getD n h m hm]
  have hn : (0 : ℝ) < n := by exact_mod_cast lt_of_le_of_lt (Nat.zero_le m) hm
  have hmpos : (0 : ℝ) < m := by
    have := Nat.pos_of_ne_zero hm0
    exact_mod_cast this
  have hθpos : 0 < 2 * Real.pi * (m : ℝ) / (n : ℝ) := by positivity
  have hθlt : 2 * Real.pi * (m : ℝ) / (n : ℝ) < 2 * Real.pi := by
    rw [mul_div_assoc]
    have hlt : (m : ℝ) / (n : ℝ) < 1 := (div_lt_one hn).mpr (by exact_mod_cast hm)
    nlinarith [Real.pi_pos]
  exact div_pos (two_sub_two_cos_pos (by linarith) hθlt (ne_of_gt hθpos))
    (by positivity)

theorem eigenvaluesNeumann_pos_of_ne_zero {n m : ℕ} {h : ℝ} (hh : 0 < h)
    (hm : m < n) (hm0 : m ≠ 0) : 0 < (eigenvaluesNeumann n h).getD m 0 := by
  rw [eigenvaluesNeumann_getD n h m hm]
  have hn : (0 : ℝ) < n := by exact_mod_cast lt_of_le_of_lt (Nat.zero_le m) hm
  have hmpos : (0 : ℝ) < m := by
    have := Nat.pos_of_ne_zero hm0
    exact_mod_cast this
  have hθpos : 0 < Real.pi * (m : ℝ) / (n : ℝ) := by positivity
  have hθlt : Real.pi * (m : ℝ) / (n : ℝ) < 2 * Real.pi := by
    rw [mul_div_assoc]
    have hlt : (m : ℝ) / (n : ℝ) < 1 := (div_lt_one hn).mpr (by exact_mod_cast hm)
    nlinarith [Real.pi_pos]
  exact div_pos (two_sub_two_cos_pos (by linarith) hθlt (ne_of_gt hθpos))
    (by positivity)

theorem eigenvaluesDirichlet_pos {n m : ℕ} {h : ℝ} (hh : 0 < h)
    (hm : m < n) : 0 < (eigenvaluesDirichlet n h).getD m 0 := by
  rw [eigenvaluesDirichlet_getD n h m hm]
  have hn : (0 : ℝ) < (n : ℝ) + 1 := by positivity
  have hθpos : 0 < Real.pi * ((m : ℝ) + 1) / ((n : ℝ) + 1) := by positivity
  have hθlt : Real.pi * ((m : ℝ) + 1) / ((n : ℝ) + 1) < 2 * Real.pi := by
    rw [mul_div_assoc]
    have hlt : ((m : ℝ) + 1) / ((n : ℝ) + 1) ≤ 1 := by
      rw [div_le_one hn]
      have : (m : ℝ) ≤ (n : ℝ) := by exact_mod_cast Nat.le_of_lt hm
      linarith
    nlinarith [Real.pi_pos]
  have : 0 < 2 - 2 * Real.cos (Real.pi * ((m : ℝ) + 1) / ((n : ℝ) + 1)) :=
    two_sub_two_cos_pos (by linarith) hθlt (ne_of_gt hθpos)
  have hcast : ((m + 1 : ℕ) : ℝ) = (m : ℝ) + 1 := by push_cast; ring
  rw [hcast]
  exact div_pos this (by positivity)

theorem eigenvaluesPeriodic_getD_zero (n : ℕ) (h : ℝ) (hn : 1 ≤ n) :
    (eigenvaluesPeriodic n h).getD 0 0 = 0 := by
  rw [eigenvaluesPeriodic_getD n h 0 hn]
  simp

theorem eigenvaluesNeumann_getD_zero (n : ℕ) (h : ℝ) (hn : 1 ≤ n) :
    (eigenvaluesNeumann n h).getD 0 0 = 0 := by
  rw [eigenvaluesNeumann_getD n h 0 hn]
  simp

/-- **C4.** For every `N ≥ 1` and spacing `h > 0`, the per-axis eigenvalue
tables are, for `m = 0..N-1`: Periodic `λ[m] = (2 - 2 cos(2π m/N))/h²`;
Dirichlet `λ[m] = (2 - 2 cos(π (m+1)/(N+1)))/h²`; Neumann
`λ[m] = (2 - 2 cos(π m/N))/h²`; the Neumann and Periodic tables have exactly
one zero entry, at index 0, and the Dirichlet table has none (all entries
positive). -/
theorem C4_eigenvalue_tables (n : ℕ) (h : ℝ) (hn : 1 ≤ n) (hh : 0 < h) :
    (∀ m, m < n →
      (eigenvaluesPeriodic n h).getD m 0 =
        (2 - 2 * Real.cos (2 * Real.pi * (m : ℝ) / (n : ℝ))) / (h * h) ∧
      (eigenvaluesDirichlet n h).getD m 0 =
        (2 - 2 * Real.cos (Real.pi * ((m : ℝ) + 1) / ((n : ℝ) + 1))) / (h * h) ∧
      (eigenvaluesNeumann n h).getD m 0 =
        (2 - 2 * Real.cos (Real.pi * (m : ℝ) / (n : ℝ))) / (h * h)) ∧
    (∀ m, m < n → ((eigenvaluesPeriodic n h).getD m 0 = 0 ↔ m = 0)) ∧
    (∀ m, m < n → ((eigenvaluesNeumann n h).getD m 0 = 0 ↔ m = 0)) ∧
    (∀ m, m < n → 0 < (eigenvaluesDirichlet n h).getD m 0) := by
  refine ⟨fun m hm => ⟨eigenvaluesPeriodic_getD n h m hm, ?_,
      eigenvaluesNeumann_getD n h m hm⟩, fun m hm => ?_, fun m hm => ?_,
      fun m hm => eigenvaluesDirichlet_pos hh hm⟩
  · rw [eigenvaluesDirichlet_getD n h m hm]
    norm_num
  · constructor
    · intro hz
      by_contra hm0
      exact absurd hz (ne_of_gt (eigenvaluesPeriodic_pos_of_ne_zero hh hm hm0))
    · rintro rfl
      exact eigenvaluesPeriodic_getD_zero n h hn
  · constructor
    · intro hz
      by_contra hm0
      exact absurd hz (ne_of_gt (eigenvaluesNeumann_pos_of_ne_zero hh hm hm0))
    · rintro rfl
      exact eigenvaluesNeumann_getD_zero n h hn

/-- Witness for C4 at `N = 1`, `h = 1`. -/
theorem C4_eigenvalue_tables_witness :
    (1 : ℕ) ≤ 1 ∧ (0 : ℝ) < 1 ∧
    ((∀ m, m < 1 →
      (eigenvaluesPeriodic 1 (1 : ℝ)).getD m 0 =
        (2 - 2 * Real.cos (2 * Real.pi * (m : ℝ) / ((1 : ℕ) : ℝ))) / ((1 : ℝ) * 1) ∧
      (eigenvaluesDirichlet 1 (1 : ℝ)).getD m 0 =
        (2 - 2 * Real.cos (Real.pi * ((m : ℝ) + 1) / (((1 : ℕ) : ℝ) + 1))) / ((1 : ℝ) * 1) ∧
      (eigenvaluesNeumann 1 (1 : ℝ)).getD m 0 =
        (2 - 2 * Real.cos (Real.pi * (m : ℝ) / ((1 : ℕ) : ℝ))) / ((1 : ℝ) * 1)) ∧
    (∀ m, m < 1 → ((eigenvaluesPeriodic 1 (1 : ℝ)).getD m 0 = 0 ↔ m = 0)) ∧
    (∀ m, m < 1 → ((eigenvaluesNeumann 1 (1 : ℝ)).getD m 0 = 0 ↔ m = 0)) ∧
    (∀ m, m < 1 → 0 < (eigenvaluesDirichlet 1 (1 : ℝ)).getD m 0)) :=
  ⟨le_refl 1, one_pos, C4_eigenvalue_tables 1 1 (le_refl 1) one_pos⟩

theorem clampWorkers_pos (workers : ℤ) (tasks : ℕ) : 1 ≤ clampWorkers workers tasks := by
  unfold clampWorkers
  by_cases h1 : tasks < 1
  · rw [if_pos h1]
  · rw [if_neg h1]
    by_cases h2 : workers < 1
    · simp only [if_pos h2]
      split <;> omega
    · simp only [if_neg h2]
      split <;> omega

theorem validateAxes_eq_none_iff (dim : ℕ) (n : List ℕ) (h : List ℝ)
    (bc : List ℤ) :
    validateAxes dim n h bc = none ↔
      ∀ axis, axis < dim →
        1 ≤ n.getD axis 0 ∧ 0 < h.getD axis 0 ∧
          (decodeBC (bc.getD axis 0)).isSome := by
  unfold validateAxes
  rw [List.findSome?_eq_none_iff]
  constructor
  · intro hall axis haxis
    have hc := hall axis (List.mem_range.mpr haxis)
    unfold axisCheck at hc
    by_cases h1 : n.getD axis 0 < 1
    · rw [if_pos h1] at hc; simp at hc
    · rw [if_neg h1] at hc
      by_cases h2 : h.getD axis 0 ≤ 0
      · rw [if_pos h2] at hc; simp at hc
      · rw [if_neg h2] at hc
        by_cases h3 : decodeBC (bc.getD axis 0) = none
        · rw [if_pos h3] at hc; simp at hc
        · exact ⟨by omega, by linarith [lt_of_not_le h2],
            Option.isSome_iff_ne_none.mpr h3⟩
  · intro hall axis hmem
    obtain ⟨h1, h2, h3⟩ := hall axis (List.mem_range.mp hmem)
    unfold axisCheck
    rw [if_neg (by omega), if_neg (by linarith),
      if_neg (Option.isSome_iff_ne_none.mp h3)]

theorem newPlanWithAlpha_ok_iff (gomaxprocs : ℤ) (dim : ℕ) (n : List ℕ)
    (h : List ℝ) (bc : List ℤ) (alpha : ℝ) (opts : Options) :
    (∃ p, newPlanWithAlpha gomaxprocs dim n h bc alpha opts = .ok p) ↔
      ValidInputs dim n h bc := by
  unfold newPlanWithAlpha ValidInputs
  by_cases h0 : dim < 1 ∨ 3 < dim
  · rw [if_pos h0]
    constructor
    · rintro ⟨p, hp⟩; cases hp
    · rintro ⟨⟨ha, hb⟩, -⟩; omega
  · rw [if_neg h0]
    by_cases h1 : n.length ≠ dim
    · rw [if_pos h1]
      constructor
      · rintro ⟨p, hp⟩; cases hp
      · rintro ⟨-, hn, -⟩; exact absurd hn h1
    · rw [if_neg h1]
      by_cases h2 : h.length ≠ dim
      · rw [if_pos h2]
        constructor
        · rintro ⟨p, hp⟩; cases hp
        · rintro ⟨-, -, hh, -⟩; exact absurd hh h2
      · rw [if_neg h2]
        by_cases h3 : bc.length ≠ dim
        · rw [if_pos h3]
          constructor
          · rintro ⟨p, hp⟩; cases hp
          · rintro ⟨-, -, -, hb, -⟩; exact absurd hb h3
        · rw [if_neg h3]
          rcases hv : validateAxes dim n h bc with - | e
          · constructor
            · rintro -
              exact ⟨⟨by omega, by omega⟩, by omega, by omega, by omega,
                (validateAxes_eq_none_iff dim n h bc).mp hv⟩
            · rintro -
              exact ⟨_, rfl⟩
          · constructor
            · rintro ⟨p, hp⟩; simp at hp
            · rintro ⟨-, -, -, -, hax⟩
              rw [(validateAxes_eq_none_iff dim n h bc).mpr hax] at hv
              cases hv

theorem validateAxes_eq_some_of_first (dim axis : ℕ) (n : List ℕ) (h : List ℝ)
    (bc : List ℤ) (e : PoissonErr) (haxis : axis < dim)
    (hprev : ∀ a, a < axis → axisCheck n h bc a = none)
    (hcur : axisCheck n h bc axis = some e) :
    validateAxes dim n h bc = some e := by
  unfold validateAxes
  obtain ⟨k, hk⟩ : ∃ k, dim = (axis + 1) + k := ⟨dim - (axis + 1), by omega⟩
  subst hk
  rw [List.range_add, List.findSome?_append, List.range_succ,
    List.findSome?_append]
  have hnone : (List.range axis).findSome? (axisCheck n h bc) = none := by
    rw [List.findSome?_eq_none_iff]
    intro a ha
    exact hprev a (List.mem_range.mp ha)
  rw [hnone]
  simp [hcur]

theorem newPlanWithAlpha_error_of_validateAxes (gomaxprocs : ℤ) (dim : ℕ)
    (n : List ℕ) (h : List ℝ) (bc : List ℤ) (alpha : ℝ) (opts : Options)
    (e : PoissonErr) (h0 : 1 ≤ dim) (h0' : dim ≤ 3) (h1 : n.length = dim)
    (h2 : h.length = dim) (h3 : bc.length = dim)
    (hv : validateAxes dim n h bc = some e) :
    newPlanWithAlpha gomaxprocs dim n h bc alpha opts = .error e := by
  unfold newPlanWithAlpha
  rw [if_neg (by omega), if_neg (by omega), if_neg (by omega),
    if_neg (by omega), hv]

/-- **C6 (amended).** Plan construction validates, in this order, each
failure typed: 1. `dim ∈ {1,2,3}`; 2. the lengths of the sizes, spacings and
BC arrays each equal `dim` (in that order); 3. per axis `0..dim-1` in
increasing order: size `≥ 1` (failing `ErrInvalidSize`), spacing `> 0`
(failing `ErrInvalidSpacing`), recognized BC kind (failing a validation
error); construction succeeds exactly when all checks pass.  (The spec's
additional rejection of non-finite spacings has no counterpart in the code,
whose `h <= 0` test accepts NaN and `+Inf`; non-finite doubles have no
representation in this real-number model.) -/
theorem C6_validation_order (gomaxprocs : ℤ) (dim : ℕ) (n : List ℕ)
    (h : List ℝ) (bc : List ℤ) (alpha : ℝ) (opts : Options) :
    ((∃ p, newPlanWithAlpha gomaxprocs dim n h bc alpha opts = .ok p) ↔
      ValidInputs dim n h bc) ∧
    ((dim < 1 ∨ 3 < dim) →
      newPlanWithAlpha gomaxprocs dim n h bc alpha opts =
        .error (.validation "dim")) ∧
    (1 ≤ dim → dim ≤ 3 → n.length ≠ dim →
      newPlanWithAlpha gomaxprocs dim n h bc alpha opts =
        .error (.validation "n")) ∧
    (1 ≤ dim → dim ≤ 3 → n.length = dim → h.length ≠ dim →
      newPlanWithAlpha gomaxprocs dim n h bc alpha opts =
        .error (.validation "h")) ∧
    (1 ≤ dim → dim ≤ 3 → n.length = dim → h.length = dim → bc.length ≠ dim →
      newPlanWithAlpha gomaxprocs dim n h bc alpha opts =
        .error (.validation "bc")) ∧
    (∀ axis, axis < dim → 1 ≤ dim → dim ≤ 3 → n.length = dim →
      h.length = dim → bc.length = dim →
      (∀ a, a < axis → axisCheck n h bc a = none) →
      (n.getD axis 0 < 1 →
        newPlanWithAlpha gomaxprocs dim n h bc alpha opts =
          .error .invalidSize) ∧
      (1 ≤ n.getD axis 0 → h.getD axis 0 ≤ 0 →
        newPlanWithAlpha gomaxprocs dim n h bc alpha opts =
          .error .invalidSpacing) ∧
      (1 ≤ n.getD axis 0 → 0 < h.getD axis 0 →
        decodeBC (bc.getD axis 0) = none →
        newPlanWithAlpha gomaxprocs dim n h bc alpha opts =
          .error (.validation ("bc[" ++ toString axis ++ "]")))) := by
  refine ⟨newPlanWithAlpha_ok_iff gomaxprocs dim n h bc alpha opts,
    ?_, ?_, ?_, ?_, ?_⟩
  · intro hd
    unfold newPlanWithAlpha
    rw [if_pos hd]
  · intro hd1 hd2 hn
    unfold newPlanWithAlpha
    rw [if_neg (by omega), if_pos hn]
  · intro hd1 hd2 hn hh
    unfold newPlanWithAlpha
    rw [if_neg (by omega), if_neg (by omega), if_pos hh]
  · intro hd1 hd2 hn hh hb
    unfold newPlanWithAlpha
    rw [if_neg (by omega), if_neg (by omega), if_neg (by omega), if_pos hb]
  · intro axis haxis hd1 hd2 hn hh hb hprev
    refine ⟨?_, ?_, ?_⟩
    · intro hsz
      refine newPlanWithAlpha_error_of_validateAxes gomaxprocs dim n h bc
        alpha opts _ hd1 hd2 hn hh hb
        (validateAxes_eq_some_of_first dim axis n h bc _ haxis hprev ?_)
      unfold axisCheck
      rw [if_pos hsz]
    · intro hsz hsp
      refine newPlanWithAlpha_error_of_validateAxes gomaxprocs dim n h bc
        alpha opts _ hd1 hd2 hn hh hb
        (validateAxes_eq_some_of_first dim axis n h bc _ haxis hprev ?_)
      unfold axisCheck
      rw [if_neg (by omega), if_pos hsp]
    · intro hsz hsp hbc
      refine newPlanWithAlpha_error_of_validateAxes gomaxprocs dim n h bc
        alpha opts _ hd1 hd2 hn hh hb
        (validateAxes_eq_some_of_first dim axis n h bc _ haxis hprev ?_)
      unfold axisCheck
      rw [if_neg (by omega), if_neg (by linarith), if_pos hbc]

/-- Witness for the amended C6 at a concrete valid input and a concrete
invalid one. -/
theorem C6_validation_order_witness :
    (∃ p, newPlanWithAlpha 1 1 [2] [1] [0] 0 DefaultOptions = .ok p) ∧
    newPlanWithAlpha 1 2 [2] [1, 1] [0, 0] 0 DefaultOptions =
      .error (.validation "n") := by
  constructor
  · exact (C6_validation_order 1 1 [2] [1] [0] 0 DefaultOptions).1.mpr
      ⟨⟨le_refl 1, by omega⟩, rfl, rfl, rfl, by
        intro axis ha
        interval_cases axis
        exact ⟨by norm_num, by norm_num, by norm_num [decodeBC]⟩⟩
  · exact (C6_validation_order 1 2 [2] [1, 1] [0, 0] 0 DefaultOptions).2.2.1
      (by omega) (by omega) (by norm_num)

/-- **C6 counterexample.** The claim orders the size check (its step 2)
before the spacing check (its step 3) across axes: on input
`dim = 2, n = [2, 0], h = [-1, 1], bc = [Periodic, Periodic]` the claimed
order would report the invalid size `n[1] = 0` with `ErrInvalidSize`, but the
code interleaves the checks per axis and reports `ErrInvalidSpacing` for
`h[0] = -1` first. -/
theorem C6_counterexample :
    newPlanWithAlpha 1 2 [2, 0] [-1, 1] [0, 0] 0 DefaultOptions =
        .error .invalidSpacing ∧
    [2, 0].getD 1 0 < 1 ∧
    PoissonErr.invalidSpacing ≠ PoissonErr.invalidSize := by
  refine ⟨?_, by norm_num, by decide⟩
  refine newPlanWithAlpha_error_of_validateAxes 1 2 [2, 0] [-1, 1] [0, 0] 0
    DefaultOptions _ (by omega) (by omega) rfl rfl rfl
    (validateAxes_eq_some_of_first 2 0 [2, 0] [-1, 1] [0, 0] _ (by omega)
      (by omega) ?_)
  unfold axisCheck
  rw [if_neg (by norm_num), if_pos (by norm_num)]

/-! ## Constructor invariants (C8) -/

theorem planEig_length (n : List ℕ) (h : List ℝ) (bc : List ℤ) (axis : ℕ) :
    (planEig n h bc axis).length = n.getD axis 0 := by
  unfold planEig
  cases planBC bc axis <;> simp

theorem planTr_Length (n : List ℕ) (bc : List ℤ) (axis : ℕ) :
    (planTr n bc axis).Length = n.getD axis 0 := by
  unfold planTr
  cases planBC bc axis <;> rfl

theorem foldl_size_eq (dim : ℕ) (hd1 : 1 ≤ dim) (hd3 : dim ≤ 3) (n : List ℕ) :
    (List.range dim).foldl (fun acc axis => acc * n.getD axis 0) 1 =
      (if 0 < dim then n.getD 0 0 else 1) * (if 1 < dim then n.getD 1 0 else 1) *
        (if 2 < dim then n.getD 2 0 else 1) := by
  interval_cases dim <;> norm_num [List.range_succ]

/-- **C8.** Every plan returned successfully by `NewPlan` or
`NewHelmholtzPlan` (both delegate to `newPlanWithAlpha`) satisfies: each used
axis transform exists and its `Length()` equals that axis's size, each used
eigenvalue table's length equals that axis's size, every axis size is at
least 1 (unused axes are padded to 1), and the complex workspace length
equals the product of the three sizes.  `α` is carried over unchanged; in
this real-number model every `α : ℝ` is finite.  The plan record is
immutable in this embedding — `Solve` returns buffers and never a modified
plan — so the invariants persist across operations. -/
theorem C8_plan_invariants (gomaxprocs : ℤ) (dim : ℕ) (n : List ℕ)
    (h : List ℝ) (bc : List ℤ) (alpha : ℝ) (opts : Options) (p : Plan)
    (hp : newPlanWithAlpha gomaxprocs dim n h bc alpha opts = .ok p) :
    p.dim = dim ∧ (1 ≤ p.dim ∧ p.dim ≤ 3) ∧
    (∀ a : Fin 3, (a : ℕ) < p.dim → ∃ t, p.tr a = some t ∧ t.Length = p.n a) ∧
    (∀ a : Fin 3, (a : ℕ) < p.dim → (p.eig a).length = p.n a) ∧
    (∀ a : Fin 3, 1 ≤ p.n a) ∧
    p.work.complexLen = p.n 0 * p.n 1 * p.n 2 ∧
    p.alpha = alpha := by
  have hvalid : ValidInputs dim n h bc :=
    (newPlanWithAlpha_ok_iff gomaxprocs dim n h bc alpha opts).mp ⟨p, hp⟩
  obtain ⟨⟨hd1, hd3⟩, hn, hh, hb, hax⟩ := hvalid
  unfold newPlanWithAlpha at hp
  rw [if_neg (by omega), if_neg (by omega), if_neg (by omega),
    if_neg (by omega)] at hp
  rcases hv : validateAxes dim n h bc with - | e
  · rw [hv] at hp
    injection hp with hp
    subst hp
    refine ⟨rfl, ⟨hd1, hd3⟩, ?_, ?_, ?_, ?_, rfl⟩
    · intro a ha
      simp only at ha ⊢
      rw [if_pos ha]
      exact ⟨_, rfl, by rw [planTr_Length, if_pos ha]⟩
    · intro a ha
      simp only at ha ⊢
      rw [if_pos ha]
      rw [planEig_length, if_pos ha]
    · intro a
      simp only
      split
      · rename_i hlt
        exact (hax (a : ℕ) hlt).1
      · exact le_refl 1
    · have e0 : ((0 : Fin 3) : ℕ) = 0 := rfl
      have e1 : ((1 : Fin 3) : ℕ) = 1 := rfl
      have e2 : ((2 : Fin 3) : ℕ) = 2 := rfl
      simp only [NewWorkspace, e0, e1, e2]
      rw [foldl_size_eq dim hd1 hd3 n]
  · rw [hv] at hp
    simp at hp

/-- Witness for C8: a concrete 1D plan. -/
theorem C8_plan_invariants_witness :
    ∃ p, newPlanWithAlpha 1 1 [2] [1] [0] 0 DefaultOptions = .ok p ∧
      p.work.complexLen = p.n 0 * p.n 1 * p.n 2 ∧
      (∀ a : Fin 3, (a : ℕ) < p.dim → (p.eig a).length = p.n a) := by
  obtain ⟨p, hp⟩ : ∃ p, newPlanWithAlpha 1 1 [2] [1] [0] 0 DefaultOptions = .ok p := by
    have hv : validateAxes 1 [2] [1] [0] = none := by
      rw [validateAxes_eq_none_iff]
      intro axis ha
      interval_cases axis
      exact ⟨by norm_num, by norm_num, by norm_num [decodeBC]⟩
    unfold newPlanWithAlpha
    rw [if_neg (by omega), if_neg (by norm_num), if_neg (by norm_num),
      if_neg (by norm_num), hv]
    exact ⟨_, rfl⟩
  obtain ⟨-, -, -, heig, -, hwork, -⟩ :=
    C8_plan_invariants 1 1 [2] [1] [0] 0 DefaultOptions p hp
  exact ⟨p, hp, hwork, heig⟩

theorem loop1_of_not_mem (pos : ℕ → ℕ) (δ : ℕ → ℝ) (f : ℕ → ℝ) (t : ℕ) :
    ∀ cnt : ℕ, (∀ b, b < cnt → pos b ≠ t) → loop1 cnt pos δ f t = f t := by
  intro cnt
  induction cnt with
  | zero => intro _; rfl
  | succ c ih =>
    intro hmiss
    unfold loop1 addAt
    rw [if_neg fun hc => hmiss c (by omega) hc.symm]
    exact ih fun b' hb' => hmiss b' (by omega)

theorem loop1_of_mem (pos : ℕ → ℕ) (δ : ℕ → ℝ) (f : ℕ → ℝ) :
    ∀ cnt b : ℕ, b < cnt →
      (∀ b', b' < cnt → pos b' = pos b → b' = b) →
      loop1 cnt pos δ f (pos b) = f (pos b) + δ b := by
  intro cnt
  induction cnt with
  | zero => intro b hb _; omega
  | succ c ih =>
    intro b hb hinj
    unfold loop1 addAt
    by_cases hbc : b = c
    · subst hbc
      rw [if_pos rfl]
      rw [loop1_of_not_mem pos δ f (pos b) b fun b' hb' hcon =>
        absurd (hinj b' (by omega) hcon) (by omega)]
    · rw [if_neg fun hc => hbc (hinj c (by omega) hc.symm).symm]
      exact ih b (by omega) fun b' hb' hcon => hinj b' (by omega) hcon

theorem faceLoop2_of_not_mem (c2 : ℕ) (pos : ℕ → ℕ → ℕ) (δ : ℕ → ℕ → ℝ)
    (f : ℕ → ℝ) (t : ℕ) :
    ∀ c1 : ℕ, (∀ a b, a < c1 → b < c2 → pos a b ≠ t) →
      faceLoop2 c1 c2 pos δ f t = f t := by
  intro c1
  induction c1 with
  | zero => intro _; rfl
  | succ a ih =>
    intro hmiss
    unfold faceLoop2
    rw [loop1_of_not_mem (pos a) (δ a) _ t c2 fun b hb => hmiss a b (by omega) hb]
    exact ih fun a' b ha' hb => hmiss a' b (by omega) hb

theorem faceLoop2_of_mem (c2 : ℕ) (pos : ℕ → ℕ → ℕ) (δ : ℕ → ℕ → ℝ)
    (f : ℕ → ℝ) :
    ∀ c1 a b : ℕ, a < c1 → b < c2 →
      (∀ a' b', a' < c1 → b' < c2 → pos a' b' = pos a b → a' = a ∧ b' = b) →
      faceLoop2 c1 c2 pos δ f (pos a b) = f (pos a b) + δ a b := by
  intro c1
  induction c1 with
  | zero => intro a b ha _ _; omega
  | succ c ih =>
    intro a b ha hb hinj
    unfold faceLoop2
    by_cases hac : a = c
    · subst hac
      rw [loop1_of_mem (pos a) (δ a) _ c2 b hb
        fun b' hb' hcon => (hinj a b' (by omega) hb' hcon).2]
      rw [faceLoop2_of_not_mem c2 pos δ f (pos a b) a
        fun a' b' ha' hb' hcon => absurd (hinj a' b' (by omega) hb' hcon).1 (by omega)]
    · rw [loop1_of_not_mem (pos c) (δ c) _ (pos a b) c2
        fun b' hb' hcon => hac ((hinj c b' (by omega) hb' hcon).1).symm]
      exact ih a b (by omega) hb fun a' b' ha' hb' hcon =>
        hinj a' b' (by omega) hb' hcon

/-- Uniqueness of the row/column decomposition `a * b + c` with `c < b`. -/
theorem mul_add_inj {b a c a' c' : ℕ} (hc : c < b) (hc' : c' < b)
    (h : a * b + c = a' * b + c') : a = a' ∧ c = c' := by
  have hb : 0 < b := by omega
  constructor
  · have h1 : (a * b + c) / b = a := by
      rw [mul_comm a b, Nat.mul_add_div hb, Nat.div_eq_of_lt hc, Nat.add_zero]
    have h2 : (a' * b + c') / b = a' := by
      rw [mul_comm a' b, Nat.mul_add_div hb, Nat.div_eq_of_lt hc', Nat.add_zero]
    rw [← h1, ← h2, h]
  · have h1 : (a * b + c) % b = c := by
      rw [mul_comm a b, Nat.mul_add_mod, Nat.mod_eq_of_lt hc]
    have h2 : (a' * b + c') % b = c' := by
      rw [mul_comm a' b, Nat.mul_add_mod, Nat.mod_eq_of_lt hc']
    rw [← h1, ← h2, h]

theorem mul_add_lt {a b c d : ℕ} (ha : a < b) (hc : c < d) :
    a * d + c < b * d := by
  calc a * d + c < a * d + d := by omega
  _ = (a + 1) * d := by ring
  _ ≤ b * d := Nat.mul_le_mul_right d (by omega)

/-- Pointwise effect of the X-face double loop on grid point `(i,j,k)`. -/
theorem patchX_eval (s : Shape) (r : ℕ → ℝ) (δ : ℕ → ℕ → ℝ) (base lay : ℕ)
    (hbase : base = lay * (s 1 * s 2))
    (i j k : ℕ) (hi : i < s 0) (hj : j < s 1) (hk : k < s 2) :
    faceLoop2 (s 1) (s 2) (fun j' k' => base + j' * s 2 + k') δ r
        (i * (s 1 * s 2) + j * s 2 + k) =
      r (i * (s 1 * s 2) + j * s 2 + k) + (if i = lay then δ j k else 0) := by
  subst hbase
  by_cases hil : i = lay
  · subst hil
    rw [if_pos rfl]
    exact faceLoop2_of_mem (s 2) _ δ r (s 1) j k hj hk
      fun j' k' hj' hk' hcon => by
        rw [add_assoc, add_assoc] at hcon
        exact mul_add_inj hk' hk (Nat.add_left_cancel hcon)
  · rw [if_neg hil]
    rw [faceLoop2_of_not_mem (s 2) _ δ r _ (s 1)
      fun j' k' hj' hk' hcon => by
        rw [add_assoc, add_assoc] at hcon
        exact hil (mul_add_inj (mul_add_lt hj' hk') (mul_add_lt hj hk) hcon).1.symm]
    rw [add_zero]

/-- Pointwise effect of the Y-face double loop on grid point `(i,j,k)`. -/
theorem patchY_eval (s : Shape) (r : ℕ → ℝ) (δ : ℕ → ℕ → ℝ) (j0 : ℕ)
    (hj0 : j0 < s 1) (i j k : ℕ)
    (hi : i < s 0) (hj : j < s 1) (hk : k < s 2) :
    faceLoop2 (s 0) (s 2)
        (fun i' k' => i' * (s 1 * s 2) + j0 * s 2 + k') δ r
        (i * (s 1 * s 2) + j * s 2 + k) =
      r (i * (s 1 * s 2) + j * s 2 + k) + (if j = j0 then δ i k else 0) := by
  by_cases hjl : j = j0
  · subst hjl
    rw [if_pos rfl]
    exact faceLoop2_of_mem (s 2) _ δ r (s 0) i k hi hk
      fun i' k' hi' hk' hcon => by
        rw [add_assoc, add_assoc] at hcon
        obtain ⟨h1, h2⟩ :=
          mul_add_inj (mul_add_lt hj hk') (mul_add_lt hj hk) hcon
        exact ⟨h1, by omega⟩
  · rw [if_neg hjl]
    rw [faceLoop2_of_not_mem (s 2) _ δ r _ (s 0)
      fun i' k' hi' hk' hcon => by
        rw [add_assoc, add_assoc] at hcon
        obtain ⟨h1, h2⟩ :=
          mul_add_inj (mul_add_lt hj0 hk') (mul_add_lt hj hk) hcon
        exact hjl (mul_add_inj hk' hk h2).1.symm]
    rw [add_zero]

/-- Pointwise effect of the Z-face double loop on grid point `(i,j,k)`. -/
theorem patchZ_eval (s : Shape) (r : ℕ → ℝ) (δ : ℕ → ℕ → ℝ) (k0 : ℕ)
    (hk0 : k0 < s 2) (i j k : ℕ)
    (hi : i < s 0) (hj : j < s 1) (hk : k < s 2) :
    faceLoop2 (s 0) (s 1)
        (fun i' j' => i' * (s 1 * s 2) + j' * s 2 + k0) δ r
        (i * (s 1 * s 2) + j * s 2 + k) =
      r (i * (s 1 * s 2) + j * s 2 + k) + (if k = k0 then δ i j else 0) := by
  by_cases hkl : k = k0
  · subst hkl
    rw [if_pos rfl]
    exact faceLoop2_of_mem (s 1) _ δ r (s 0) i j hi hj
      fun i' j' hi' hj' hcon => by
        rw [add_assoc, add_assoc] at hcon
        obtain ⟨h1, h2⟩ :=
          mul_add_inj (mul_add_lt hj' hk) (mul_add_lt hj hk) hcon
        exact ⟨h1, (mul_add_inj hk hk h2).1⟩
  · rw [if_neg hkl]
    rw [faceLoop2_of_not_mem (s 1) _ δ r _ (s 0)
      fun i' j' hi' hj' hcon => by
        rw [add_assoc, add_assoc] at hcon
        obtain ⟨h1, h2⟩ :=
          mul_add_inj (mul_add_lt hj' hk0) (mul_add_lt hj hk) hcon
        exact hkl (mul_add_inj hk0 hk h2).2.symm]
    rw [add_zero]

theorem ApplyDirichletRHS_single (s : Shape) (hsp : Fin 3 → ℝ) (r : RSlice)
    (hlen : r.len = s.size) (d : BoundaryDataM) :
    ApplyDirichletRHS (some r) s hsp [d] = applyDirichletData s hsp r.data d := by
  unfold ApplyDirichletRHS
  dsimp only
  rw [if_neg (by omega)]
  rw [List.foldlM_cons]
  simp only [List.foldlM_nil]
  exact bind_pure _

theorem ApplyNeumannRHS_single (s : Shape) (hsp : Fin 3 → ℝ) (r : RSlice)
    (hlen : r.len = s.size) (d : BoundaryDataM) :
    ApplyNeumannRHS (some r) s hsp [d] = applyNeumannData s hsp r.data d := by
  unfold ApplyNeumannRHS
  dsimp only
  rw [if_neg (by omega)]
  rw [List.foldlM_cons]
  simp only [List.foldlM_nil]
  exact bind_pure _

/-- **C3.** For each Dirichlet face with values `g` (length = product of the
two sizes orthogonal to the face's axis), the boundary patch subtracts
`g/h²` from exactly the rhs layer adjacent to that face (layer 0 for Low
faces, layer `N-1` for High faces), `h` being the spacing of the face's
axis; for each Neumann face it adds `-g/h` (Low) resp. `+g/h` (High) to the
adjacent layer; every rhs entry outside the adjacent layer is unchanged. -/
theorem C3_boundary_patches (s : Shape) (hsp : Fin 3 → ℝ) (face : BoundaryFace)
    (g : ℕ → ℝ) (r : RSlice)
    (hpos : ∀ a : Fin 3, 1 ≤ s a) (hdim : faceDimOK s face)
    (hlen : r.len = s.size) :
    (∃ rD, ApplyDirichletRHS (some r) s hsp
        [⟨face, .dirichlet, faceArea s face, g⟩] = .ok rD ∧
      ∀ i j k, i < s 0 → j < s 1 → k < s 2 →
        rD (i * (s 1 * s 2) + j * s 2 + k) =
          r.data (i * (s 1 * s 2) + j * s 2 + k) -
            (if faceCoord face i j k = faceLayer s face then
              g (faceOrthIndex s face i j k) /
                (hsp (faceAxis face) * hsp (faceAxis face))
            else 0)) ∧
    (∃ rN, ApplyNeumannRHS (some r) s hsp
        [⟨face, .neumann, faceArea s face, g⟩] = .ok rN ∧
      ∀ i j k, i < s 0 → j < s 1 → k < s 2 →
        rN (i * (s 1 * s 2) + j * s 2 + k) =
          r.data (i * (s 1 * s 2) + j * s 2 + k) +
            (if faceCoord face i j k = faceLayer s face then
              (if faceIsHigh face then 1 else -1) *
                g (faceOrthIndex s face i j k) / hsp (faceAxis face)
            else 0)) := by
  cases face
  case xLow =>
    have hdim' : ¬ Shape.dim s < 1 := hdim
    constructor
    · have hred := ApplyDirichletRHS_single s hsp r hlen
        ⟨.xLow, .dirichlet, faceArea s .xLow, g⟩
      unfold applyDirichletData at hred
      dsimp only at hred
      rw [if_neg (by decide : ¬(BCType.dirichlet ≠ BCType.dirichlet)),
        if_neg hdim',
        if_neg (show ¬(faceArea s .xLow ≠ s 1 * s 2) from fun hc => hc rfl)] at hred
      simp only [show (BoundaryFace.xLow = BoundaryFace.xHigh) = False
        from eq_false (by decide), if_false] at hred
      refine ⟨_, hred, ?_⟩
      intro i j k hi hj hk
      rw [patchX_eval s r.data _ 0 0 ((Nat.zero_mul _).symm) i j k hi hj hk]
      by_cases hOn : i = 0
      · rw [if_pos hOn,
          if_pos (show faceCoord .xLow i j k = faceLayer s .xLow from hOn)]
        show r.data _ + -(g (j * s 2 + k) * (1 / (hsp 0 * hsp 0))) =
          r.data _ - g (j * s 2 + k) / (hsp 0 * hsp 0)
        all_goals ring
      · rw [if_neg hOn,
          if_neg (show ¬(faceCoord .xLow i j k = faceLayer s .xLow) from hOn)]
        all_goals ring
    · have hred := ApplyNeumannRHS_single s hsp r hlen
        ⟨.xLow, .neumann, faceArea s .xLow, g⟩
      unfold applyNeumannData at hred
      dsimp only at hred
      rw [if_neg (by decide : ¬(BCType.neumann ≠ BCType.neumann)),
        if_neg hdim',
        if_neg (show ¬(faceArea s .xLow ≠ s 1 * s 2) from fun hc => hc rfl)] at hred
      simp only [show (BoundaryFace.xLow = BoundaryFace.xHigh) = False
        from eq_false (by decide), if_false] at hred
      refine ⟨_, hred, ?_⟩
      intro i j k hi hj hk
      rw [patchX_eval s r.data _ 0 0 ((Nat.zero_mul _).symm) i j k hi hj hk]
      by_cases hOn : i = 0
      · rw [if_pos hOn,
          if_pos (show faceCoord .xLow i j k = faceLayer s .xLow from hOn)]
        show r.data _ + g (j * s 2 + k) * -(1 / hsp 0) =
          r.data _ + (if faceIsHigh .xLow then (1 : ℝ) else -1) *
            g (j * s 2 + k) / hsp 0
        rw [if_neg (by decide : ¬(faceIsHigh .xLow = true))]
        all_goals ring
      · rw [if_neg hOn,
          if_neg (show ¬(faceCoord .xLow i j k = faceLayer s .xLow) from hOn)]
        all_goals ring
  case xHigh =>
    have hdim' : ¬ Shape.dim s < 1 := hdim
    constructor
    · have hred := ApplyDirichletRHS_single s hsp r hlen
        ⟨.xHigh, .dirichlet, faceArea s .xHigh, g⟩
      unfold applyDirichletData at hred
      dsimp only at hred
      rw [if_neg (by decide : ¬(BCType.dirichlet ≠ BCType.dirichlet)),
        if_neg hdim',
        if_neg (show ¬(faceArea s .xHigh ≠ s 1 * s 2) from fun hc => hc rfl)] at hred
      simp only [eq_self_iff_true, if_true] at hred
      refine ⟨_, hred, ?_⟩
      intro i j k hi hj hk
      rw [patchX_eval s r.data _ ((s 0 - 1) * (s 1 * s 2)) (s 0 - 1) rfl i j k hi hj hk]
      by_cases hOn : i = s 0 - 1
      · rw [if_pos hOn,
          if_pos (show faceCoord .xHigh i j k = faceLayer s .xHigh from hOn)]
        show r.data _ + -(g (j * s 2 + k) * (1 / (hsp 0 * hsp 0))) =
          r.data _ - g (j * s 2 + k) / (hsp 0 * hsp 0)
        all_goals ring
      · rw [if_neg hOn,
          if_neg (show ¬(faceCoord .xHigh i j k = faceLayer s .xHigh) from hOn)]
        all_goals ring
    · have hred := ApplyNeumannRHS_single s hsp r hlen
        ⟨.xHigh, .neumann, faceArea s .xHigh, g⟩
      unfold applyNeumannData at hred
      dsimp only at hred
      rw [if_neg (by decide : ¬(BCType.neumann ≠ BCType.neumann)),
        if_neg hdim',
        if_neg (show ¬(faceArea s .xHigh ≠ s 1 * s 2) from fun hc => hc rfl)] at hred
      simp only [eq_self_iff_true, if_true] at hred
      refine ⟨_, hred, ?_⟩
      intro i j k hi hj hk
      rw [patchX_eval s r.data _ ((s 0 - 1) * (s 1 * s 2)) (s 0 - 1) rfl i j k hi hj hk]
      by_cases hOn : i = s 0 - 1
      · rw [if_pos hOn,
          if_pos (show faceCoord .xHigh i j k = faceLayer s .xHigh from hOn)]
        show r.data _ + g (j * s 2 + k) * (1 / hsp 0) =
          r.data _ + (if faceIsHigh .xHigh then (1 : ℝ) else -1) *
            g (j * s 2 + k) / hsp 0
        rw [if_pos (by decide : faceIsHigh .xHigh = true)]
        all_goals ring
      · rw [if_neg hOn,
          if_neg (show ¬(faceCoord .xHigh i j k = faceLayer s .xHigh) from hOn)]
        all_goals ring
  case yLow =>
    have hdim' : ¬ Shape.dim s < 2 := hdim
    have hj0 : (0 : ℕ) < s 1 := hpos 1
    constructor
    · have hred := ApplyDirichletRHS_single s hsp r hlen
        ⟨.yLow, .dirichlet, faceArea s .yLow, g⟩
      unfold applyDirichletData at hred
      dsimp only at hred
      rw [if_neg (by decide : ¬(BCType.dirichlet ≠ BCType.dirichlet)),
        if_neg hdim',
        if_neg (show ¬(faceArea s .yLow ≠ s 0 * s 2) from fun hc => hc rfl)] at hred
      simp only [show (BoundaryFace.yLow = BoundaryFace.yHigh) = False
        from eq_false (by decide), if_false] at hred
      refine ⟨_, hred, ?_⟩
      intro i j k hi hj hk
      rw [patchY_eval s r.data _ 0 hj0 i j k hi hj hk]
      by_cases hOn : j = 0
      · rw [if_pos hOn,
          if_pos (show faceCoord .yLow i j k = faceLayer s .yLow from hOn)]
        show r.data _ + -(g (i * s 2 + k) * (1 / (hsp 1 * hsp 1))) =
          r.data _ - g (i * s 2 + k) / (hsp 1 * hsp 1)
        all_goals ring
      · rw [if_neg hOn,
          if_neg (show ¬(faceCoord .yLow i j k = faceLayer s .yLow) from hOn)]
        all_goals ring
    · have hred := ApplyNeumannRHS_single s hsp r hlen
        ⟨.yLow, .neumann, faceArea s .yLow, g⟩
      unfold applyNeumannData at hred
      dsimp only at hred
      rw [if_neg (by decide : ¬(BCType.neumann ≠ BCType.neumann)),
        if_neg hdim',
        if_neg (show ¬(faceArea s .yLow ≠ s 0 * s 2) from fun hc => hc rfl)] at hred
      simp only [show (BoundaryFace.yLow = BoundaryFace.yHigh) = False
        from eq_false (by decide), if_false] at hred
      refine ⟨_, hred, ?_⟩
      intro i j k hi hj hk
      rw [patchY_eval s r.data _ 0 hj0 i j k hi hj hk]
      by_cases hOn : j = 0
      · rw [if_pos hOn,
          if_pos (show faceCoord .yLow i j k = faceLayer s .yLow from hOn)]
        show r.data _ + g (i * s 2 + k) * -(1 / hsp 1) =
          r.data _ + (if faceIsHigh .yLow then (1 : ℝ) else -1) *
            g (i * s 2 + k) / hsp 1
        rw [if_neg (by decide : ¬(faceIsHigh .yLow = true))]
        all_goals ring
      · rw [if_neg hOn,
          if_neg (show ¬(faceCoord .yLow i j k = faceLayer s .yLow) from hOn)]
        all_goals ring
  case yHigh =>
    have hdim' : ¬ Shape.dim s < 2 := hdim
    have hj0 : s 1 - 1 < s 1 := by have := hpos 1; omega
    constructor
    · have hred := ApplyDirichletRHS_single s hsp r hlen
        ⟨.yHigh, .dirichlet, faceArea s .yHigh, g⟩
      unfold applyDirichletData at hred
      dsimp only at hred
      rw [if_neg (by decide : ¬(BCType.dirichlet ≠ BCType.dirichlet)),
        if_neg hdim',
        if_neg (show ¬(faceArea s .yHigh ≠ s 0 * s 2) from fun hc => hc rfl)] at hred
      simp only [eq_self_iff_true, if_true] at hred
      refine ⟨_, hred, ?_⟩
      intro i j k hi hj hk
      rw [patchY_eval s r.data _ (s 1 - 1) hj0 i j k hi hj hk]
      by_cases hOn : j = s 1 - 1
      · rw [if_pos hOn,
          if_pos (show faceCoord .yHigh i j k = faceLayer s .yHigh from hOn)]
        show r.data _ + -(g (i * s 2 + k) * (1 / (hsp 1 * hsp 1))) =
          r.data _ - g (i * s 2 + k) / (hsp 1 * hsp 1)
        all_goals ring
      · rw [if_neg hOn,
          if_neg (show ¬(faceCoord .yHigh i j k = faceLayer s .yHigh) from hOn)]
        all_goals ring
    · have hred := ApplyNeumannRHS_single s hsp r hlen
        ⟨.yHigh, .neumann, faceArea s .yHigh, g⟩
      unfold applyNeumannData at hred
      dsimp only at hred
      rw [if_neg (by decide : ¬(BCType.neumann ≠ BCType.neumann)),
        if_neg hdim',
        if_neg (show ¬(faceArea s .yHigh ≠ s 0 * s 2) from fun hc => hc rfl)] at hred
      simp only [eq_self_iff_true, if_true] at hred
      refine ⟨_, hred, ?_⟩
      intro i j k hi hj hk
      rw [patchY_eval s r.data _ (s 1 - 1) hj0 i j k hi hj hk]
      by_cases hOn : j = s 1 - 1
      · rw [if_pos hOn,
          if_pos (show faceCoord .yHigh i j k = faceLayer s .yHigh from hOn)]
        show r.data _ + g (i * s 2 + k) * (1 / hsp 1) =
          r.data _ + (if faceIsHigh .yHigh then (1 : ℝ) else -1) *
            g (i * s 2 + k) / hsp 1
        rw [if_pos (by decide : faceIsHigh .yHigh = true)]
        all_goals ring
      · rw [if_neg hOn,
          if_neg (show ¬(faceCoord .yHigh i j k = faceLayer s .yHigh) from hOn)]
        all_goals ring
  case zLow =>
    have hdim' : ¬ Shape.dim s < 3 := hdim
    have hk0 : (0 : ℕ) < s 2 := hpos 2
    constructor
    · have hred := ApplyDirichletRHS_single s hsp r hlen
        ⟨.zLow, .dirichlet, faceArea s .zLow, g⟩
      unfold applyDirichletData at hred
      dsimp only at hred
      rw [if_neg (by decide : ¬(BCType.dirichlet ≠ BCType.dirichlet)),
        if_neg hdim',
        if_neg (show ¬(faceArea s .zLow ≠ s 0 * s 1) from fun hc => hc rfl)] at hred
      simp only [show (BoundaryFace.zLow = BoundaryFace.zHigh) = False
        from eq_false (by decide), if_false] at hred
      refine ⟨_, hred, ?_⟩
      intro i j k hi hj hk
      rw [patchZ_eval s r.data _ 0 hk0 i j k hi hj hk]
      by_cases hOn : k = 0
      · rw [if_pos hOn,
          if_pos (show faceCoord .zLow i j k = faceLayer s .zLow from hOn)]
        show r.data _ + -(g (i * s 1 + j) * (1 / (hsp 2 * hsp 2))) =
          r.data _ - g (i * s 1 + j) / (hsp 2 * hsp 2)
        all_goals ring
      · rw [if_neg hOn,
          if_neg (show ¬(faceCoord .zLow i j k = faceLayer s .zLow) from hOn)]
        all_goals ring
    · have hred := ApplyNeumannRHS_single s hsp r hlen
        ⟨.zLow, .neumann, faceArea s .zLow, g⟩
      unfold applyNeumannData at hred
      dsimp only at hred
      rw [if_neg (by decide : ¬(BCType.neumann ≠ BCType.neumann)),
        if_neg hdim',
        if_neg (show ¬(faceArea s .zLow ≠ s 0 * s 1) from fun hc => hc rfl)] at hred
      simp only [show (BoundaryFace.zLow = BoundaryFace.zHigh) = False
        from eq_false (by decide), if_false] at hred
      refine ⟨_, hred, ?_⟩
      intro i j k hi hj hk
      rw [patchZ_eval s r.data _ 0 hk0 i j k hi hj hk]
      by_cases hOn : k = 0
      · rw [if_pos hOn,
          if_pos (show faceCoord .zLow i j k = faceLayer s .zLow from hOn)]
        show r.data _ + g (i * s 1 + j) * -(1 / hsp 2) =
          r.data _ + (if faceIsHigh .zLow then (1 : ℝ) else -1) *
            g (i * s 1 + j) / hsp 2
        rw [if_neg (by decide : ¬(faceIsHigh .zLow = true))]
        all_goals ring
      · rw [if_neg hOn,
          if_neg (show ¬(faceCoord .zLow i j k = faceLayer s .zLow) from hOn)]
        all_goals ring
  case zHigh =>
    have hdim' : ¬ Shape.dim s < 3 := hdim
    have hk0 : s 2 - 1 < s 2 := by have := hpos 2; omega
    constructor
    · have hred := ApplyDirichletRHS_single s hsp r hlen
        ⟨.zHigh, .dirichlet, faceArea s .zHigh, g⟩
      unfold applyDirichletData at hred
      dsimp only at hred
      rw [if_neg (by decide : ¬(BCType.dirichlet ≠ BCType.dirichlet)),
        if_neg hdim',
        if_neg (show ¬(faceArea s .zHigh ≠ s 0 * s 1) from fun hc => hc rfl)] at hred
      simp only [eq_self_iff_true, if_true] at hred
      refine ⟨_, hred, ?_⟩
      intro i j k hi hj hk
      rw [patchZ_eval s r.data _ (s 2 - 1) hk0 i j k hi hj hk]
      by_cases hOn : k = s 2 - 1
      · rw [if_pos hOn,
          if_pos (show faceCoord .zHigh i j k = faceLayer s .zHigh from hOn)]
        show r.data _ + -(g (i * s 1 + j) * (1 / (hsp 2 * hsp 2))) =
          r.data _ - g (i * s 1 + j) / (hsp 2 * hsp 2)
        all_goals ring
      · rw [if_neg hOn,
          if_neg (show ¬(faceCoord .zHigh i j k = faceLayer s .zHigh) from hOn)]
        all_goals ring
    · have hred := ApplyNeumannRHS_single s hsp r hlen
        ⟨.zHigh, .neumann, faceArea s .zHigh, g⟩
      unfold applyNeumannData at hred
      dsimp only at hred
      rw [if_neg (by decide : ¬(BCType.neumann ≠ BCType.neumann)),
        if_neg hdim',
        if_neg (show ¬(faceArea s .zHigh ≠ s 0 * s 1) from fun hc => hc rfl)] at hred
      simp only [eq_self_iff_true, if_true] at hred
      refine ⟨_, hred, ?_⟩
      intro i j k hi hj hk
      rw [patchZ_eval s r.data _ (s 2 - 1) hk0 i j k hi hj hk]
      by_cases hOn : k = s 2 - 1
      · rw [if_pos hOn,
          if_pos (show faceCoord .zHigh i j k = faceLayer s .zHigh from hOn)]
        show r.data _ + g (i * s 1 + j) * (1 / hsp 2) =
          r.data _ + (if faceIsHigh .zHigh then (1 : ℝ) else -1) *
            g (i * s 1 + j) / hsp 2
        rw [if_pos (by decide : faceIsHigh .zHigh = true)]
        all_goals ring
      · rw [if_neg hOn,
          if_neg (show ¬(faceCoord .zHigh i j k = faceLayer s .zHigh) from hOn)]
        all_goals ring

/-- Witness for C3: a concrete 2×2×2 grid, face `XLow`. -/
theorem C3_boundary_patches_witness :
    (∃ rD, ApplyDirichletRHS (some ⟨8, fun _ => 0⟩) (fun _ => 2) (fun _ => 1)
        [⟨.xLow, .dirichlet, faceArea (fun _ => 2) .xLow, fun _ => 1⟩] =
          .ok rD ∧
      ∀ i j k, i < (fun _ => 2 : Shape) 0 → j < (fun _ => 2 : Shape) 1 →
          k < (fun _ => 2 : Shape) 2 →
        rD (i * ((fun _ => 2 : Shape) 1 * (fun _ => 2 : Shape) 2) +
            j * (fun _ => 2 : Shape) 2 + k) =
          (fun _ => (0 : ℝ)) (i * ((fun _ => 2 : Shape) 1 *
              (fun _ => 2 : Shape) 2) + j * (fun _ => 2 : Shape) 2 + k) -
            (if faceCoord .xLow i j k = faceLayer (fun _ => 2) .xLow then
              (fun _ => (1 : ℝ)) (faceOrthIndex (fun _ => 2) .xLow i j k) /
                ((fun _ => (1 : ℝ)) (faceAxis .xLow) *
                  (fun _ => (1 : ℝ)) (faceAxis .xLow))
            else 0)) ∧
    (∃ rN, ApplyNeumannRHS (some ⟨8, fun _ => 0⟩) (fun _ => 2) (fun _ => 1)
        [⟨.xLow, .neumann, faceArea (fun _ => 2) .xLow, fun _ => 1⟩] =
          .ok rN ∧
      ∀ i j k, i < (fun _ => 2 : Shape) 0 → j < (fun _ => 2 : Shape) 1 →
          k < (fun _ => 2 : Shape) 2 →
        rN (i * ((fun _ => 2 : Shape) 1 * (fun _ => 2 : Shape) 2) +
            j * (fun _ => 2 : Shape) 2 + k) =
          (fun _ => (0 : ℝ)) (i * ((fun _ => 2 : Shape) 1 *
              (fun _ => 2 : Shape) 2) + j * (fun _ => 2 : Shape) 2 + k) +
            (if faceCoord .xLow i j k = faceLayer (fun _ => 2) .xLow then
              (if faceIsHigh .xLow then 1 else -1) *
                (fun _ => (1 : ℝ)) (faceOrthIndex (fun _ => 2) .xLow i j k) /
                  (fun _ => (1 : ℝ)) (faceAxis .xLow)
            else 0)) :=
  C3_boundary_patches (fun _ => 2) (fun _ => 1) .xLow (fun _ => 1)
    ⟨8, fun _ => 0⟩ (fun _ => one_le_two)
    (show ¬ Shape.dim (fun _ => 2) < 1 by decide) rfl

theorem dstExtend_zero (n : ℕ) (x : ℕ → ℝ) : dstExtend n x 0 = 0 := by
  unfold dstExtend
  rw [if_neg (by omega), if_neg (by omega)]

theorem dstExtend_mid (n : ℕ) (x : ℕ → ℝ) : dstExtend n x (n + 1) = 0 := by
  unfold dstExtend
  rw [if_neg (by omega), if_neg (by omega)]

theorem dstExtend_low (n : ℕ) (x : ℕ → ℝ) (m : ℕ) (hm : m < n) :
    dstExtend n x (m + 1) = ((x m : ℝ) : ℂ) := by
  unfold dstExtend
  rw [if_pos (by omega)]
  norm_num

theorem dstExtend_high (n : ℕ) (x : ℕ → ℝ) (m : ℕ) (hm : m < n) :
    dstExtend n x (2 * n + 1 - m) = ((-x m : ℝ) : ℂ) := by
  unfold dstExtend
  rw [if_neg (by omega), if_pos (by omega)]
  congr 3
  omega

/-- Imaginary part of the DFT of the odd extension: the sine series. -/
theorem dft_odd_sum (n k : ℕ) (x : ℕ → ℝ) :
    (fftForwardDFT (2 * (n + 1)) (dstExtend n x) (k + 1)).im =
      -2 * ∑ m ∈ Finset.range n,
        x m * Real.sin (Real.pi * (m + 1) * (k + 1) / ((n : ℝ) + 1)) := by
  unfold fftForwardDFT
  have hsplit :
      (∑ j ∈ Finset.range (2 * (n + 1)), dstExtend n x j *
        Complex.exp (((-(2 * Real.pi * j * (k + 1 : ℕ) / (2 * (n + 1) : ℕ)) : ℝ) : ℂ)
          * Complex.I)) =
      ∑ m ∈ Finset.range n, (((x m : ℝ) : ℂ) *
        (Complex.exp (((-(2 * Real.pi * (m + 1 : ℕ) * (k + 1 : ℕ) /
            (2 * (n + 1) : ℕ)) : ℝ) : ℂ) * Complex.I) -
         Complex.exp (((-(2 * Real.pi * ((2 * n + 1 - m : ℕ) : ℝ) * (k + 1 : ℕ) /
            (2 * (n + 1) : ℕ)) : ℝ) : ℂ) * Complex.I))) := by
    have hdecomp : ∀ f : ℕ → ℂ, ∑ j ∈ Finset.range (2 * (n + 1)), f j =
        (∑ j ∈ Finset.range (n + 2), f j) +
          ∑ j ∈ Finset.range n, f ((n + 2) + j) := by
      intro f
      rw [Finset.range_eq_Ico]
      rw [← Finset.sum_Ico_consecutive f (by omega : (0 : ℕ) ≤ n + 2)
        (by omega : n + 2 ≤ 2 * (n + 1))]
      congr 1
      rw [Finset.sum_Ico_eq_sum_range]
      rw [show 2 * (n + 1) - (n + 2) = n from by omega]
      rw [← Finset.range_eq_Ico]
    rw [hdecomp]
    have h2 : (∑ j ∈ Finset.range (n + 2), dstExtend n x j *
        Complex.exp (((-(2 * Real.pi * j * (k + 1 : ℕ) / (2 * (n + 1) : ℕ)) : ℝ) : ℂ)
          * Complex.I)) =
        ∑ m ∈ Finset.range n, (((x m : ℝ) : ℂ) *
          Complex.exp (((-(2 * Real.pi * (m + 1 : ℕ) * (k + 1 : ℕ) /
            (2 * (n + 1) : ℕ)) : ℝ) : ℂ) * Complex.I)) := by
      rw [Finset.sum_range_succ, Finset.sum_range_succ']
      rw [dstExtend_mid, dstExtend_zero, MulZeroClass.zero_mul, add_zero,
        MulZeroClass.zero_mul, add_zero]
      refine Finset.sum_congr rfl fun m hm => ?_
      rw [dstExtend_low n x m (Finset.mem_range.mp hm)]
    have h3 : (∑ j ∈ Finset.range n, dstExtend n x ((n + 2) + j) *
        Complex.exp (((-(2 * Real.pi * ((n + 2) + j : ℕ) * (k + 1 : ℕ) /
          (2 * (n + 1) : ℕ)) : ℝ) : ℂ) * Complex.I)) =
        ∑ m ∈ Finset.range n, -((((x m : ℝ) : ℂ)) *
          Complex.exp (((-(2 * Real.pi * ((2 * n + 1 - m : ℕ) : ℝ) * (k + 1 : ℕ) /
            (2 * (n + 1) : ℕ)) : ℝ) : ℂ) * Complex.I)) := by
      rw [← Finset.sum_range_reflect]
      refine Finset.sum_congr rfl fun m hm => ?_
      have hmn : m < n := Finset.mem_range.mp hm
      rw [show (n + 2) + (n - 1 - m) = 2 * n + 1 - m from by omega]
      rw [dstExtend_high n x m hmn]
      push_cast
      ring
    rw [h2, h3, ← Finset.sum_add_distrib]
    refine Finset.sum_congr rfl fun m hm => ?_
    ring
  rw [hsplit, Complex.im_sum]
  have hn1 : ((n : ℝ) + 1) ≠ 0 := by positivity
  have him : ∀ m ∈ Finset.range n,
      ((((x m : ℝ) : ℂ)) *
        (Complex.exp (((-(2 * Real.pi * (m + 1 : ℕ) * (k + 1 : ℕ) /
            (2 * (n + 1) : ℕ)) : ℝ) : ℂ) * Complex.I) -
         Complex.exp (((-(2 * Real.pi * ((2 * n + 1 - m : ℕ) : ℝ) * (k + 1 : ℕ) /
            (2 * (n + 1) : ℕ)) : ℝ) : ℂ) * Complex.I))).im =
      x m * (-2 * Real.sin (Real.pi * (m + 1) * (k + 1) / ((n : ℝ) + 1))) := by
    intro m hm
    have hmn : m < n := Finset.mem_range.mp hm
    rw [Complex.mul_im, Complex.ofReal_re, Complex.ofReal_im,
      MulZeroClass.zero_mul, add_zero, Complex.sub_im,
      Complex.exp_ofReal_mul_I_im, Complex.exp_ofReal_mul_I_im]
    have hθ1 : (-(2 * Real.pi * ((m + 1 : ℕ) : ℝ) * ((k + 1 : ℕ) : ℝ) /
        ((2 * (n + 1) : ℕ) : ℝ))) =
        -(Real.pi * ((m : ℝ) + 1) * ((k : ℝ) + 1) / ((n : ℝ) + 1)) := by
      push_cast
      field_simp
      ring
    have hcast : ((2 * n + 1 - m : ℕ) : ℝ) = 2 * (n : ℝ) + 1 - (m : ℝ) := by
      rw [Nat.cast_sub (by omega : m ≤ 2 * n + 1)]
      push_cast
      ring
    have hθ2 : (-(2 * Real.pi * ((2 * n + 1 - m : ℕ) : ℝ) * ((k + 1 : ℕ) : ℝ) /
        ((2 * (n + 1) : ℕ) : ℝ))) =
        Real.pi * ((m : ℝ) + 1) * ((k : ℝ) + 1) / ((n : ℝ) + 1) +
          ((-((k : ℤ) + 1) : ℤ) : ℝ) * (2 * Real.pi) := by
      rw [hcast]
      push_cast
      field_simp
      ring
    rw [hθ1, hθ2, Real.sin_neg, Real.sin_add_int_mul_two_pi]
    ring
  rw [Finset.sum_congr rfl him]
  rw [show (∑ m ∈ Finset.range n,
      x m * (-2 * Real.sin (Real.pi * (m + 1) * (k + 1) / ((n : ℝ) + 1)))) =
      -2 * ∑ m ∈ Finset.range n,
        x m * Real.sin (Real.pi * (m + 1) * (k + 1) / ((n : ℝ) + 1)) from by
    rw [Finset.mul_sum]
    exact Finset.sum_congr rfl fun m _ => by ring]

/-- The unnormalized DST-I forward transform is the sine sum
`X[k] = Σ_m x[m]·sin(π(m+1)(k+1)/(n+1))`, the defining formula documented
in `dst.go`. -/
theorem DSTPlan_Forward_eq_sum (n : ℕ) (x : ℕ → ℝ) (k : ℕ) :
    (DSTPlan.mk n false).Forward x k =
      ∑ m ∈ Finset.range n,
        x m * Real.sin (Real.pi * (m + 1) * (k + 1) / ((n : ℝ) + 1)) := by
  unfold DSTPlan.Forward
  dsimp only
  rw [if_neg (by decide : ¬(false = true)), mul_one, dft_odd_sum]
  ring

/-- Telescoping evaluation of `Σ_{k<N} cos((k+1)θ)`. -/
theorem sum_cos_telescope (θ : ℝ) (N : ℕ) (hs : Real.sin (θ / 2) ≠ 0) :
    ∑ k ∈ Finset.range N, Real.cos ((k + 1) * θ) =
      (Real.sin ((N : ℝ) * θ + θ / 2) - Real.sin (θ / 2)) /
        (2 * Real.sin (θ / 2)) := by
  have hmul : 2 * Real.sin (θ / 2) * ∑ k ∈ Finset.range N, Real.cos ((k + 1) * θ) =
      Real.sin ((N : ℝ) * θ + θ / 2) - Real.sin (θ / 2) := by
    induction N with
    | zero => simp
    | succ m ih =>
      have key : 2 * Real.sin (θ / 2) * Real.cos (((m : ℝ) + 1) * θ) =
          Real.sin (((m : ℝ) + 1) * θ + θ / 2) -
            Real.sin ((m : ℝ) * θ + θ / 2) := by
        rw [show (m : ℝ) * θ + θ / 2 = ((m : ℝ) + 1) * θ - θ / 2 from by ring]
        rw [Real.sin_add, Real.sin_sub]
        ring
      rw [Finset.sum_range_succ, mul_add, ih]
      push_cast
      linarith [key]
  rw [eq_div_iff (mul_ne_zero two_ne_zero hs)]
  linarith [hmul]

/-- For `0 < c < 2(n+1)`, `Σ_{k<n} cos((k+1)·πc/(n+1)) = (-cos(πc) - 1)/2`. -/
theorem sum_cos_pi_ratio (n c : ℕ) (hc0 : 0 < c) (hc : c < 2 * (n + 1)) :
    ∑ k ∈ Finset.range n, Real.cos ((k + 1) * (Real.pi * c / ((n : ℝ) + 1))) =
      (-Real.cos (Real.pi * c) - 1) / 2 := by
  have hn1 : (0 : ℝ) < (n : ℝ) + 1 := by positivity
  have hcr : (0 : ℝ) < (c : ℝ) := by exact_mod_cast hc0
  have hcr2 : (c : ℝ) < 2 * ((n : ℝ) + 1) := by exact_mod_cast hc
  have hhalf : Real.pi * c / ((n : ℝ) + 1) / 2 =
      Real.pi * c / (2 * ((n : ℝ) + 1)) := by
    rw [div_div, mul_comm ((n : ℝ) + 1) 2]
  have h0 : 0 < Real.pi * c / ((n : ℝ) + 1) / 2 := by
    rw [hhalf]
    positivity
  have hπ : Real.pi * c / ((n : ℝ) + 1) / 2 < Real.pi := by
    rw [hhalf, div_lt_iff (by positivity)]
    nlinarith [Real.pi_pos]
  have hs : Real.sin (Real.pi * c / ((n : ℝ) + 1) / 2) ≠ 0 :=
    ne_of_gt (Real.sin_pos_of_pos_of_lt_pi h0 hπ)
  rw [sum_cos_telescope _ n hs]
  have harg : (n : ℝ) * (Real.pi * c / ((n : ℝ) + 1)) +
      Real.pi * c / ((n : ℝ) + 1) / 2 =
      Real.pi * c - Real.pi * c / ((n : ℝ) + 1) / 2 := by
    field_simp
    ring
  rw [harg, Real.sin_sub]
  rw [show Real.sin (Real.pi * (c : ℝ)) = 0 from by
    rw [mul_comm]
    exact Real.sin_nat_mul_pi c]
  rw [div_eq_div_iff (mul_ne_zero two_ne_zero hs) (two_ne_zero)]
  ring

/-- Discrete DST-I orthogonality, case `b ≤ a`. -/
theorem dst_orthogonality_aux (n a b : ℕ) (ha : a < n) (hba : b ≤ a) :
    ∑ m ∈ Finset.range n,
      Real.sin (Real.pi * (a + 1) * (m + 1) / ((n : ℝ) + 1)) *
        Real.sin (Real.pi * (m + 1) * (b + 1) / ((n : ℝ) + 1)) =
      if a = b then ((n : ℝ) + 1) / 2 else 0 := by
  have hn1 : ((n : ℝ) + 1) ≠ 0 := by positivity
  have hprod : ∀ m : ℕ,
      Real.sin (Real.pi * (a + 1) * (m + 1) / ((n : ℝ) + 1)) *
        Real.sin (Real.pi * (m + 1) * (b + 1) / ((n : ℝ) + 1)) =
      (Real.cos ((m + 1) * (Real.pi * ((a : ℝ) - b) / ((n : ℝ) + 1))) -
       Real.cos ((m + 1) * (Real.pi * ((a : ℝ) + b + 2) / ((n : ℝ) + 1)))) / 2 := by
    intro m
    rw [show ((m : ℝ) + 1) * (Real.pi * ((a : ℝ) - b) / ((n : ℝ) + 1)) =
        Real.pi * (a + 1) * (m + 1) / ((n : ℝ) + 1) -
          Real.pi * (m + 1) * (b + 1) / ((n : ℝ) + 1) from by
      field_simp
      ring]
    rw [show ((m : ℝ) + 1) * (Real.pi * ((a : ℝ) + b + 2) / ((n : ℝ) + 1)) =
        Real.pi * (a + 1) * (m + 1) / ((n : ℝ) + 1) +
          Real.pi * (m + 1) * (b + 1) / ((n : ℝ) + 1) from by
      field_simp
      ring]
    rw [Real.cos_sub, Real.cos_add]
    ring
  rw [Finset.sum_congr rfl fun m _ => hprod m]
  rw [← Finset.sum_div, Finset.sum_sub_distrib]
  by_cases hab : a = b
  · subst hab
    rw [if_pos rfl]
    have h1 : ∀ m ∈ Finset.range n,
        Real.cos ((m + 1) * (Real.pi * ((a : ℝ) - a) / ((n : ℝ) + 1))) = 1 := by
      intro m _
      norm_num
    rw [Finset.sum_congr rfl h1, Finset.sum_const, Finset.card_range,
      nsmul_eq_mul, mul_one]
    have hcast : ((2 * a + 2 : ℕ) : ℝ) = (a : ℝ) + a + 2 := by
      push_cast
      ring
    have h2 := sum_cos_pi_ratio n (2 * a + 2) (by omega) (by omega)
    simp only [hcast] at h2
    rw [h2]
    rw [show Real.pi * ((a : ℝ) + a + 2) = ((a + 1 : ℕ) : ℝ) * (2 * Real.pi) from by
      push_cast
      ring]
    rw [Real.cos_nat_mul_two_pi]
    ring
  · rw [if_neg hab]
    have hblt : b < a := lt_of_le_of_ne hba fun hc => hab hc.symm
    have hcast1 : ((a - b : ℕ) : ℝ) = (a : ℝ) - b := by
      rw [Nat.cast_sub hba]
    have h1 := sum_cos_pi_ratio n (a - b) (by omega) (by omega)
    simp only [hcast1] at h1
    have hcast2 : ((a + b + 2 : ℕ) : ℝ) = (a : ℝ) + b + 2 := by
      push_cast
      ring
    have h2 := sum_cos_pi_ratio n (a + b + 2) (by omega) (by omega)
    simp only [hcast2] at h2
    rw [h1, h2]
    rw [show Real.pi * ((a : ℝ) + b + 2) =
        Real.pi * ((a : ℝ) - b) + (((b : ℤ) + 1 : ℤ) : ℝ) * (2 * Real.pi) from by
      push_cast
      ring]
    rw [Real.cos_add_int_mul_two_pi]
    ring

/-- Discrete DST-I orthogonality:
`Σ_m sin(π(a+1)(m+1)/(n+1))·sin(π(m+1)(b+1)/(n+1)) = (n+1)/2·δ_{ab}`. -/
theorem dst_orthogonality (n a b : ℕ) (ha : a < n) (hb : b < n) :
    ∑ m ∈ Finset.range n,
      Real.sin (Real.pi * (a + 1) * (m + 1) / ((n : ℝ) + 1)) *
        Real.sin (Real.pi * (m + 1) * (b + 1) / ((n : ℝ) + 1)) =
      if a = b then ((n : ℝ) + 1) / 2 else 0 := by
  rcases le_total b a with h | h
  · exact dst_orthogonality_aux n a b ha h
  · have haux := dst_orthogonality_aux n b a hb h
    have hswap : ∀ m ∈ Finset.range n,
        Real.sin (Real.pi * (a + 1) * (m + 1) / ((n : ℝ) + 1)) *
          Real.sin (Real.pi * (m + 1) * (b + 1) / ((n : ℝ) + 1)) =
        Real.sin (Real.pi * (b + 1) * (m + 1) / ((n : ℝ) + 1)) *
          Real.sin (Real.pi * (m + 1) * (a + 1) / ((n : ℝ) + 1)) := by
      intro m _
      rw [show Real.pi * ((a : ℝ) + 1) * (m + 1) / ((n : ℝ) + 1) =
          Real.pi * ((m : ℝ) + 1) * (a + 1) / ((n : ℝ) + 1) from by ring]
      rw [show Real.pi * ((m : ℝ) + 1) * (b + 1) / ((n : ℝ) + 1) =
          Real.pi * ((b : ℝ) + 1) * (m + 1) / ((n : ℝ) + 1) from by ring]
      ring
    rw [Finset.sum_congr rfl hswap, haux]
    by_cases hab : a = b
    · rw [if_pos hab.symm, if_pos hab]
    · rw [if_neg fun hc => hab hc.symm, if_neg hab]

/-- Forward-then-forward scales by `(n+1)/2` on the unnormalized plan. -/
theorem DSTPlan_forward_forward (n : ℕ) (x : ℕ → ℝ) (k : ℕ) (hk : k < n) :
    (DSTPlan.mk n false).Forward ((DSTPlan.mk n false).Forward x) k =
      ((n : ℝ) + 1) / 2 * x k := by
  rw [DSTPlan_Forward_eq_sum]
  have hinner : ∀ m ∈ Finset.range n,
      (DSTPlan.mk n false).Forward x m *
        Real.sin (Real.pi * (m + 1) * (k + 1) / ((n : ℝ) + 1)) =
      ∑ j ∈ Finset.range n,
        x j * (Real.sin (Real.pi * (j + 1) * (m + 1) / ((n : ℝ) + 1)) *
          Real.sin (Real.pi * (m + 1) * (k + 1) / ((n : ℝ) + 1))) := by
    intro m _
    rw [DSTPlan_Forward_eq_sum, Finset.sum_mul]
    exact Finset.sum_congr rfl fun j _ => by ring
  rw [Finset.sum_congr rfl hinner, Finset.sum_comm]
  have houter : ∀ j ∈ Finset.range n,
      (∑ m ∈ Finset.range n,
        x j * (Real.sin (Real.pi * (j + 1) * (m + 1) / ((n : ℝ) + 1)) *
          Real.sin (Real.pi * (m + 1) * (k + 1) / ((n : ℝ) + 1)))) =
      if j = k then x j * (((n : ℝ) + 1) / 2) else 0 := by
    intro j hj
    rw [← Finset.mul_sum]
    rw [dst_orthogonality n j k (Finset.mem_range.mp hj) hk]
    rw [mul_ite, mul_zero]
  rw [Finset.sum_congr rfl houter]
  rw [Finset.sum_ite_eq' (Finset.range n) k fun j => x j * (((n : ℝ) + 1) / 2)]
  rw [if_pos (Finset.mem_range.mpr hk)]
  ring

/-- **C5.** For every `N ≥ 1` and every real input of length `N`, the
unnormalized DST-I plan satisfies `Inverse (Forward x) = x`; the inverse is
the forward transform with each output multiplied by `2/(N+1)`; the
forward-then-forward composition scales the input by `(N+1)/2`; and
`NormalizationFactor()` returns `(N+1)/2` (1 under orthonormal scaling). -/
theorem C5_dst_roundtrip (n : ℕ) (hn : 1 ≤ n) (x : ℕ → ℝ) (k : ℕ)
    (hk : k < n) :
    (DSTPlan.mk n false).Inverse ((DSTPlan.mk n false).Forward x) k = x k ∧
    (DSTPlan.mk n false).Forward ((DSTPlan.mk n false).Forward x) k =
      ((n : ℝ) + 1) / 2 * x k ∧
    (∀ y : ℕ → ℝ, ∀ i : ℕ, (DSTPlan.mk n false).Inverse y i =
      (DSTPlan.mk n false).Forward y i * (2 / ((n : ℝ) + 1))) ∧
    (DSTPlan.mk n false).NormalizationFactor = ((n : ℝ) + 1) / 2 ∧
    (DSTPlan.mk n true).NormalizationFactor = 1 := by
  have hn1 : ((n : ℝ) + 1) ≠ 0 := by positivity
  refine ⟨?_, DSTPlan_forward_forward n x k hk, ?_, ?_, ?_⟩
  · unfold DSTPlan.Inverse
    dsimp only
    rw [if_neg (by decide : ¬(false = true))]
    rw [DSTPlan_forward_forward n x k hk]
    field_simp
  · intro y i
    unfold DSTPlan.Inverse
    dsimp only
    rw [if_neg (by decide : ¬(false = true))]
  · unfold DSTPlan.NormalizationFactor
    rw [if_neg (by decide : ¬(false = true))]
  · unfold DSTPlan.NormalizationFactor
    rw [if_pos (by decide : true = true)]

/-- Witness for C5 at `N = 1`, `x ≡ 1`, `k = 0`. -/
theorem C5_dst_roundtrip_witness :
    (DSTPlan.mk 1 false).Inverse ((DSTPlan.mk 1 false).Forward fun _ => 1) 0 =
      (fun _ => (1 : ℝ)) 0 ∧
    (DSTPlan.mk 1 false).Forward ((DSTPlan.mk 1 false).Forward fun _ => 1) 0 =
      (((1 : ℕ) : ℝ) + 1) / 2 * (fun _ => (1 : ℝ)) 0 ∧
    (∀ y : ℕ → ℝ, ∀ i : ℕ, (DSTPlan.mk 1 false).Inverse y i =
      (DSTPlan.mk 1 false).Forward y i * (2 / (((1 : ℕ) : ℝ) + 1))) ∧
    (DSTPlan.mk 1 false).NormalizationFactor = (((1 : ℕ) : ℝ) + 1) / 2 ∧
    (DSTPlan.mk 1 true).NormalizationFactor = 1 :=
  C5_dst_roundtrip 1 (le_refl 1) (fun _ => 1) 0 (by decide)

/-! ## Chunking lemmas for `parallelFor` -/

theorem runRange_succ {σ : Type} (step : ℕ → σ → σ) (start cnt : ℕ) (st : σ) :
    runRange step start (cnt + 1) st =
      runRange step (start + 1) cnt (step start st) := rfl

theorem runRange_add {σ : Type} (step : ℕ → σ → σ) (a b : ℕ) :
    ∀ (start : ℕ) (st : σ),
      runRange step start (a + b) st =
        runRange step (start + a) b (runRange step start a st) := by
  induction a with
  | zero =>
    intro start st
    rw [Nat.zero_add, Nat.add_zero]
    rfl
  | succ m ih =>
    intro start st
    rw [show m + 1 + b = m + b + 1 from by omega, runRange_succ, runRange_succ,
      ih (start + 1) (step start st),
      show start + 1 + m = start + (m + 1) from by omega]

theorem chained_le {l : List (ℕ × ℕ × ℕ)} : ∀ {a b : ℕ}, Chained a b l → a ≤ b := by
  induction l with
  | nil =>
    intro a b h
    exact le_of_eq h
  | cons c rest ih =>
    intro a b h
    simp only [Chained] at h
    exact le_trans h.2.1 (ih h.2.2)

theorem chained_coverage : ∀ (l : List (ℕ × ℕ × ℕ)) {a b : ℕ}, Chained a b l →
    ∀ i, a ≤ i → i < b → ∃ c ∈ l, c.2.1 ≤ i ∧ i < c.2.2 := by
  intro l
  induction l with
  | nil =>
    intro a b h i h1 h2
    simp only [Chained] at h
    omega
  | cons c rest ih =>
    intro a b h i h1 h2
    simp only [Chained] at h
    obtain ⟨hs, hse, hrest⟩ := h
    by_cases hi : i < c.2.2
    · exact ⟨c, List.mem_cons_self c rest, by omega, hi⟩
    · obtain ⟨c2, hc2, hb⟩ := ih hrest i (by omega) h2
      exact ⟨c2, List.mem_cons_of_mem c hc2, hb⟩

theorem fold_chained {σ : Type} (step : ℕ → σ → σ) :
    ∀ (l : List (ℕ × ℕ × ℕ)) (a b : ℕ) (st : σ), Chained a b l →
      l.foldl
        (fun (acc : σ × Option PoissonErr) c =>
          let r := (runRange step c.2.1 (c.2.2 - c.2.1) acc.1,
            (none : Option PoissonErr))
          (r.1, acc.2.orElse fun _ => r.2))
        (st, none) =
      (runRange step a (b - a) st, none) := by
  intro l
  induction l with
  | nil =>
    intro a b st h
    simp only [Chained] at h
    subst h
    rw [List.foldl_nil, Nat.sub_self]
    rfl
  | cons c rest ih =>
    intro a b st h
    simp only [Chained] at h
    obtain ⟨hs, hse, hrest⟩ := h
    have hcb : c.2.2 ≤ b := chained_le hrest
    rw [List.foldl_cons]
    have ih2 := ih c.2.2 b (runRange step c.2.1 (c.2.2 - c.2.1) st) hrest
    refine Eq.trans ih2 ?_
    rw [show b - a = (c.2.2 - c.2.1) + (b - c.2.2) from by omega,
      runRange_add step (c.2.2 - c.2.1) (b - c.2.2) a st]
    rw [show a + (c.2.2 - c.2.1) = c.2.2 from by omega, hs]

theorem chunkSize_pos {workers tasks : ℕ} (ht : 1 ≤ tasks) (hw : 1 ≤ workers) :
    1 ≤ chunkSize workers tasks := by
  unfold chunkSize
  rw [Nat.le_div_iff_mul_le (by omega)]
  omega

theorem le_chunkSize_mul {workers tasks : ℕ} (hw : 1 ≤ workers) :
    tasks ≤ workers * chunkSize workers tasks := by
  unfold chunkSize
  have h := Nat.div_add_mod (tasks + workers - 1) workers
  have hr := Nat.mod_lt (tasks + workers - 1) (show 0 < workers by omega)
  generalize hP : workers * ((tasks + workers - 1) / workers) = P at h ⊢
  omega

theorem chained_aux (c tasks : ℕ) :
    ∀ (k w0 : ℕ), w0 * c < tasks → tasks ≤ (w0 + k) * c →
      Chained (w0 * c) tasks
        (((List.range' w0 k).takeWhile (fun w => decide (w * c < tasks))).map
          (fun w => (w, w * c, min (w * c + c) tasks))) := by
  intro k
  induction k with
  | zero =>
    intro w0 h1 h2
    rw [Nat.add_zero] at h2
    exact absurd (lt_of_lt_of_le h1 h2) (lt_irrefl _)
  | succ k2 ih =>
    intro w0 h1 h2
    rw [show List.range' w0 (k2 + 1) = w0 :: List.range' (w0 + 1) k2 from
      List.range'_succ w0 k2 1]
    rw [List.takeWhile_cons, if_pos (decide_eq_true h1), List.map_cons]
    simp only [Chained]
    refine ⟨by trivial, le_min (Nat.le_add_right _ _) (le_of_lt h1), ?_⟩
    by_cases hnext : (w0 + 1) * c < tasks
    · have hle : w0 * c + c ≤ tasks := by
        rw [show w0 * c + c = (w0 + 1) * c from by ring]
        exact le_of_lt hnext
      rw [min_eq_left hle, show w0 * c + c = (w0 + 1) * c from by ring]
      exact ih (w0 + 1) hnext
        (by rw [show w0 + 1 + k2 = w0 + (k2 + 1) from by omega]; exact h2)
    · push_neg at hnext
      have hge : tasks ≤ w0 * c + c := by
        rw [show w0 * c + c = (w0 + 1) * c from by ring]
        exact hnext
      rw [min_eq_right hge]
      cases k2 with
      | zero =>
        rw [List.range'_zero, List.takeWhile_nil, List.map_nil]
        simp only [Chained]
      | succ k3 =>
        rw [show List.range' (w0 + 1) (k3 + 1) = (w0 + 1) :: List.range' (w0 + 2) k3 from
          List.range'_succ (w0 + 1) k3 1]
        rw [List.takeWhile_cons,
          if_neg (by simp only [decide_eq_true_eq]; omega), List.map_nil]
        simp only [Chained]

theorem parallelChunks_chained (workers tasks : ℕ) (hw : 2 ≤ workers)
    (ht : 1 ≤ tasks) : Chained 0 tasks (parallelChunks workers tasks) := by
  unfold parallelChunks
  rw [List.range_eq_range' workers]
  have h := chained_aux (chunkSize workers tasks) tasks workers 0
    (by rw [Nat.zero_mul]; exact ht)
    (by rw [Nat.zero_add]; exact le_chunkSize_mul (by omega))
  rw [Nat.zero_mul] at h
  exact h

theorem parallelChunks_end_le (workers tasks : ℕ) :
    ∀ c ∈ parallelChunks workers tasks, c.2.2 ≤ tasks := by
  intro c hc
  unfold parallelChunks at hc
  obtain ⟨w, _, hw⟩ := List.mem_map.mp hc
  rw [← hw]
  exact min_le_right _ _

theorem parallelForM_total {σ : Type} (workers tasks : ℕ) (step : ℕ → σ → σ)
    (st : σ) :
    parallelForM workers tasks
      (fun _ s e d => (runRange step s (e - s) d, none)) st =
      (runRange step 0 tasks st, none) := by
  unfold parallelForM
  by_cases h0 : tasks = 0
  · subst h0
    rw [if_pos rfl]
    rfl
  · rw [if_neg h0]
    by_cases h1 : workers ≤ 1 ∨ tasks = 1
    · rw [if_pos h1]
      rfl
    · rw [if_neg h1]
      push_neg at h1
      have hch := parallelChunks_chained workers tasks (by omega) (by omega)
      have h := fold_chained step (parallelChunks workers tasks) 0 tasks st hch
      rw [Nat.sub_zero] at h
      exact h

theorem parallelForM_congr {σ : Type} (workers tasks : ℕ)
    (fn fn2 : ℕ → ℕ → ℕ → σ → σ × Option PoissonErr) (st : σ)
    (hall : ∀ d, fn 0 0 tasks d = fn2 0 0 tasks d)
    (hch : ∀ c ∈ parallelChunks workers tasks, ∀ d,
      fn c.1 c.2.1 c.2.2 d = fn2 c.1 c.2.1 c.2.2 d) :
    parallelForM workers tasks fn st = parallelForM workers tasks fn2 st := by
  unfold parallelForM
  by_cases h0 : tasks = 0
  · rw [if_pos h0, if_pos h0]
  · rw [if_neg h0, if_neg h0]
    by_cases h1 : workers ≤ 1 ∨ tasks = 1
    · rw [if_pos h1, if_pos h1]
      exact hall st
    · rw [if_neg h1, if_neg h1]
      have : ∀ (l : List (ℕ × ℕ × ℕ)),
          (∀ c ∈ l, ∀ d, fn c.1 c.2.1 c.2.2 d = fn2 c.1 c.2.1 c.2.2 d) →
          ∀ acc : σ × Option PoissonErr,
            l.foldl (fun acc c =>
              let r := fn c.1 c.2.1 c.2.2 acc.1
              (r.1, acc.2.orElse fun _ => r.2)) acc =
            l.foldl (fun acc c =>
              let r := fn2 c.1 c.2.1 c.2.2 acc.1
              (r.1, acc.2.orElse fun _ => r.2)) acc := by
        intro l
        induction l with
        | nil => intro _ acc; rfl
        | cons c rest ihl =>
          intro hl acc
          rw [List.foldl_cons, List.foldl_cons]
          rw [show fn c.1 c.2.1 c.2.2 acc.1 = fn2 c.1 c.2.1 c.2.2 acc.1 from
            hl c (List.mem_cons_self c rest) acc.1]
          exact ihl (fun c2 hc2 d => hl c2 (List.mem_cons_of_mem c hc2) d) _
      exact this (parallelChunks workers tasks) hch (st, none)

/-! ## Characterization of the spectral divide -/

theorem divideStep_eq_zero (p : Plan) (idx : ℕ) (w : ℕ → ℂ)
    (hd : denomAt p idx = 0) :
    divideStep p idx w = Function.update w idx 0 := by
  unfold divideStep
  rw [if_pos hd]

theorem divideStep_eq_div (p : Plan) (idx : ℕ) (w : ℕ → ℂ)
    (hd : denomAt p idx ≠ 0) :
    divideStep p idx w =
      Function.update w idx (w idx / ((denomAt p idx : ℝ) : ℂ)) := by
  unfold divideStep
  rw [if_neg hd]

theorem divideLoop_no_bad (p : Plan) :
    ∀ (cnt start : ℕ) (w : ℕ → ℂ),
      (∀ i, start ≤ i → i < start + cnt → ¬ divideBad p i) →
      divideLoop p start cnt w = (runRange (divideStep p) start cnt w, none) := by
  intro cnt
  induction cnt with
  | zero =>
    intro start w _
    rfl
  | succ c ih =>
    intro start w hnb
    have hs : ¬ divideBad p start := hnb start le_rfl (by omega)
    unfold divideBad at hs
    push_neg at hs
    simp only [divideLoop]
    by_cases hd : denomAt p start = 0
    · rw [if_pos hd, if_pos (hs hd)]
      rw [ih (start + 1) (Function.update w start 0)
        (fun i h1 h2 => hnb i (by omega) (by omega))]
      rw [runRange_succ, divideStep_eq_zero p start w hd]
    · rw [if_neg hd]
      rw [ih (start + 1) (Function.update w start (w start / ((denomAt p start : ℝ) : ℂ)))
        (fun i h1 h2 => hnb i (by omega) (by omega))]
      rw [runRange_succ, divideStep_eq_div p start w hd]

theorem divideLoop_err (p : Plan) :
    ∀ (cnt start : ℕ) (w : ℕ → ℂ) (e : PoissonErr),
      (divideLoop p start cnt w).2 = some e → e = .resonant := by
  intro cnt
  induction cnt with
  | zero =>
    intro start w e h
    simp only [divideLoop] at h
    exact Option.noConfusion h
  | succ c ih =>
    intro start w e h
    simp only [divideLoop] at h
    by_cases hd : denomAt p start = 0
    · rw [if_pos hd] at h
      by_cases hz : p.hasNullspace ∧ allowZeroAt p start
      · rw [if_pos hz] at h
        exact ih (start + 1) _ e h
      · rw [if_neg hz] at h
        simp only [Option.some.injEq] at h
        exact h.symm
    · rw [if_neg hd] at h
      exact ih (start + 1) _ e h

theorem divideLoop_bad (p : Plan) :
    ∀ (cnt start : ℕ) (w : ℕ → ℂ),
      (∃ i, start ≤ i ∧ i < start + cnt ∧ divideBad p i) →
      (divideLoop p start cnt w).2 = some .resonant := by
  intro cnt
  induction cnt with
  | zero =>
    intro start w h
    obtain ⟨i, h1, h2, _⟩ := h
    omega
  | succ c ih =>
    intro start w h
    simp only [divideLoop]
    by_cases hb : divideBad p start
    · rw [if_pos hb.1, if_neg hb.2]
    · obtain ⟨i, h1, h2, hbad⟩ := h
      have hi : start + 1 ≤ i := by
        rcases Nat.eq_or_lt_of_le h1 with hq | hq
        · exact absurd (hq ▸ hbad) hb
        · exact hq
      by_cases hd : denomAt p start = 0
      · rw [if_pos hd]
        have hz : p.hasNullspace ∧ allowZeroAt p start := by
          by_contra hz
          exact hb ⟨hd, hz⟩
        rw [if_pos hz]
        exact ih (start + 1) _ ⟨i, hi, by omega, hbad⟩
      · rw [if_neg hd]
        exact ih (start + 1) _ ⟨i, hi, by omega, hbad⟩

theorem divideLoop_none (p : Plan) :
    ∀ (cnt start : ℕ) (w : ℕ → ℂ),
      (divideLoop p start cnt w).2 = none →
      ∀ i, start ≤ i → i < start + cnt → ¬ divideBad p i := by
  intro cnt start w h i h1 h2
  intro hbad
  rw [divideLoop_bad p cnt start w ⟨i, h1, h2, hbad⟩] at h
  exact Option.noConfusion h

/-- The final workspace of an error-free spectral divide, pointwise. -/
theorem runRange_divideStep (p : Plan) :
    ∀ (cnt start : ℕ) (w : ℕ → ℂ) (idx : ℕ),
      runRange (divideStep p) start cnt w idx =
        if start ≤ idx ∧ idx < start + cnt then
          (if denomAt p idx = 0 then 0 else w idx / ((denomAt p idx : ℝ) : ℂ))
        else w idx := by
  intro cnt
  induction cnt with
  | zero =>
    intro start w idx
    rw [if_neg (by omega)]
    rfl
  | succ c ih =>
    intro start w idx
    rw [runRange_succ, ih (start + 1) (divideStep p start w) idx]
    unfold divideStep
    by_cases hin : start + 1 ≤ idx ∧ idx < start + 1 + c
    · rw [if_pos hin, if_pos (by omega : start ≤ idx ∧ idx < start + (c + 1))]
      have hne : idx ≠ start := by omega
      rw [Function.update_noteq hne]
    · rw [if_neg hin]
      by_cases heq : idx = start
      · subst heq
        rw [Function.update_same,
          if_pos (show idx ≤ idx ∧ idx < idx + (c + 1) from by omega)]
      · rw [Function.update_noteq heq,
          if_neg (show ¬ (start ≤ idx ∧ idx < start + (c + 1)) from by omega)]

theorem applyEigenvaluesM_no_bad (p : Plan) (w : ℕ → ℂ)
    (hnb : ∀ i, i < p.size → ¬ divideBad p i) :
    applyEigenvaluesM p w = (runRange (divideStep p) 0 p.size w, none) := by
  unfold applyEigenvaluesM
  refine Eq.trans
    (parallelForM_congr _ _ _
      (fun _ s e d => (runRange (divideStep p) s (e - s) d, none)) w ?_ ?_)
    (parallelForM_total _ _ _ _)
  · intro d
    exact divideLoop_no_bad p (p.size - 0) 0 d
      (fun i h1 h2 => hnb i (by omega))
  · intro c hc d
    have he := parallelChunks_end_le _ _ c hc
    exact divideLoop_no_bad p (c.2.2 - c.2.1) c.2.1 d
      (fun i h1 h2 => hnb i (by omega))

theorem foldl_divide_err (p : Plan) :
    ∀ (l : List (ℕ × ℕ × ℕ)) (acc : (ℕ → ℂ) × Option PoissonErr),
      (acc.2 = none ∨ acc.2 = some .resonant) →
      ((l.foldl (fun acc c =>
          let r := divideLoop p c.2.1 (c.2.2 - c.2.1) acc.1
          (r.1, acc.2.orElse fun _ => r.2)) acc).2 = none ∨
        (l.foldl (fun acc c =>
          let r := divideLoop p c.2.1 (c.2.2 - c.2.1) acc.1
          (r.1, acc.2.orElse fun _ => r.2)) acc).2 = some .resonant) ∧
      ((l.foldl (fun acc c =>
          let r := divideLoop p c.2.1 (c.2.2 - c.2.1) acc.1
          (r.1, acc.2.orElse fun _ => r.2)) acc).2 = none →
        acc.2 = none ∧ ∀ c ∈ l, ∀ d : ℕ → ℂ,
          (divideLoop p c.2.1 (c.2.2 - c.2.1) d).2 = none) := by
  intro l
  induction l with
  | nil =>
    intro acc hacc
    rw [List.foldl_nil]
    exact ⟨hacc, fun h => ⟨h, fun c hc => absurd hc (List.not_mem_nil c)⟩⟩
  | cons c rest ih =>
    intro acc hacc
    rw [List.foldl_cons]
    rcases hacc with hnone | hres
    · rcases he : (divideLoop p c.2.1 (c.2.2 - c.2.1) acc.1).2 with _ | e
      · have hacc2 : ((divideLoop p c.2.1 (c.2.2 - c.2.1) acc.1).1,
            acc.2.orElse fun _ => (divideLoop p c.2.1 (c.2.2 - c.2.1) acc.1).2).2 =
            none := by
          rw [hnone]
          simpa using he
        have := ih _ (Or.inl hacc2)
        refine ⟨this.1, fun hend => ⟨hnone, fun c2 hc2 d => ?_⟩⟩
        rcases List.mem_cons.mp hc2 with hq | hq
        · subst hq
          have hnb := divideLoop_none p (c2.2.2 - c2.2.1) c2.2.1 acc.1 he
          rw [divideLoop_no_bad p (c2.2.2 - c2.2.1) c2.2.1 d hnb]
        · exact ((this.2 hend).2) c2 hq d
      · have her : e = .resonant := divideLoop_err p _ _ _ e he
        subst her
        have hacc2 : ((divideLoop p c.2.1 (c.2.2 - c.2.1) acc.1).1,
            acc.2.orElse fun _ => (divideLoop p c.2.1 (c.2.2 - c.2.1) acc.1).2).2 =
            some .resonant := by
          rw [hnone]
          simpa using he
        have := ih _ (Or.inr hacc2)
        refine ⟨this.1, fun hend => ?_⟩
        have := (this.2 hend).1
        rw [hacc2] at this
        exact Option.noConfusion this
    · have hacc2 : ((divideLoop p c.2.1 (c.2.2 - c.2.1) acc.1).1,
          acc.2.orElse fun _ => (divideLoop p c.2.1 (c.2.2 - c.2.1) acc.1).2).2 =
          some .resonant := by
        rw [hres]
        rfl
      have := ih _ (Or.inr hacc2)
      refine ⟨this.1, fun hend => ?_⟩
      have := (this.2 hend).1
      rw [hacc2] at this
      exact Option.noConfusion this

theorem applyEigenvaluesM_bad (p : Plan) (w : ℕ → ℂ)
    (hbad : ∃ i, i < p.size ∧ divideBad p i) :
    (applyEigenvaluesM p w).2 = some .resonant := by
  obtain ⟨i0, hi0, hbad0⟩ := hbad
  unfold applyEigenvaluesM parallelForM
  rw [if_neg (by omega : ¬ p.size = 0)]
  by_cases h1 : clampWorkers p.opts.workers p.size ≤ 1 ∨ p.size = 1
  · rw [if_pos h1]
    exact divideLoop_bad p (p.size - 0) 0 w ⟨i0, by omega, by omega, hbad0⟩
  · rw [if_neg h1]
    push_neg at h1
    have hch := parallelChunks_chained (clampWorkers p.opts.workers p.size)
      p.size (by omega) (by omega)
    have hfold := foldl_divide_err p
      (parallelChunks (clampWorkers p.opts.workers p.size) p.size)
      (w, none) (Or.inl rfl)
    rcases hfold.1 with hnone | hres
    · exfalso
      obtain ⟨c, hc, hcl, hcr⟩ := chained_coverage _ hch i0 (Nat.zero_le i0) hi0
      have := (hfold.2 hnone).2 c hc w
      rw [divideLoop_bad p (c.2.2 - c.2.1) c.2.1 w
        ⟨i0, hcl, by omega, hbad0⟩] at this
      exact Option.noConfusion this
    · exact hres

theorem applyEigenvaluesM_err (p : Plan) (w : ℕ → ℂ) (e : PoissonErr)
    (h : (applyEigenvaluesM p w).2 = some e) : e = .resonant := by
  by_cases hbad : ∃ i, i < p.size ∧ divideBad p i
  · have := applyEigenvaluesM_bad p w hbad
    rw [this] at h
    simp only [Option.some.injEq] at h
    exact h.symm
  · push_neg at hbad
    rw [applyEigenvaluesM_no_bad p w (fun i hi => hbad i hi)] at h
    exact Option.noConfusion h

/-! ## `transformLines` characterization and worker invariance -/

theorem transformLinesM_eq (t : AxisTransformM) (workers : ℤ) (dataLen : ℕ)
    (s : Shape) (axis : Fin 3) (inverse : Bool) (data : ℕ → ℂ) :
    transformLinesM t workers dataLen s axis inverse data =
      if dataLen ≠ s.size then (data, some .sizeMismatch)
      else if s axis ≠ t.Length then (data, some .sizeMismatch)
      else (runRange (applyLine t inverse s axis) 0 (lineCount s axis) data,
        none) := by
  unfold transformLinesM
  by_cases h1 : dataLen ≠ s.size
  · rw [if_pos h1, if_pos h1]
  · rw [if_neg h1, if_neg h1]
    by_cases h2 : s axis ≠ t.Length
    · rw [if_pos h2, if_pos h2]
    · rw [if_neg h2, if_neg h2]
      exact parallelForM_total _ _ _ _

theorem planForward_opts (p : Plan) (o2 : Options) (a : Fin 3) (w : ℕ → ℂ) :
    planForward { p with opts := o2 } a w = planForward p a w := by
  unfold planForward
  rw [show ({ p with opts := o2 } : Plan).tr = p.tr from rfl]
  rw [show Plan.shape { p with opts := o2 } = Plan.shape p from rfl]
  cases htr : p.tr a with
  | none => rfl
  | some t =>
    dsimp only
    rw [transformLinesM_eq, transformLinesM_eq]

theorem planInverse_opts (p : Plan) (o2 : Options) (a : Fin 3) (w : ℕ → ℂ) :
    planInverse { p with opts := o2 } a w = planInverse p a w := by
  unfold planInverse
  rw [show ({ p with opts := o2 } : Plan).tr = p.tr from rfl]
  rw [show Plan.shape { p with opts := o2 } = Plan.shape p from rfl]
  cases htr : p.tr a with
  | none => rfl
  | some t =>
    dsimp only
    rw [transformLinesM_eq, transformLinesM_eq]

theorem forwardPasses_opts (p : Plan) (o2 : Options) :
    ∀ (l : List (Fin 3)) (w : ℕ → ℂ),
      forwardPasses { p with opts := o2 } l w = forwardPasses p l w := by
  intro l
  induction l with
  | nil => intro w; rfl
  | cons a rest ih =>
    intro w
    simp only [forwardPasses]
    rw [planForward_opts p o2 a w]
    cases planForward p a w with
    | mk w2 oe =>
      cases oe with
      | none => exact ih w2
      | some e => rfl

theorem inversePasses_opts (p : Plan) (o2 : Options) :
    ∀ (l : List (Fin 3)) (w : ℕ → ℂ),
      inversePasses { p with opts := o2 } l w = inversePasses p l w := by
  intro l
  induction l with
  | nil => intro w; rfl
  | cons a rest ih =>
    intro w
    simp only [inversePasses]
    rw [planInverse_opts p o2 a w]
    cases planInverse p a w with
    | mk w2 oe =>
      cases oe with
      | none => exact ih w2
      | some e => rfl

theorem applyEigenvaluesM_opts (p : Plan) (o2 : Options) (w : ℕ → ℂ) :
    (applyEigenvaluesM { p with opts := o2 } w).2 =
      (applyEigenvaluesM p w).2 ∧
    ((applyEigenvaluesM p w).2 = none →
      applyEigenvaluesM { p with opts := o2 } w = applyEigenvaluesM p w) := by
  have hbadEq : ∀ i, divideBad { p with opts := o2 } i = divideBad p i :=
    fun _ => rfl
  have hstep : divideStep { p with opts := o2 } = divideStep p := rfl
  have hsize : ({ p with opts := o2 } : Plan).size = p.size := rfl
  by_cases hbad : ∃ i, i < p.size ∧ divideBad p i
  · have h1 := applyEigenvaluesM_bad p w hbad
    have h2 := applyEigenvaluesM_bad { p with opts := o2 } w
      (by rw [hsize]; simpa only [hbadEq] using hbad)
    refine ⟨by rw [h1, h2], fun hc => ?_⟩
    rw [h1] at hc
    exact Option.noConfusion hc
  · push_neg at hbad
    have h1 := applyEigenvaluesM_no_bad p w (fun i hi => hbad i hi)
    have h2 := applyEigenvaluesM_no_bad { p with opts := o2 } w
      (fun i hi => by rw [hbadEq]; exact hbad i (by rw [← hsize]; exact hi))
    rw [h1, h2, hstep, hsize]
    exact ⟨rfl, fun _ => rfl⟩

open Classical in
theorem solveFrom_opts (p : Plan) (o2 : Options)
    (hsm : o2.solutionMean = p.opts.solutionMean) (d r : GoSlice)
    (offset : ℝ) (m : SolveMem) :
    ((solveFrom { p with opts := o2 } d r offset m).1.bufs =
      (solveFrom p d r offset m).1.bufs) ∧
    (solveFrom { p with opts := o2 } d r offset m).2 =
      (solveFrom p d r offset m).2 := by
  unfold solveFrom
  dsimp only
  rw [show initWork { p with opts := o2 } r offset m =
    initWork p r offset m from rfl]
  rw [show ({ p with opts := o2 } : Plan).dim = p.dim from rfl]
  rw [forwardPasses_opts p o2 (axisList p.dim) (initWork p r offset m).work]
  cases hfw : forwardPasses p (axisList p.dim) (initWork p r offset m).work with
  | mk w1 oe1 =>
    cases oe1 with
    | some e => exact ⟨rfl, rfl⟩
    | none =>
      dsimp only
      have hA := applyEigenvaluesM_opts p o2 w1
      cases hA2 : applyEigenvaluesM p w1 with
      | mk w2 oe2 =>
        cases oe2 with
        | some e =>
          rw [hA2] at hA
          cases hA2p : applyEigenvaluesM { p with opts := o2 } w1 with
          | mk w2p oe2p =>
            rw [hA2p] at hA
            have : oe2p = some e := hA.1
            subst this
            exact ⟨rfl, rfl⟩
        | none =>
          rw [hA2] at hA
          rw [hA.2 rfl]
          dsimp only
          rw [inversePasses_opts p o2 (axisList p.dim).reverse w2]
          cases hinv : inversePasses p (axisList p.dim).reverse w2 with
          | mk w3 oe3 =>
            cases oe3 with
            | some e => exact ⟨rfl, rfl⟩
            | none =>
              dsimp only
              refine ⟨?_, rfl⟩
              have haddm :
                  (if ({ p with opts := o2 } : Plan).hasNullspace ∧
                      o2.solutionMean.isSome then o2.solutionMean.getD 0
                   else (0 : ℝ)) =
                  (if p.hasNullspace ∧ p.opts.solutionMean.isSome then
                      p.opts.solutionMean.getD 0
                   else (0 : ℝ)) := by
                rw [hsm]
                rfl
              simp only [haddm]

open Classical in
theorem SolveM_some (p : Plan) (d r : GoSlice) (m : SolveMem) :
    SolveM p (some d) (some r) m =
      if d.len ≠ p.size ∨ r.len ≠ p.size then (m, some .sizeMismatch)
      else if p.hasNullspace ∧ p.opts.nullspace = .nullspaceError then
        (m, some .nullspace)
      else if p.hasNullspace ∧ p.opts.nullspace = .zeroMode ∧
          ¬ meanWithinTolerance (meanAndMaxAbs r.len (m.bufs r.id)).1
            (meanAndMaxAbs r.len (m.bufs r.id)).2 then
        (m, some .nonZeroMean)
      else
        solveFrom p d r
          (if p.hasNullspace ∧ p.opts.nullspace = .subtractMean
           then (meanAndMaxAbs r.len (m.bufs r.id)).1 else 0) m := rfl

open Classical in
theorem SolveM_opts (p : Plan) (o2 : Options)
    (hns : o2.nullspace = p.opts.nullspace)
    (hsm : o2.solutionMean = p.opts.solutionMean)
    (dst rhs : Option GoSlice) (m : SolveMem) :
    ((SolveM { p with opts := o2 } dst rhs m).1.bufs =
      (SolveM p dst rhs m).1.bufs) ∧
    (SolveM { p with opts := o2 } dst rhs m).2 =
      (SolveM p dst rhs m).2 := by
  cases dst with
  | none => exact ⟨rfl, rfl⟩
  | some d =>
    cases rhs with
    | none => exact ⟨rfl, rfl⟩
    | some r =>
      have hmain : SolveM { p with opts := o2 } (some d) (some r) m =
          if d.len ≠ p.size ∨ r.len ≠ p.size then (m, some .sizeMismatch)
          else if p.hasNullspace ∧ o2.nullspace = .nullspaceError then
            (m, some .nullspace)
          else if p.hasNullspace ∧ o2.nullspace = .zeroMode ∧
              ¬ meanWithinTolerance (meanAndMaxAbs r.len (m.bufs r.id)).1
                (meanAndMaxAbs r.len (m.bufs r.id)).2 then
            (m, some .nonZeroMean)
          else
            solveFrom { p with opts := o2 } d r
              (if p.hasNullspace ∧ o2.nullspace = .subtractMean
               then (meanAndMaxAbs r.len (m.bufs r.id)).1 else 0) m := rfl
      rw [hmain, SolveM_some p d r m, hns]
      by_cases h1 : d.len ≠ p.size ∨ r.len ≠ p.size
      · rw [if_pos h1, if_pos h1]
        exact ⟨rfl, rfl⟩
      · rw [if_neg h1, if_neg h1]
        by_cases h2 : p.hasNullspace ∧ p.opts.nullspace = .nullspaceError
        · rw [if_pos h2, if_pos h2]
          exact ⟨rfl, rfl⟩
        · rw [if_neg h2, if_neg h2]
          by_cases h3 : p.hasNullspace ∧ p.opts.nullspace = .zeroMode ∧
              ¬ meanWithinTolerance (meanAndMaxAbs r.len (m.bufs r.id)).1
                (meanAndMaxAbs r.len (m.bufs r.id)).2
          · rw [if_pos h3, if_pos h3]
            exact ⟨rfl, rfl⟩
          · rw [if_neg h3, if_neg h3]
            exact solveFrom_opts p o2 hsm d r _ m

/-! ## Success of the transform passes on well-formed plans -/

theorem axisList_mem {dim : ℕ} {a : Fin 3} (h : a ∈ axisList dim) :
    (a : ℕ) < dim := by
  unfold axisList at h
  obtain ⟨x, hx, hfx⟩ := List.mem_filterMap.mp h
  by_cases h3 : x < 3
  · rw [dif_pos h3] at hfx
    have := Option.some.inj hfx
    rw [← this]
    exact List.mem_range.mp hx
  · rw [dif_neg h3] at hfx
    exact Option.noConfusion hfx

theorem planForward_ok (p : Plan) (hwf : PlanWF p) (a : Fin 3)
    (ha : (a : ℕ) < p.dim) (w : ℕ → ℂ) :
    ∃ t, p.tr a = some t ∧ t.Length = p.n a ∧
      planForward p a w =
        (runRange (applyLine t false (Plan.shape p) a) 0
          (lineCount (Plan.shape p) a) w, none) := by
  obtain ⟨t, htr, hlen⟩ := hwf.2.2.1 a ha
  refine ⟨t, htr, hlen, ?_⟩
  unfold planForward
  rw [htr]
  dsimp only
  rw [transformLinesM_eq]
  rw [if_neg (show ¬ p.work.complexLen ≠ (Plan.shape p).size from
    fun hc => hc (by rw [hwf.2.2.2]; rfl))]
  rw [if_neg (show ¬ (Plan.shape p) a ≠ t.Length from
    fun hc => hc (by rw [hlen]; rfl))]
  rfl

theorem planInverse_ok (p : Plan) (hwf : PlanWF p) (a : Fin 3)
    (ha : (a : ℕ) < p.dim) (w : ℕ → ℂ) :
    ∃ t, p.tr a = some t ∧ t.Length = p.n a ∧
      planInverse p a w =
        (runRange (applyLine t true (Plan.shape p) a) 0
          (lineCount (Plan.shape p) a) w, none) := by
  obtain ⟨t, htr, hlen⟩ := hwf.2.2.1 a ha
  refine ⟨t, htr, hlen, ?_⟩
  unfold planInverse
  rw [htr]
  dsimp only
  rw [transformLinesM_eq]
  rw [if_neg (show ¬ p.work.complexLen ≠ (Plan.shape p).size from
    fun hc => hc (by rw [hwf.2.2.2]; rfl))]
  rw [if_neg (show ¬ (Plan.shape p) a ≠ t.Length from
    fun hc => hc (by rw [hlen]; rfl))]
  rfl

theorem forwardPasses_ok (p : Plan) (hwf : PlanWF p) :
    ∀ (l : List (Fin 3)), (∀ a ∈ l, (a : ℕ) < p.dim) → ∀ w : ℕ → ℂ,
      ∃ w2, forwardPasses p l w = (w2, none) := by
  intro l
  induction l with
  | nil => exact fun _ w => ⟨w, rfl⟩
  | cons a rest ih =>
    intro hmem w
    obtain ⟨t, _, _, hpf⟩ :=
      planForward_ok p hwf a (hmem a (List.mem_cons_self a rest)) w
    obtain ⟨w2, hrest⟩ := ih (fun b hb => hmem b (List.mem_cons_of_mem a hb))
      (runRange (applyLine t false (Plan.shape p) a) 0
        (lineCount (Plan.shape p) a) w)
    refine ⟨w2, ?_⟩
    simp only [forwardPasses]
    rw [hpf]
    exact hrest

theorem inversePasses_ok (p : Plan) (hwf : PlanWF p) :
    ∀ (l : List (Fin 3)), (∀ a ∈ l, (a : ℕ) < p.dim) → ∀ w : ℕ → ℂ,
      ∃ w2, inversePasses p l w = (w2, none) := by
  intro l
  induction l with
  | nil => exact fun _ w => ⟨w, rfl⟩
  | cons a rest ih =>
    intro hmem w
    obtain ⟨t, _, _, hpf⟩ :=
      planInverse_ok p hwf a (hmem a (List.mem_cons_self a rest)) w
    obtain ⟨w2, hrest⟩ := ih (fun b hb => hmem b (List.mem_cons_of_mem a hb))
      (runRange (applyLine t true (Plan.shape p) a) 0
        (lineCount (Plan.shape p) a) w)
    refine ⟨w2, ?_⟩
    simp only [inversePasses]
    rw [hpf]
    exact hrest

/-! ## Frame facts about `Solve`'s memory writes -/

theorem solveFrom_bufs (p : Plan) (d r : GoSlice) (offset : ℝ) (m : SolveMem) :
    ((solveFrom p d r offset m).2.isSome →
      (solveFrom p d r offset m).1.bufs = m.bufs) ∧
    (∀ b, b ≠ d.id → (solveFrom p d r offset m).1.bufs b = m.bufs b) := by
  unfold solveFrom
  dsimp only
  cases forwardPasses p (axisList p.dim) (initWork p r offset m).work with
  | mk w1 oe1 =>
    cases oe1 with
    | some e => exact ⟨fun _ => rfl, fun b _ => rfl⟩
    | none =>
      dsimp only
      cases applyEigenvaluesM p w1 with
      | mk w2 oe2 =>
        cases oe2 with
        | some e => exact ⟨fun _ => rfl, fun b _ => rfl⟩
        | none =>
          dsimp only
          cases inversePasses p (axisList p.dim).reverse w2 with
          | mk w3 oe3 =>
            cases oe3 with
            | some e => exact ⟨fun _ => rfl, fun b _ => rfl⟩
            | none =>
              dsimp only
              refine ⟨fun hc => absurd hc (by simp), fun b hb => ?_⟩
              exact Function.update_noteq hb _ m.bufs

/-- **C7.** Whenever `Solve` returns an error (NilBuffer, SizeMismatch,
Nullspace, NonZeroMean, Resonant, or a wrapped transform error), every
float64 buffer — in particular the destination `dst` — is left completely
unchanged: `dst` is written only in the final write-out step, which runs
after every possible failure point has passed. -/
theorem C7_error_leaves_dst (p : Plan) (dst rhs : Option GoSlice)
    (m : SolveMem) (e : PoissonErr)
    (h : (SolveM p dst rhs m).2 = some e) :
    (SolveM p dst rhs m).1.bufs = m.bufs := by
  cases dst with
  | none => rfl
  | some d =>
    cases rhs with
    | none => rfl
    | some r =>
      rw [SolveM_some]
      by_cases h1 : d.len ≠ p.size ∨ r.len ≠ p.size
      · rw [if_pos h1]
      · rw [if_neg h1]
        by_cases h2 : p.hasNullspace ∧ p.opts.nullspace = .nullspaceError
        · rw [if_pos h2]
        · rw [if_neg h2]
          by_cases h3 : p.hasNullspace ∧ p.opts.nullspace = .zeroMode ∧
              ¬ meanWithinTolerance (meanAndMaxAbs r.len (m.bufs r.id)).1
                (meanAndMaxAbs r.len (m.bufs r.id)).2
          · rw [if_pos h3]
          · rw [if_neg h3]
            refine (solveFrom_bufs p d r _ m).1 ?_
            rw [SolveM_some, if_neg h1, if_neg h2, if_neg h3] at h
            rw [h]
            rfl

/-- Witness for C7: a nil destination fails with `ErrNilBuffer` and leaves
every buffer unchanged. -/
theorem C7_error_leaves_dst_witness :
    (SolveM examplePlan none none exampleMem).2 = some .nilBuffer ∧
    (SolveM examplePlan none none exampleMem).1.bufs = exampleMem.bufs :=
  ⟨rfl, C7_error_leaves_dst examplePlan none none exampleMem .nilBuffer rfl⟩

open Classical in
/-- **C1.** In the spectral divide step: if every zero-denominator index of
the grid is the all-zero mode of a nullspace problem, the divide succeeds,
pinning exactly those coefficients to 0 and dividing all others by their
denominators; if some index has denominator `α + λ₀[i] (+ λ₁[j] if D>1)
(+ λ₂[k] if D>2)` equal to zero without being an allowed zero mode, the
divide — and `Solve`, once it reaches the divide step — fails with the
Resonant error. -/
theorem C1_spectral_divide (p : Plan) (w : ℕ → ℂ) :
    ((∀ i, i < p.size → denomAt p i = 0 →
        p.hasNullspace ∧ allowZeroAt p i) →
      applyEigenvaluesM p w =
        (fun idx =>
          if idx < p.size then
            (if denomAt p idx = 0 then 0
             else w idx / ((denomAt p idx : ℝ) : ℂ))
          else w idx, none)) ∧
    ((∃ i, i < p.size ∧ denomAt p i = 0 ∧
        ¬ (p.hasNullspace ∧ allowZeroAt p i)) →
      (applyEigenvaluesM p w).2 = some .resonant) ∧
    (∀ (dst rhs : GoSlice) (m : SolveMem), PlanWF p →
      dst.len = p.size → rhs.len = p.size →
      ¬ (p.hasNullspace ∧ p.opts.nullspace = .nullspaceError) →
      ¬ (p.hasNullspace ∧ p.opts.nullspace = .zeroMode ∧
        ¬ meanWithinTolerance (meanAndMaxAbs rhs.len (m.bufs rhs.id)).1
          (meanAndMaxAbs rhs.len (m.bufs rhs.id)).2) →
      (∃ i, i < p.size ∧ denomAt p i = 0 ∧
        ¬ (p.hasNullspace ∧ allowZeroAt p i)) →
      (SolveM p (some dst) (some rhs) m).2 = some .resonant) := by
  refine ⟨?_, ?_, ?_⟩
  · intro hok
    have hnb : ∀ i, i < p.size → ¬ divideBad p i := by
      intro i hi hb
      exact hb.2 (hok i hi hb.1)
    rw [applyEigenvaluesM_no_bad p w hnb]
    have hfun : runRange (divideStep p) 0 p.size w =
        (fun idx =>
          if idx < p.size then
            (if denomAt p idx = 0 then 0
             else w idx / ((denomAt p idx : ℝ) : ℂ))
          else w idx) := by
      funext idx
      rw [runRange_divideStep]
      by_cases hi : idx < p.size
      · rw [if_pos (show 0 ≤ idx ∧ idx < 0 + p.size from ⟨Nat.zero_le idx, by omega⟩),
          if_pos hi]
      · rw [if_neg (show ¬ (0 ≤ idx ∧ idx < 0 + p.size) from by omega),
          if_neg hi]
    rw [hfun]
  · intro hbad
    exact applyEigenvaluesM_bad p w hbad
  · intro dst rhs m hwf hdl hrl h2 h3 hbad
    rw [SolveM_some]
    rw [if_neg (show ¬ (dst.len ≠ p.size ∨ rhs.len ≠ p.size) from by
      push_neg
      exact ⟨hdl, hrl⟩)]
    rw [if_neg h2, if_neg h3]
    unfold solveFrom
    dsimp only
    obtain ⟨w1, hfw⟩ := forwardPasses_ok p hwf (axisList p.dim)
      (fun a ha => axisList_mem ha)
      (initWork p rhs
        (if p.hasNullspace ∧ p.opts.nullspace = .subtractMean
         then (meanAndMaxAbs rhs.len (m.bufs rhs.id)).1 else 0) m).work
    rw [hfw]
    dsimp only
    rcases hA : applyEigenvaluesM p w1 with ⟨w2, oe⟩
    have hres := applyEigenvaluesM_bad p w1 hbad
    rw [hA] at hres
    cases oe with
    | some e => exact hres
    | none => exact absurd hres (by simp)

/-- Witness for C1 at the concrete Helmholtz-type plan with `α = -2`
cancelling the single eigenvalue. -/
theorem C1_spectral_divide_witness :
    (∃ i, i < examplePlan.size ∧ denomAt examplePlan i = 0 ∧
      ¬ (examplePlan.hasNullspace ∧ allowZeroAt examplePlan i)) ∧
    (SolveM examplePlan (some ⟨0, examplePlan.size⟩)
      (some ⟨1, examplePlan.size⟩) exampleMem).2 = some .resonant := by
  have hnn : ¬ examplePlan.hasNullspace := by
    intro h
    unfold Plan.hasNullspace at h
    have h1 := h.1
    simp only [examplePlan] at h1
    norm_num at h1
  have hd : denomAt examplePlan 0 = 0 := by
    simp only [denomAt, idxTriple, examplePlan]
    norm_num
  have hwf : PlanWF examplePlan := by
    refine ⟨⟨le_refl 1, (by norm_num : (1 : ℕ) ≤ 3)⟩, fun a => le_refl 1,
      fun a ha => ?_, rfl⟩
    have ha1 : (a : ℕ) < 1 := ha
    have ha0 : a = 0 := Fin.ext (by omega)
    subst ha0
    exact ⟨.dst 1, rfl, rfl⟩
  have hbad : ∃ i, i < examplePlan.size ∧ denomAt examplePlan i = 0 ∧
      ¬ (examplePlan.hasNullspace ∧ allowZeroAt examplePlan i) :=
    ⟨0, Nat.one_pos, hd, fun hc => hnn hc.1⟩
  exact ⟨hbad,
    (C1_spectral_divide examplePlan fun _ => 0).2.2
      ⟨0, examplePlan.size⟩ ⟨1, examplePlan.size⟩ exampleMem hwf rfl rfl
      (fun hc => hnn hc.1) (fun hc => hnn hc.1) hbad⟩

/-! ## Error shapes of the pass pipeline -/

theorem planForward_err_ne (p : Plan) (a : Fin 3) (w : ℕ → ℂ)
    (e : PoissonErr) (h : (planForward p a w).2 = some e) :
    e ≠ .nonZeroMean := by
  unfold planForward at h
  cases htr : p.tr a with
  | none =>
    rw [htr] at h
    have he := (Option.some.inj h).symm
    subst he
    intro hc
    exact PoissonErr.noConfusion hc
  | some t =>
    rw [htr] at h
    dsimp only at h
    rw [Option.map_eq_some'] at h
    obtain ⟨e0, _, hfe⟩ := h
    rw [← hfe]
    intro hc
    exact PoissonErr.noConfusion hc

theorem planInverse_err_ne (p : Plan) (a : Fin 3) (w : ℕ → ℂ)
    (e : PoissonErr) (h : (planInverse p a w).2 = some e) :
    e ≠ .nonZeroMean := by
  unfold planInverse at h
  cases htr : p.tr a with
  | none =>
    rw [htr] at h
    have he := (Option.some.inj h).symm
    subst he
    intro hc
    exact PoissonErr.noConfusion hc
  | some t =>
    rw [htr] at h
    dsimp only at h
    rw [Option.map_eq_some'] at h
    obtain ⟨e0, _, hfe⟩ := h
    rw [← hfe]
    intro hc
    exact PoissonErr.noConfusion hc

theorem forwardPasses_err_ne (p : Plan) :
    ∀ (l : List (Fin 3)) (w : ℕ → ℂ) (e : PoissonErr),
      (forwardPasses p l w).2 = some e → e ≠ .nonZeroMean := by
  intro l
  induction l with
  | nil =>
    intro w e h
    exact Option.noConfusion h
  | cons a rest ih =>
    intro w e h
    simp only [forwardPasses] at h
    cases hf : planForward p a w with
    | mk w2 oe =>
      rw [hf] at h
      cases oe with
      | none => exact ih w2 e h
      | some e2 =>
        have : e2 = e := Option.some.inj h
        subst this
        exact planForward_err_ne p a w e2 (by rw [hf])

theorem inversePasses_err_ne (p : Plan) :
    ∀ (l : List (Fin 3)) (w : ℕ → ℂ) (e : PoissonErr),
      (inversePasses p l w).2 = some e → e ≠ .nonZeroMean := by
  intro l
  induction l with
  | nil =>
    intro w e h
    exact Option.noConfusion h
  | cons a rest ih =>
    intro w e h
    simp only [inversePasses] at h
    cases hf : planInverse p a w with
    | mk w2 oe =>
      rw [hf] at h
      cases oe with
      | none => exact ih w2 e h
      | some e2 =>
        have : e2 = e := Option.some.inj h
        subst this
        exact planInverse_err_ne p a w e2 (by rw [hf])

theorem solveFrom_err_ne (p : Plan) (d r : GoSlice) (offset : ℝ)
    (m : SolveMem) (e : PoissonErr)
    (h : (solveFrom p d r offset m).2 = some e) : e ≠ .nonZeroMean := by
  unfold solveFrom at h
  dsimp only at h
  cases hfw : forwardPasses p (axisList p.dim) (initWork p r offset m).work with
  | mk w1 oe1 =>
    rw [hfw] at h
    cases oe1 with
    | some e1 =>
      have : e1 = e := Option.some.inj h
      subst this
      exact forwardPasses_err_ne p _ _ e1 (by rw [hfw])
    | none =>
      dsimp only at h
      cases hA : applyEigenvaluesM p w1 with
      | mk w2 oe2 =>
        rw [hA] at h
        cases oe2 with
        | some e2 =>
          have h2 : e2 = e := Option.some.inj h
          subst h2
          have : e2 = .resonant := applyEigenvaluesM_err p w1 e2 (by rw [hA])
          subst this
          intro hc
          exact PoissonErr.noConfusion hc
        | none =>
          dsimp only at h
          cases hinv : inversePasses p (axisList p.dim).reverse w2 with
          | mk w3 oe3 =>
            rw [hinv] at h
            cases oe3 with
            | some e3 =>
              have : e3 = e := Option.some.inj h
              subst this
              exact inversePasses_err_ne p _ _ e3 (by rw [hinv])
            | none =>
              dsimp only at h
              exact Option.noConfusion h

open Classical in
/-- **C2.** For every plan whose problem has a nullspace (`α = 0` and every
axis BC has a nullspace): with policy `Error`, `Solve` fails with the
Nullspace error; with the default `ZeroMode` policy, `Solve` fails with
NonZeroMean exactly when `|mean(rhs)| > 1e-12·(1 + maxAbs(rhs))` and
otherwise proceeds with offset 0; with `SubtractMean`, it proceeds with
offset `mean(rhs)`, which the workspace fill subtracts from every rhs entry
before the forward transforms. -/
theorem C2_nullspace_policies (p : Plan) (d r : GoSlice) (m : SolveMem)
    (hnull : p.hasNullspace) (hdl : d.len = p.size) (hrl : r.len = p.size) :
    (p.opts.nullspace = .nullspaceError →
      SolveM p (some d) (some r) m = (m, some .nullspace)) ∧
    (p.opts.nullspace = .zeroMode →
      ((SolveM p (some d) (some r) m).2 = some .nonZeroMean ↔
        ¬ meanWithinTolerance (meanAndMaxAbs r.len (m.bufs r.id)).1
          (meanAndMaxAbs r.len (m.bufs r.id)).2) ∧
      (meanWithinTolerance (meanAndMaxAbs r.len (m.bufs r.id)).1
          (meanAndMaxAbs r.len (m.bufs r.id)).2 →
        SolveM p (some d) (some r) m = solveFrom p d r 0 m)) ∧
    (p.opts.nullspace = .subtractMean →
      SolveM p (some d) (some r) m =
        solveFrom p d r (meanAndMaxAbs r.len (m.bufs r.id)).1 m ∧
      ∀ i, i < p.size →
        (initWork p r (meanAndMaxAbs r.len (m.bufs r.id)).1 m).work i =
          ((m.bufs r.id i - (meanAndMaxAbs r.len (m.bufs r.id)).1 : ℝ) : ℂ)) := by
  have hsz : ¬ (d.len ≠ p.size ∨ r.len ≠ p.size) := by
    push_neg
    exact ⟨hdl, hrl⟩
  refine ⟨?_, ?_, ?_⟩
  · intro ha
    rw [SolveM_some, if_neg hsz, if_pos ⟨hnull, ha⟩]
  · intro ha
    have h2 : ¬ (p.hasNullspace ∧ p.opts.nullspace = .nullspaceError) := by
      rintro ⟨-, hc⟩
      rw [ha] at hc
      exact NullspaceHandling.noConfusion hc
    constructor
    · constructor
      · intro hfail
        intro htol
        rw [SolveM_some, if_neg hsz, if_neg h2,
          if_neg (show ¬ (p.hasNullspace ∧ p.opts.nullspace = .zeroMode ∧
            ¬ meanWithinTolerance (meanAndMaxAbs r.len (m.bufs r.id)).1
              (meanAndMaxAbs r.len (m.bufs r.id)).2) from
            fun hc => hc.2.2 htol)] at hfail
        exact solveFrom_err_ne p d r _ m _ hfail rfl
      · intro hntol
        rw [SolveM_some, if_neg hsz, if_neg h2, if_pos ⟨hnull, ha, hntol⟩]
    · intro htol
      rw [SolveM_some, if_neg hsz, if_neg h2,
        if_neg (show ¬ (p.hasNullspace ∧ p.opts.nullspace = .zeroMode ∧
          ¬ meanWithinTolerance (meanAndMaxAbs r.len (m.bufs r.id)).1
            (meanAndMaxAbs r.len (m.bufs r.id)).2) from
          fun hc => hc.2.2 htol)]
      rw [if_neg (show ¬ (p.hasNullspace ∧ p.opts.nullspace = .subtractMean) from by
        rintro ⟨-, hc⟩
        rw [ha] at hc
        exact NullspaceHandling.noConfusion hc)]
  · intro ha
    have h2 : ¬ (p.hasNullspace ∧ p.opts.nullspace = .nullspaceError) := by
      rintro ⟨-, hc⟩
      rw [ha] at hc
      exact NullspaceHandling.noConfusion hc
    have h3 : ¬ (p.hasNullspace ∧ p.opts.nullspace = .zeroMode ∧
        ¬ meanWithinTolerance (meanAndMaxAbs r.len (m.bufs r.id)).1
          (meanAndMaxAbs r.len (m.bufs r.id)).2) := by
      rintro ⟨-, hc, -⟩
      rw [ha] at hc
      exact NullspaceHandling.noConfusion hc
    refine ⟨?_, ?_⟩
    · rw [SolveM_some, if_neg hsz, if_neg h2, if_neg h3,
        if_pos ⟨hnull, ha⟩]
    · intro i hi
      unfold initWork
      dsimp only
      rw [if_pos hi]

/-- Witness for C2 on the concrete nullspace plan (periodic, `α = 0`)
under the default ZeroMode policy. -/
theorem C2_nullspace_policies_witness :
    examplePlanNull.hasNullspace ∧
    (((SolveM examplePlanNull (some ⟨0, examplePlanNull.size⟩)
        (some ⟨1, examplePlanNull.size⟩) exampleMem).2 = some .nonZeroMean ↔
      ¬ meanWithinTolerance
        (meanAndMaxAbs examplePlanNull.size (exampleMem.bufs 1)).1
        (meanAndMaxAbs examplePlanNull.size (exampleMem.bufs 1)).2) ∧
     (meanWithinTolerance
        (meanAndMaxAbs examplePlanNull.size (exampleMem.bufs 1)).1
        (meanAndMaxAbs examplePlanNull.size (exampleMem.bufs 1)).2 →
      SolveM examplePlanNull (some ⟨0, examplePlanNull.size⟩)
        (some ⟨1, examplePlanNull.size⟩) exampleMem =
        solveFrom examplePlanNull ⟨0, examplePlanNull.size⟩
          ⟨1, examplePlanNull.size⟩ 0 exampleMem)) := by
  have hnull : examplePlanNull.hasNullspace := by
    unfold Plan.hasNullspace
    exact ⟨rfl, fun a _ => rfl⟩
  exact ⟨hnull,
    (C2_nullspace_policies examplePlanNull ⟨0, examplePlanNull.size⟩
      ⟨1, examplePlanNull.size⟩ exampleMem hnull rfl rfl).2.1 rfl⟩

/-! ## Congruence of the per-line transforms in the line contents -/

theorem foldl_maxAbs_congr (v v2 : ℕ → ℝ) :
    ∀ (l : List ℕ), (∀ i ∈ l, v i = v2 i) → ∀ acc : ℝ,
      l.foldl (fun m i => max m |v i|) acc =
        l.foldl (fun m i => max m |v2 i|) acc := by
  intro l
  induction l with
  | nil => intro _ acc; rfl
  | cons a rest ih =>
    intro h acc
    rw [List.foldl_cons, List.foldl_cons, h a (List.mem_cons_self a rest)]
    exact ih (fun i hi => h i (List.mem_cons_of_mem a hi)) _

theorem meanAndMaxAbs_congr (len : ℕ) (v v2 : ℕ → ℝ)
    (h : ∀ i, i < len → v i = v2 i) :
    meanAndMaxAbs len v = meanAndMaxAbs len v2 := by
  unfold meanAndMaxAbs
  by_cases h0 : len = 0
  · rw [if_pos h0, if_pos h0]
  · rw [if_neg h0, if_neg h0]
    congr 1
    · congr 1
      exact Finset.sum_congr rfl fun i hi => h i (Finset.mem_range.mp hi)
    · exact foldl_maxAbs_congr v v2 (List.range len)
        (fun i hi => h i (List.mem_range.mp hi)) 0

theorem dstExtend_congr (n : ℕ) (x y : ℕ → ℝ) (h : ∀ j, j < n → x j = y j)
    (j : ℕ) : dstExtend n x j = dstExtend n y j := by
  unfold dstExtend
  by_cases h1 : 1 ≤ j ∧ j ≤ n
  · rw [if_pos h1, if_pos h1, h (j - 1) (by omega)]
  · rw [if_neg h1, if_neg h1]
    by_cases h2 : n + 2 ≤ j ∧ j ≤ 2 * n + 1
    · rw [if_pos h2, if_pos h2, h (2 * n + 1 - j) (by omega)]
    · rw [if_neg h2, if_neg h2]

theorem DSTPlan_Forward_congr (pl : DSTPlan) (x y : ℕ → ℝ)
    (h : ∀ j, j < pl.n → x j = y j) (k : ℕ) :
    pl.Forward x k = pl.Forward y k := by
  unfold DSTPlan.Forward fftForwardDFT
  have hsum : ∀ k2 : ℕ,
      (∑ j ∈ Finset.range (2 * (pl.n + 1)), dstExtend pl.n x j *
        Complex.exp (((-(2 * Real.pi * j * k2 / ((2 * (pl.n + 1) : ℕ) : ℝ)) : ℝ) : ℂ) *
          Complex.I)) =
      ∑ j ∈ Finset.range (2 * (pl.n + 1)), dstExtend pl.n y j *
        Complex.exp (((-(2 * Real.pi * j * k2 / ((2 * (pl.n + 1) : ℕ) : ℝ)) : ℝ) : ℂ) *
          Complex.I) := by
    intro k2
    exact Finset.sum_congr rfl fun j _ => by rw [dstExtend_congr pl.n x y h j]
  rw [hsum (k + 1)]

theorem DSTPlan_Inverse_congr (pl : DSTPlan) (x y : ℕ → ℝ)
    (h : ∀ j, j < pl.n → x j = y j) (k : ℕ) :
    pl.Inverse x k = pl.Inverse y k := by
  unfold DSTPlan.Inverse
  rw [DSTPlan_Forward_congr pl x y h k]

theorem dctEvenExtend_congr (n : ℕ) (x y : ℕ → ℝ) (h : ∀ j, j < n → x j = y j)
    (j : ℕ) : dctEvenExtend n x j = dctEvenExtend n y j := by
  unfold dctEvenExtend
  by_cases h1 : j < n
  · rw [if_pos h1, if_pos h1, h j h1]
  · rw [if_neg h1, if_neg h1]
    by_cases h2 : j < 2 * n
    · rw [if_pos h2, if_pos h2, h (2 * n - 1 - j) (by omega)]
    · rw [if_neg h2, if_neg h2]

theorem DCT2Plan_Forward_congr (pl : DCT2Plan) (x y : ℕ → ℝ)
    (h : ∀ j, j < pl.n → x j = y j) (k : ℕ) :
    pl.Forward x k = pl.Forward y k := by
  unfold DCT2Plan.Forward fftForwardDFT
  have hsum : (∑ j ∈ Finset.range (2 * pl.n), dctEvenExtend pl.n x j *
      Complex.exp (((-(2 * Real.pi * j * k / ((2 * pl.n : ℕ) : ℝ)) : ℝ) : ℂ) *
        Complex.I)) =
      ∑ j ∈ Finset.range (2 * pl.n), dctEvenExtend pl.n y j *
        Complex.exp (((-(2 * Real.pi * j * k / ((2 * pl.n : ℕ) : ℝ)) : ℝ) : ℂ) *
          Complex.I) :=
    Finset.sum_congr rfl fun j _ => by rw [dctEvenExtend_congr pl.n x y h j]
  rw [hsum]

theorem DCT2Plan_Inverse_congr (pl : DCT2Plan) (hn : 1 ≤ pl.n) (x y : ℕ → ℝ)
    (h : ∀ j, j < pl.n → x j = y j) (k : ℕ) :
    pl.Inverse x k = pl.Inverse y k := by
  unfold DCT2Plan.Inverse
  rw [h 0 hn]
  congr 3
  exact Finset.sum_congr rfl fun j hj => by
    rw [h j (Finset.mem_Ico.mp hj).2]

theorem fftForwardDFT_congr (M : ℕ) (x y : ℕ → ℂ)
    (h : ∀ j, j < M → x j = y j) (k : ℕ) :
    fftForwardDFT M x k = fftForwardDFT M y k := by
  unfold fftForwardDFT
  exact Finset.sum_congr rfl fun j hj => by
    rw [h j (Finset.mem_range.mp hj)]

theorem fftInverseDFT_congr (M : ℕ) (x y : ℕ → ℂ)
    (h : ∀ j, j < M → x j = y j) (k : ℕ) :
    fftInverseDFT M x k = fftInverseDFT M y k := by
  unfold fftInverseDFT
  congr 1
  exact Finset.sum_congr rfl fun j hj => by
    rw [h j (Finset.mem_range.mp hj)]

theorem lineTransform1D_congr (t : AxisTransformM) (inv : Bool)
    (line line2 : ℕ → ℂ) (hlen : 1 ≤ t.Length)
    (h : ∀ j, j < t.Length → line j = line2 j) (i : ℕ) :
    lineTransform1D t inv line i = lineTransform1D t inv line2 i := by
  cases t with
  | fft len =>
    simp only [lineTransform1D]
    cases inv with
    | true =>
      rw [if_pos rfl]
      exact fftInverseDFT_congr len line line2 h i
    | false =>
      rw [if_neg (by simp)]
      exact fftForwardDFT_congr len line line2 h i
  | dst len =>
    simp only [lineTransform1D]
    have hre : ∀ j, j < len → (line j).re = (line2 j).re :=
      fun j hj => by rw [h j hj]
    have him : ∀ j, j < len → (line j).im = (line2 j).im :=
      fun j hj => by rw [h j hj]
    cases inv with
    | true =>
      simp only [eq_self_iff_true, if_true]
      rw [DSTPlan_Inverse_congr (DSTPlan.mk len false) _ _ hre i,
        DSTPlan_Inverse_congr (DSTPlan.mk len false) _ _ him i]
    | false =>
      simp only [show (false = true) = False from eq_false (by decide), if_false]
      rw [DSTPlan_Forward_congr (DSTPlan.mk len false) _ _ hre i,
        DSTPlan_Forward_congr (DSTPlan.mk len false) _ _ him i]
  | dct len =>
    simp only [lineTransform1D]
    have hre : ∀ j, j < len → (line j).re = (line2 j).re :=
      fun j hj => by rw [h j hj]
    have him : ∀ j, j < len → (line j).im = (line2 j).im :=
      fun j hj => by rw [h j hj]
    cases inv with
    | true =>
      simp only [eq_self_iff_true, if_true]
      rw [DCT2Plan_Inverse_congr (DCT2Plan.mk len) hlen _ _ hre i,
        DCT2Plan_Inverse_congr (DCT2Plan.mk len) hlen _ _ him i]
    | false =>
      simp only [show (false = true) = False from eq_false (by decide), if_false]
      rw [DCT2Plan_Forward_congr (DCT2Plan.mk len) _ _ hre i,
        DCT2Plan_Forward_congr (DCT2Plan.mk len) _ _ him i]

/-! ## Line indices stay inside the buffer -/

theorem lineIndex_lt_size0 (s : Shape) (h0 : 0 < s 0) (h1 : 0 < s 1)
    (h2 : 0 < s 2) (line i : ℕ) (hline : line < lineCount s 0) (hi : i < s 0) :
    lineStartIndex s 0 line + i * rowMajorStride s 0 < s.size := by
  simp only [lineCount, otherAxes] at hline
  simp only [lineStartIndex, rowMajorStride, otherAxes, Shape.size]
  norm_num
  rw [if_neg (show ¬ s 1 = 0 from by omega)]
  rw [if_neg (show ¬ (2 : Fin 3) = 0 from by decide)]
  rw [if_neg (show ¬ (2 : Fin 3) = 1 from by decide)]
  have ha : line % s 1 < s 1 := Nat.mod_lt _ h1
  have hb : line / s 1 < s 2 := by
    rw [Nat.div_lt_iff_lt_mul h1, mul_comm]
    exact hline
  have hX : line % s 1 * s 2 + line / s 1 < s 1 * s 2 := mul_add_lt ha hb
  have hout := mul_add_lt hi hX
  rw [mul_assoc]
  linarith [hout]

theorem lineIndex_lt_size1 (s : Shape) (h0 : 0 < s 0) (h1 : 0 < s 1)
    (h2 : 0 < s 2) (line i : ℕ) (hline : line < lineCount s 1) (hi : i < s 1) :
    lineStartIndex s 1 line + i * rowMajorStride s 1 < s.size := by
  simp only [lineCount, otherAxes] at hline
  simp only [lineStartIndex, rowMajorStride, otherAxes, Shape.size]
  norm_num
  rw [if_neg (show ¬ s 0 = 0 from by omega)]
  rw [if_neg (show ¬ (2 : Fin 3) = 0 from by decide)]
  rw [if_neg (show ¬ (2 : Fin 3) = 1 from by decide)]
  have ha : line % s 0 < s 0 := Nat.mod_lt _ h0
  have hb : line / s 0 < s 2 := by
    rw [Nat.div_lt_iff_lt_mul h0, mul_comm]
    exact hline
  have hin : i * s 2 + line / s 0 < s 1 * s 2 := mul_add_lt hi hb
  have hout := mul_add_lt ha hin
  rw [mul_assoc]
  linarith [hout]

theorem lineIndex_lt_size2 (s : Shape) (h0 : 0 < s 0) (h1 : 0 < s 1)
    (h2 : 0 < s 2) (line i : ℕ) (hline : line < lineCount s 2) (hi : i < s 2) :
    lineStartIndex s 2 line + i * rowMajorStride s 2 < s.size := by
  simp only [lineCount, otherAxes] at hline
  simp only [lineStartIndex, rowMajorStride, otherAxes, Shape.size]
  norm_num
  rw [if_neg (show ¬ s 0 = 0 from by omega)]
  rw [if_neg (show ¬ (2 : Fin 3) = 0 from by decide)]
  rw [if_neg (show ¬ (2 : Fin 3) = 1 from by decide)]
  have ha : line % s 0 < s 0 := Nat.mod_lt _ h0
  have hb : line / s 0 < s 1 := by
    rw [Nat.div_lt_iff_lt_mul h0, mul_comm]
    exact hline
  have hin : line / s 0 * s 2 + i < s 1 * s 2 := mul_add_lt hb hi
  have hout := mul_add_lt ha hin
  rw [mul_assoc]
  linarith [hout]

theorem lineIndex_lt_size (s : Shape) (hs : ∀ a, 1 ≤ s a) (axis : Fin 3)
    (line i : ℕ) (hline : line < lineCount s axis) (hi : i < s axis) :
    lineStartIndex s axis line + i * rowMajorStride s axis < s.size := by
  fin_cases axis
  · exact lineIndex_lt_size0 s (hs 0) (hs 1) (hs 2) line i hline hi
  · exact lineIndex_lt_size1 s (hs 0) (hs 1) (hs 2) line i hline hi
  · exact lineIndex_lt_size2 s (hs 0) (hs 1) (hs 2) line i hline hi

/-! ## The pass pipeline reads the workspace only below the grid size -/

theorem applyLine_agree (t : AxisTransformM) (inv : Bool) (s : Shape)
    (axis : Fin 3) (hs : ∀ a, 1 ≤ s a) (hlen : t.Length = s axis)
    (line : ℕ) (hline : line < lineCount s axis) (d d2 : ℕ → ℂ)
    (h : ∀ idx, idx < s.size → d idx = d2 idx) :
    ∀ idx, idx < s.size →
      applyLine t inv s axis line d idx = applyLine t inv s axis line d2 idx := by
  intro idx hidx
  unfold applyLine scatterLine
  by_cases hon : OnLine (lineStartIndex s axis line) (rowMajorStride s axis)
      (s axis) idx
  · rw [if_pos hon, if_pos hon]
    apply lineTransform1D_congr t inv _ _ (by rw [hlen]; exact hs axis)
    intro j hj
    unfold gatherLine
    apply h
    exact lineIndex_lt_size s hs axis line j hline (by rw [← hlen]; exact hj)
  · rw [if_neg hon, if_neg hon]
    exact h idx hidx

theorem lineRun_agree (t : AxisTransformM) (inv : Bool) (s : Shape)
    (axis : Fin 3) (hs : ∀ a, 1 ≤ s a) (hlen : t.Length = s axis) :
    ∀ (cnt start : ℕ), start + cnt ≤ lineCount s axis →
      ∀ (d d2 : ℕ → ℂ), (∀ idx, idx < s.size → d idx = d2 idx) →
      ∀ idx, idx < s.size →
        runRange (applyLine t inv s axis) start cnt d idx =
          runRange (applyLine t inv s axis) start cnt d2 idx := by
  intro cnt
  induction cnt with
  | zero =>
    intro start _ d d2 h idx hidx
    exact h idx hidx
  | succ c ih =>
    intro start hb d d2 h idx hidx
    rw [runRange_succ, runRange_succ]
    exact ih (start + 1) (by omega) _ _
      (applyLine_agree t inv s axis hs hlen start (by omega) d d2 h) idx hidx

theorem forwardPasses_agree (p : Plan) (hwf : PlanWF p) :
    ∀ (l : List (Fin 3)), (∀ a ∈ l, (a : ℕ) < p.dim) →
      ∀ (w w2 : ℕ → ℂ), (∀ i, i < p.size → w i = w2 i) →
      ∀ i, i < p.size →
        (forwardPasses p l w).1 i = (forwardPasses p l w2).1 i := by
  intro l
  induction l with
  | nil =>
    intro _ w w2 h i hi
    exact h i hi
  | cons a rest ih =>
    intro hmem w w2 h i hi
    have ha := hmem a (List.mem_cons_self a rest)
    obtain ⟨t, htr, hlen, hpf⟩ := planForward_ok p hwf a ha w
    obtain ⟨t2, htr2, hlen2, hpf2⟩ := planForward_ok p hwf a ha w2
    rw [htr] at htr2
    have ht : t = t2 := Option.some.inj htr2
    rw [← ht] at hpf2
    simp only [forwardPasses]
    rw [hpf, hpf2]
    refine ih (fun b hb => hmem b (List.mem_cons_of_mem a hb)) _ _ ?_ i hi
    intro j hj
    exact lineRun_agree t false (Plan.shape p) a hwf.2.1
      (by rw [hlen]; rfl) (lineCount (Plan.shape p) a) 0 (by omega) w w2
      (fun idx hidx => h idx hidx) j hj

theorem inversePasses_agree (p : Plan) (hwf : PlanWF p) :
    ∀ (l : List (Fin 3)), (∀ a ∈ l, (a : ℕ) < p.dim) →
      ∀ (w w2 : ℕ → ℂ), (∀ i, i < p.size → w i = w2 i) →
      ∀ i, i < p.size →
        (inversePasses p l w).1 i = (inversePasses p l w2).1 i := by
  intro l
  induction l with
  | nil =>
    intro _ w w2 h i hi
    exact h i hi
  | cons a rest ih =>
    intro hmem w w2 h i hi
    have ha := hmem a (List.mem_cons_self a rest)
    obtain ⟨t, htr, hlen, hpf⟩ := planInverse_ok p hwf a ha w
    obtain ⟨t2, htr2, hlen2, hpf2⟩ := planInverse_ok p hwf a ha w2
    rw [htr] at htr2
    have ht : t = t2 := Option.some.inj htr2
    rw [← ht] at hpf2
    simp only [inversePasses]
    rw [hpf, hpf2]
    refine ih (fun b hb => hmem b (List.mem_cons_of_mem a hb)) _ _ ?_ i hi
    intro j hj
    exact lineRun_agree t true (Plan.shape p) a hwf.2.1
      (by rw [hlen]; rfl) (lineCount (Plan.shape p) a) 0 (by omega) w w2
      (fun idx hidx => h idx hidx) j hj

theorem applyEigenvaluesM_agree (p : Plan) (w w2 : ℕ → ℂ)
    (h : ∀ i, i < p.size → w i = w2 i) :
    (applyEigenvaluesM p w).2 = (applyEigenvaluesM p w2).2 ∧
    ((applyEigenvaluesM p w).2 = none →
      ∀ i, i < p.size →
        (applyEigenvaluesM p w).1 i = (applyEigenvaluesM p w2).1 i) := by
  by_cases hbad : ∃ i, i < p.size ∧ divideBad p i
  · have ha := applyEigenvaluesM_bad p w hbad
    have hb := applyEigenvaluesM_bad p w2 hbad
    refine ⟨by rw [ha, hb], fun hc => ?_⟩
    rw [ha] at hc
    exact absurd hc (by simp)
  · push_neg at hbad
    rw [applyEigenvaluesM_no_bad p w (fun i hi => hbad i hi),
      applyEigenvaluesM_no_bad p w2 (fun i hi => hbad i hi)]
    refine ⟨rfl, fun _ i hi => ?_⟩
    dsimp only
    have hin : 0 ≤ i ∧ i < 0 + p.size := ⟨Nat.zero_le i, by omega⟩
    rw [runRange_divideStep, runRange_divideStep, if_pos hin, if_pos hin]
    by_cases hd : denomAt p i = 0
    · rw [if_pos hd, if_pos hd]
    · rw [if_neg hd, if_neg hd, h i hi]

open Classical in
theorem solveFrom_agree (p : Plan) (hwf : PlanWF p) (d d2 r r2 : GoSlice)
    (offset : ℝ) (m m2 : SolveMem)
    (hr : ∀ i, i < p.size → m.bufs r.id i = m2.bufs r2.id i) :
    (solveFrom p d r offset m).2 = (solveFrom p d2 r2 offset m2).2 ∧
    ((solveFrom p d r offset m).2 = none →
      ∀ i, i < p.work.complexLen →
        (solveFrom p d r offset m).1.bufs d.id i =
          (solveFrom p d2 r2 offset m2).1.bufs d2.id i) := by
  have hmemlist : ∀ a ∈ axisList p.dim, (a : ℕ) < p.dim :=
    fun a ha => axisList_mem ha
  have hmemrev : ∀ a ∈ (axisList p.dim).reverse, (a : ℕ) < p.dim :=
    fun a ha => axisList_mem (List.mem_reverse.mp ha)
  have hw0 : ∀ i, i < p.size →
      (initWork p r offset m).work i = (initWork p r2 offset m2).work i := by
    intro i hi
    unfold initWork
    dsimp only
    rw [if_pos hi, if_pos hi, hr i hi]
  obtain ⟨w1, hfw⟩ := forwardPasses_ok p hwf (axisList p.dim) hmemlist
    (initWork p r offset m).work
  obtain ⟨w1b, hfwb⟩ := forwardPasses_ok p hwf (axisList p.dim) hmemlist
    (initWork p r2 offset m2).work
  have hag1 : ∀ i, i < p.size → w1 i = w1b i := by
    intro i hi
    have hq := forwardPasses_agree p hwf (axisList p.dim) hmemlist _ _ hw0 i hi
    rw [hfw, hfwb] at hq
    exact hq
  unfold solveFrom
  dsimp only
  rw [hfw, hfwb]
  dsimp only
  have hdiv := applyEigenvaluesM_agree p w1 w1b hag1
  rcases hA : applyEigenvaluesM p w1 with ⟨w2, oe⟩
  rcases hAb : applyEigenvaluesM p w1b with ⟨w2b, oeb⟩
  rw [hA, hAb] at hdiv
  cases oe with
  | some e =>
    have hoe : some e = oeb := hdiv.1
    cases oeb with
    | some eb =>
      refine ⟨?_, fun hc => absurd hc (by simp)⟩
      dsimp only
      rw [← hoe]
    | none => exact absurd hoe (by simp)
  | none =>
    have hoe : (none : Option PoissonErr) = oeb := hdiv.1
    cases oeb with
    | some eb => exact absurd hoe (by simp)
    | none =>
      dsimp only
      have hag2 : ∀ i, i < p.size → w2 i = w2b i := fun i hi => hdiv.2 rfl i hi
      obtain ⟨w3, hinv⟩ := inversePasses_ok p hwf (axisList p.dim).reverse
        hmemrev w2
      obtain ⟨w3b, hinvb⟩ := inversePasses_ok p hwf (axisList p.dim).reverse
        hmemrev w2b
      have hag3 : ∀ i, i < p.size → w3 i = w3b i := by
        intro i hi
        have hq := inversePasses_agree p hwf (axisList p.dim).reverse hmemrev
          _ _ hag2 i hi
        rw [hinv, hinvb] at hq
        exact hq
      rw [hinv, hinvb]
      dsimp only
      refine ⟨rfl, fun _ i hi => ?_⟩
      rw [Function.update_same, Function.update_same, if_pos hi, if_pos hi]
      rw [hag3 i (by rw [← hwf.2.2.2]; exact hi)]

theorem examplePlan_wf : PlanWF examplePlan := by
  refine ⟨⟨le_refl 1, (by norm_num : (1 : ℕ) ≤ 3)⟩, fun a => le_refl 1,
    fun a ha => ?_, rfl⟩
  have ha1 : (a : ℕ) < 1 := ha
  have ha0 : a = 0 := Fin.ext (by omega)
  subst ha0
  exact ⟨.dst 1, rfl, rfl⟩

open Classical in
/-- **C10.** `Solve` never writes to any float64 buffer other than the one
`dst` points into — the `rhs` buffer, when distinct from `dst`, is only
read; `SolveInPlace(buf)` is literally `Solve(buf, buf)`; the `InPlace`
option has no effect on `Solve`'s outcome; and because the RHS is fully
copied into the plan's complex workspace before `dst` is first written,
calling `Solve` with `dst` and `rhs` aliased yields exactly the same errors
and the same solution values as calling it on a distinct destination with
an identical RHS. -/
theorem C10_rhs_frame (p : Plan) :
    (∀ (d r : GoSlice) (m : SolveMem) (b : ℕ), b ≠ d.id →
      (SolveM p (some d) (some r) m).1.bufs b = m.bufs b) ∧
    (∀ (buf : Option GoSlice) (m : SolveMem),
      SolveInPlaceM p buf m = SolveM p buf buf m) ∧
    (∀ (b : Bool) (dst rhs : Option GoSlice) (m : SolveMem),
      (SolveM { p with opts := { p.opts with inPlace := b } } dst rhs m).1.bufs =
        (SolveM p dst rhs m).1.bufs ∧
      (SolveM { p with opts := { p.opts with inPlace := b } } dst rhs m).2 =
        (SolveM p dst rhs m).2) ∧
    (PlanWF p → ∀ (d d2 r r2 : GoSlice) (m m2 : SolveMem),
      d.len = d2.len → r.len = r2.len →
      (∀ i, i < r.len → m.bufs r.id i = m2.bufs r2.id i) →
      (SolveM p (some d) (some r) m).2 =
        (SolveM p (some d2) (some r2) m2).2 ∧
      ((SolveM p (some d) (some r) m).2 = none →
        ∀ i, i < p.work.complexLen →
          (SolveM p (some d) (some r) m).1.bufs d.id i =
            (SolveM p (some d2) (some r2) m2).1.bufs d2.id i)) := by
  refine ⟨?_, fun buf m => rfl,
    fun b dst rhs m => SolveM_opts p { p.opts with inPlace := b } rfl rfl dst rhs m, ?_⟩
  · intro d r m b hb
    rw [SolveM_some]
    by_cases h1 : d.len ≠ p.size ∨ r.len ≠ p.size
    · rw [if_pos h1]
    · rw [if_neg h1]
      by_cases h2 : p.hasNullspace ∧ p.opts.nullspace = .nullspaceError
      · rw [if_pos h2]
      · rw [if_neg h2]
        by_cases h3 : p.hasNullspace ∧ p.opts.nullspace = .zeroMode ∧
            ¬ meanWithinTolerance (meanAndMaxAbs r.len (m.bufs r.id)).1
              (meanAndMaxAbs r.len (m.bufs r.id)).2
        · rw [if_pos h3]
        · rw [if_neg h3]
          exact (solveFrom_bufs p d r _ m).2 b hb
  · intro hwf d d2 r r2 m m2 hdl hrl hcont
    rw [SolveM_some p d r m, SolveM_some p d2 r2 m2]
    have hmm : meanAndMaxAbs r2.len (m2.bufs r2.id) =
        meanAndMaxAbs r.len (m.bufs r.id) := by
      rw [← hrl]
      exact (meanAndMaxAbs_congr r.len _ _ hcont).symm
    rw [hmm, ← hdl, ← hrl]
    by_cases h1 : d.len ≠ p.size ∨ r.len ≠ p.size
    · rw [if_pos h1, if_pos h1]
      exact ⟨rfl, fun hc => absurd hc (by simp)⟩
    · rw [if_neg h1, if_neg h1]
      by_cases h2 : p.hasNullspace ∧ p.opts.nullspace = .nullspaceError
      · rw [if_pos h2, if_pos h2]
        exact ⟨rfl, fun hc => absurd hc (by simp)⟩
      · rw [if_neg h2, if_neg h2]
        by_cases h3 : p.hasNullspace ∧ p.opts.nullspace = .zeroMode ∧
            ¬ meanWithinTolerance (meanAndMaxAbs r.len (m.bufs r.id)).1
              (meanAndMaxAbs r.len (m.bufs r.id)).2
        · rw [if_pos h3, if_pos h3]
          exact ⟨rfl, fun hc => absurd hc (by simp)⟩
        · rw [if_neg h3, if_neg h3]
          push_neg at h1
          exact solveFrom_agree p hwf d d2 r r2 _ m m2
            (fun i hi => hcont i (by rw [h1.2]; exact hi))

/-- Witness for C10: on the concrete plan, solving with `dst` and `rhs`
aliased in buffer 0 gives the same error and values as solving into a
distinct buffer with an identical RHS. -/
theorem C10_rhs_frame_witness :
    PlanWF examplePlan ∧
    ((SolveM examplePlan (some ⟨0, 1⟩) (some ⟨0, 1⟩) exampleMem).2 =
      (SolveM examplePlan (some ⟨1, 1⟩) (some ⟨2, 1⟩) exampleMem).2 ∧
     ((SolveM examplePlan (some ⟨0, 1⟩) (some ⟨0, 1⟩) exampleMem).2 = none →
      ∀ i, i < examplePlan.work.complexLen →
        (SolveM examplePlan (some ⟨0, 1⟩) (some ⟨0, 1⟩)
            exampleMem).1.bufs (0 : ℕ) i =
          (SolveM examplePlan (some ⟨1, 1⟩) (some ⟨2, 1⟩)
            exampleMem).1.bufs (1 : ℕ) i)) :=
  ⟨examplePlan_wf,
    (C10_rhs_frame examplePlan).2.2.2 examplePlan_wf ⟨0, 1⟩ ⟨1, 1⟩ ⟨0, 1⟩
      ⟨2, 1⟩ exampleMem exampleMem rfl rfl (fun i _ => rfl)⟩

/-- The record a successful `newPlanWithAlpha` returns, spelled out. -/
theorem newPlanWithAlpha_fields (g : ℤ) (dim : ℕ) (n : List ℕ) (h : List ℝ)
    (bc : List ℤ) (alpha : ℝ) (opts : Options) (p : Plan)
    (hok : newPlanWithAlpha g dim n h bc alpha opts = .ok p) :
    p = { dim := dim,
          n := fun a => if (a : ℕ) < dim then n.getD (a : ℕ) 0 else 1,
          h := fun a => if (a : ℕ) < dim then h.getD (a : ℕ) 0 else 1,
          bc := fun a => if (a : ℕ) < dim then planBC bc (a : ℕ) else .periodic,
          eig := fun a => if (a : ℕ) < dim then planEig n h bc (a : ℕ) else [],
          tr := fun a =>
            if (a : ℕ) < dim then some (planTr n bc (a : ℕ)) else none,
          work := NewWorkspace
            (if opts.inPlace then 0
             else (List.range dim).foldl (fun acc axis => acc * n.getD axis 0) 1)
            ((List.range dim).foldl (fun acc axis => acc * n.getD axis 0) 1),
          opts := { opts with workers := effectiveWorkers g opts.workers },
          alpha := alpha } := by
  unfold newPlanWithAlpha at hok
  by_cases hd : dim < 1 ∨ 3 < dim
  · rw [if_pos hd] at hok
    exact absurd hok (by simp)
  rw [if_neg hd] at hok
  by_cases hn : n.length ≠ dim
  · rw [if_pos hn] at hok
    exact absurd hok (by simp)
  rw [if_neg hn] at hok
  by_cases hh : h.length ≠ dim
  · rw [if_pos hh] at hok
    exact absurd hok (by simp)
  rw [if_neg hh] at hok
  by_cases hb : bc.length ≠ dim
  · rw [if_pos hb] at hok
    exact absurd hok (by simp)
  rw [if_neg hb] at hok
  cases hv : validateAxes dim n h bc with
  | some e =>
    rw [hv] at hok
    exact absurd hok (by simp)
  | none =>
    rw [hv] at hok
    exact (Except.ok.inj hok).symm

/-- **C9.** For every two plans built by the constructor from the same
problem data and options differing only in the worker configuration
(worker request and GOMAXPROCS), `Solve` produces identical buffer contents
and identical errors on every input: the outcome does not depend on how the
line-transform loops and the spectral-divide loop are chunked across
workers. -/
theorem C9_worker_invariance (g1 g2 : ℤ) (dim : ℕ) (n : List ℕ) (h : List ℝ)
    (bc : List ℤ) (alpha : ℝ) (opts1 opts2 : Options)
    (hns : opts1.nullspace = opts2.nullspace)
    (hsm : opts1.solutionMean = opts2.solutionMean)
    (hip : opts1.inPlace = opts2.inPlace)
    (p1 p2 : Plan)
    (h1 : newPlanWithAlpha g1 dim n h bc alpha opts1 = .ok p1)
    (h2 : newPlanWithAlpha g2 dim n h bc alpha opts2 = .ok p2) :
    ∀ (dst rhs : Option GoSlice) (m : SolveMem),
      (SolveM p1 dst rhs m).1.bufs = (SolveM p2 dst rhs m).1.bufs ∧
      (SolveM p1 dst rhs m).2 = (SolveM p2 dst rhs m).2 := by
  intro dst rhs m
  have hf1 := newPlanWithAlpha_fields g1 dim n h bc alpha opts1 p1 h1
  have hf2 := newPlanWithAlpha_fields g2 dim n h bc alpha opts2 p2 h2
  have hrec : p2 = { p1 with
      opts := { opts2 with workers := effectiveWorkers g2 opts2.workers } } := by
    rw [hf2, hf1, show opts2.inPlace = opts1.inPlace from hip.symm]
  have hns2 : ({ opts2 with workers := effectiveWorkers g2 opts2.workers } :
      Options).nullspace = p1.opts.nullspace := by
    rw [hf1]
    exact hns.symm
  have hsm2 : ({ opts2 with workers := effectiveWorkers g2 opts2.workers } :
      Options).solutionMean = p1.opts.solutionMean := by
    rw [hf1]
    exact hsm.symm
  rw [hrec]
  exact ⟨(SolveM_opts p1 _ hns2 hsm2 dst rhs m).1.symm,
    (SolveM_opts p1 _ hns2 hsm2 dst rhs m).2.symm⟩

/-- Witness for C9: the same 1D Dirichlet problem built with worker
requests 1 and 7 solves identically. -/
theorem C9_worker_invariance_witness :
    newPlanWithAlpha 4 1 [1] [(1 : ℝ)] [1] 0
      { DefaultOptions with workers := 1 } = .ok (examplePlanWorkers 1) ∧
    newPlanWithAlpha 4 1 [1] [(1 : ℝ)] [1] 0
      { DefaultOptions with workers := 7 } = .ok (examplePlanWorkers 7) ∧
    (SolveM (examplePlanWorkers 1) (some ⟨0, 1⟩) (some ⟨1, 1⟩)
        exampleMem).1.bufs =
      (SolveM (examplePlanWorkers 7) (some ⟨0, 1⟩) (some ⟨1, 1⟩)
        exampleMem).1.bufs ∧
    (SolveM (examplePlanWorkers 1) (some ⟨0, 1⟩) (some ⟨1, 1⟩)
        exampleMem).2 =
      (SolveM (examplePlanWorkers 7) (some ⟨0, 1⟩) (some ⟨1, 1⟩)
        exampleMem).2 := by
  have hval : validateAxes 1 [1] [(1 : ℝ)] [1] = none := by
    rw [validateAxes_eq_none_iff]
    intro axis ha
    have ha0 : axis = 0 := by omega
    subst ha0
    refine ⟨by norm_num, by norm_num, ?_⟩
    simp [decodeBC]
  have hok : ∀ wk : ℤ, 1 ≤ wk →
      newPlanWithAlpha 4 1 [1] [(1 : ℝ)] [1] 0
        { DefaultOptions with workers := wk } = .ok (examplePlanWorkers wk) := by
    intro wk hwk
    unfold newPlanWithAlpha
    rw [if_neg (by norm_num), if_neg (by norm_num), if_neg (by norm_num),
      if_neg (by norm_num), hval]
    dsimp only
    unfold examplePlanWorkers
    congr 1
    unfold effectiveWorkers
    rw [if_neg (by omega : ¬ wk ≤ 0)]
    dsimp only
    rw [if_neg (by omega : ¬ wk < 1)]
  have h1 := hok 1 (by omega)
  have h7 := hok 7 (by omega)
  have hmain := C9_worker_invariance 4 4 1 [1] [(1 : ℝ)] [1] 0
    { DefaultOptions with workers := 1 } { DefaultOptions with workers := 7 }
    rfl rfl rfl (examplePlanWorkers 1) (examplePlanWorkers 7) h1 h7
    (some ⟨0, 1⟩) (some ⟨1, 1⟩) exampleMem
  exact ⟨h1, h7, hmain.1, hmain.2⟩

end AlgoPde
